import Mathlib

/-!
# Matrix-chain backtracking solver: embedding of `solve_backtracking.c`

The C program keeps its search state in process-wide globals (`stack`, `top`,
`bestCost`, `bestTree`, `d`, `n`).  The embedding threads them through an explicit
`State` record.  C `int` and `long long` values are mathematical integers; the
`long long` additions and multiplications of `combineNodes` are reduced to the signed
64-bit range by `wrapLL`.  A call of `exit(1)` is an `Except.error`.

The generator `generate_instances.c` is embedded further down (`generate`): its loops are
functions on a budget of iterations, its `int` arithmetic is reduced to 32 bits by
`wrapInt`, and the values of `rand()` are a stream given as a parameter.
-/

namespace MCM

/-! ## Constants and machine arithmetic -/

/-- Capacity of the global stack array (`#define MAXSTACK 200`). -/
def MAXSTACK : Int := 200

/-- Size in bytes of every text buffer (`#define MAXREPR 500`). -/
def MAXREPR : Nat := 500

/-- Largest `long long` value, `2^63 - 1`. -/
def LLONG_MAX : Int := 9223372036854775807

/-- Reduction of a mathematical integer to the signed 64-bit range. -/
def wrapLL (x : Int) : Int := (x + 2 ^ 63) % 2 ^ 64 - 2 ^ 63

/-- Wrap of a mathematical integer to the 32-bit range of `int`. -/
def wrapInt (x : Int) : Int := (x + 2147483648) % 4294967296 - 2147483648

/-- Effect of `snprintf(buf, sizeof buf, ...)` on a `MAXREPR`-byte buffer: the formatted
text is cut to its first `MAXREPR - 1` characters. -/
def snprintfRepr (text : String) : String := ⟨text.data.take (MAXREPR - 1)⟩

/-! ## Data model -/

/-- The C `Node` struct: shape, accumulated cost and text of a parse fragment. -/
structure Node where
  rows : Int
  cols : Int
  cost : Int
  repr : String
deriving DecidableEq

/-- The two ways `push` and `pop` terminate the process, and exhaustion of the
recursion budget of `backtrackFuel` (shown never to happen for `backtrack`). -/
inductive Fault where
  | overflow
  | underflow
  | fuel
deriving DecidableEq

/-- The globals of `solve_backtracking.c`.  The field `d` stands for the array
`int d[MAXN+1]`, whose entries are `d[0], ..., d[100]`: the search reads `d[k]` for
`0 <= k <= n` only, so the embedding follows the program for `n <= 100`, and no state is
given to an instance with `n > 100` (see `loadInstance`).  The field `acceptLog` is a
ghost trace: it records the fragment seen at every ACCEPT event, is never read by the
code, and exists only so that statements about the sequence of ACCEPT events can be
written. -/
structure State where
  stack : Int → Node
  top : Int
  bestCost : Int
  bestTree : String
  d : Int → Int
  n : Int
  acceptLog : List Node

/-! ## Stack operations -/

/-- The C function `push`: `if (top >= MAXSTACK) exit(1); stack[top++] = nd;`. -/
def push (nd : Node) (s : State) : Except Fault State :=
  if s.top ≥ MAXSTACK then .error .overflow
  else .ok { s with stack := Function.update s.stack s.top nd, top := s.top + 1 }

/-- The C function `pop`: `if (top <= 0) exit(1); return stack[--top];`. -/
def pop (s : State) : Except Fault (Node × State) :=
  if s.top ≤ 0 then .error .underflow
  else .ok (s.stack (s.top - 1), { s with top := s.top - 1 })

/-! ## Leaves and combination -/

/-- The C function `makeLeaf`, reading the dimension array `d`. -/
def makeLeaf (d : Int → Int) (i : Int) : Node :=
  { rows := d (i - 1), cols := d i, cost := 0, repr := snprintfRepr ("M" ++ Int.repr i) }

/-- The C function `combineNodes`. -/
def combineNodes (A B : Node) : Node :=
  let combineCost := wrapLL (wrapLL (A.rows * A.cols) * B.cols)
  { rows := A.rows
    cols := B.cols
    cost := wrapLL (wrapLL (A.cost + B.cost) + combineCost)
    repr := snprintfRepr ("(" ++ A.repr ++ " " ++ B.repr ++ ")") }

/-! ## The search -/

/-- The C function `backtrack`, with an explicit recursion budget. -/
def backtrackFuel : Nat → Int → State → Except Fault State
  | 0, _, _ => .error .fuel
  | fuel + 1, i, s => do
    -- Case 1: SHIFT if i <= n
    let s ← (if i ≤ s.n then (do
        let leaf := makeLeaf s.d i
        let s ← push leaf s
        let s ← backtrackFuel fuel (i + 1) s
        let p ← pop s
        pure p.2)
      else pure s)
    -- Case 2: REDUCE if top >= 2
    let s ← (if s.top ≥ 2 then (do
        let pB ← pop s
        let pA ← pop pB.2
        let C := combineNodes pA.1 pB.1
        let s ← push C pA.2
        let s ← backtrackFuel fuel i s
        let p ← pop s
        let s ← push pA.1 p.2
        push pB.1 s)
      else pure s)
    -- Case 3: complete parse if i > n and top == 1
    pure (if i > s.n ∧ s.top = 1 then
      let candidate := s.stack (s.top - 1)
      let s := { s with acceptLog := s.acceptLog ++ [candidate] }
      if candidate.cost < s.bestCost then
        { s with bestCost := candidate.cost, bestTree := candidate.repr }
      else s
    else s)

/-- The C function `backtrack`: the budget is the termination measure
`2 * (n + 1 - i) + top`, plus one. -/
def backtrack (i : Int) (s : State) : Except Fault State :=
  backtrackFuel (2 * (s.n + 1 - i).toNat + s.top.toNat + 1) i s

/-- The per-instance sequence of `main` once `n` and `d` are read: reset the tracker,
reset the stack, run `backtrack(1)`. -/
def solveInstance (s : State) : Except Fault State :=
  backtrack 1 { s with bestCost := LLONG_MAX, bestTree := "", top := 0 }

/-- The pair written to the result line, when the run did not abort. -/
def result (r : Except Fault State) : Option (Int × String) :=
  match r with
  | .ok s => some (s.bestCost, s.bestTree)
  | .error _ => none

/-- A start state holding the instance `(n, d)` and otherwise zeroed globals. -/
def initState (n : Int) (d : Int → Int) : State :=
  { stack := fun _ => ⟨0, 0, 0, ""⟩
    top := 0
    bestCost := 0
    bestTree := ""
    d := d
    n := n
    acceptLog := [] }

/-- The dimension array holding the listed values in `d[0], d[1], ...` and zero elsewhere. -/
def dOf (l : List Int) : Int → Int := fun k => if k < 0 then 0 else l.getD k.toNat 0

/-! ## Specification-level definitions

Nothing below is code of the program: these are the notions the statements are written
with (the three cases of `backtrack` taken apart, the sequence of ACCEPT events,
parenthesizations as trees, their cost and text, the dynamic-programming recurrence). -/


/-- Case 1 of `backtrack` (SHIFT), with the recursive call abstracted. -/
def shiftCase (call : Int → State → Except Fault State) (i : Int) (s : State) :
    Except Fault State :=
  if i ≤ s.n then
    push (makeLeaf s.d i) s >>= fun s2 =>
    call (i + 1) s2 >>= fun s3 =>
    pop s3 >>= fun p => pure p.2
  else pure s

/-- Case 2 of `backtrack` (REDUCE), with the recursive call abstracted. -/
def reduceCase (call : Int → State → Except Fault State) (i : Int) (s : State) :
    Except Fault State :=
  if s.top ≥ 2 then
    pop s >>= fun pB =>
    pop pB.2 >>= fun pA =>
    push (combineNodes pA.1 pB.1) pA.2 >>= fun s4 =>
    call i s4 >>= fun s5 =>
    pop s5 >>= fun p =>
    push pA.1 p.2 >>= fun s6 =>
    push pB.1 s6
  else pure s

/-- Case 3 of `backtrack` (the ACCEPT check). -/
def acceptCase (i : Int) (s : State) : State :=
  if i > s.n ∧ s.top = 1 then
    let candidate := s.stack (s.top - 1)
    let s := { s with acceptLog := s.acceptLog ++ [candidate] }
    if candidate.cost < s.bestCost then
      { s with bestCost := candidate.cost, bestTree := candidate.repr }
    else s
  else s

/-- The ACCEPT events of a shift-reduce search from position `i` with the items `S` on
the stack (topmost first), in the order of the depth-first search of `backtrack`:
first the events below SHIFT, then those below REDUCE, then the check of the state
itself.  The item type is a parameter: `leaf` builds the item of a factor and `comb`
combines two adjacent items. -/
def acceptSeq {α : Type} (leaf : Int → α) (comb : α → α → α) (n : Int) (i : Int)
    (S : List α) : List α :=
  (if h : i ≤ n then acceptSeq leaf comb n (i + 1) (leaf i :: S) else []) ++
  (match S with
    | B :: A :: rest => acceptSeq leaf comb n i (comb A B :: rest)
    | _ => []) ++
  (if i > n then (match S with
    | [c] => [c]
    | _ => []) else [])
termination_by 2 * (n + 1 - i).toNat + S.length
decreasing_by
  · simp only [List.length_cons]; omega
  · simp only [List.length_cons]; omega

/-- Events below the SHIFT transition of the state `(i, S)`. -/
def shiftSeq {α : Type} (leaf : Int → α) (comb : α → α → α) (n : Int) (i : Int)
    (S : List α) : List α :=
  if i ≤ n then acceptSeq leaf comb n (i + 1) (leaf i :: S) else []

/-- Events below the REDUCE transition of the state `(i, S)`. -/
def reduceSeq {α : Type} (leaf : Int → α) (comb : α → α → α) (n : Int) (i : Int)
    (S : List α) : List α :=
  match S with
  | B :: A :: rest => acceptSeq leaf comb n i (comb A B :: rest)
  | _ => []

/-- The event of the ACCEPT check at the state `(i, S)` itself. -/
def acceptNow {α : Type} (n : Int) (i : Int) (S : List α) : List α :=
  if i > n then (match S with
    | [c] => [c]
    | _ => []) else []

/-- The fragments seen at the ACCEPT events of `backtrack(i)`, in order, when the stack
holds the fragments `S` (topmost first). -/
def cands (n : Int) (d : Int → Int) (i : Int) (S : List Node) : List Node :=
  acceptSeq (makeLeaf d) combineNodes n i S

/-- The array `stk` holds, in the slots below `top`, the fragments `S` (topmost first). -/
def stackIs : List Node → Int → (Int → Node) → Prop
  | [], top, _ => top = 0
  | x :: S, top, stk => stk (top - 1) = x ∧ stackIs S (top - 1) stk

/-- The tracker update of the ACCEPT check, on the pair `(bestCost, bestTree)`. -/
def track (best : Int × String) (c : Node) : Int × String :=
  if c.cost < best.1 then (c.cost, c.repr) else best

/-- Every global other than the stack array and `top` is the same in both states. -/
structure Same (s s1 : State) : Prop where
  n_eq : s1.n = s.n
  d_eq : s1.d = s.d
  log_eq : s1.acceptLog = s.acceptLog
  cost_eq : s1.bestCost = s.bestCost
  tree_eq : s1.bestTree = s.bestTree

/-- What a returning call may change: the tracker and the ghost log, by the events `evs`;
the stack below `top`, `top`, `n` and `d` are as before. -/
structure Step (s s1 : State) (evs : List Node) : Prop where
  top_eq : s1.top = s.top
  stack_eq : ∀ k, k < s.top → s1.stack k = s.stack k
  n_eq : s1.n = s.n
  d_eq : s1.d = s.d
  log_eq : s1.acceptLog = s.acceptLog ++ evs
  best_eq : (s1.bestCost, s1.bestTree) = evs.foldl track (s.bestCost, s.bestTree)

/-- A full parenthesization: a binary tree whose leaves are factor indices. -/
inductive PTree where
  | leaf (i : Int)
  | node (l r : PTree)
deriving DecidableEq

/-- The factor indices at the leaves, read left to right. -/
def PTree.leaves : PTree → List Int
  | .leaf i => [i]
  | .node l r => l.leaves ++ r.leaves

/-- Index of the leftmost factor. -/
def PTree.lo : PTree → Int
  | .leaf i => i
  | .node l _ => l.lo

/-- Index of the rightmost factor. -/
def PTree.hi : PTree → Int
  | .leaf i => i
  | .node _ r => r.hi

/-- The factor indices `a, a+1, ..., b`. -/
def factors (a b : Int) : List Int :=
  (List.range (b + 1 - a).toNat).map (fun (k : Nat) => a + (k : Int))

/-- The tree `T` parenthesizes exactly the factors `a..b`, in order. -/
def Spans : PTree → Int → Int → Prop
  | .leaf i, a, b => a = i ∧ b = i
  | .node l r, a, b => ∃ k, Spans l a k ∧ Spans r (k + 1) b

/-- The stack `S` (topmost first) partitions the factors `a..i-1` into consecutive runs. -/
def Chain : List PTree → Int → Int → Prop
  | [], a, i => i = a
  | T :: S, a, i => ∃ m, Spans T m (i - 1) ∧ Chain S a m

/-- The fragment the code builds for a tree: `makeLeaf` at the leaves, `combineNodes` at
the inner nodes. -/
def nodeOf (d : Int → Int) : PTree → Node
  | .leaf i => makeLeaf d i
  | .node l r => combineNodes (nodeOf d l) (nodeOf d r)

/-- The scalar-multiplication count of a parenthesization, in exact arithmetic. -/
def treeCost (d : Int → Int) : PTree → Int
  | .leaf _ => 0
  | .node l r => treeCost d l + treeCost d r + d (l.lo - 1) * d l.hi * d r.hi

/-- The untruncated text of a parenthesization. -/
def render : PTree → String
  | .leaf i => "M" ++ Int.repr i
  | .node l r => "(" ++ render l ++ " " ++ render r ++ ")"

/-- The parenthesizations seen at the ACCEPT events, in order. -/
def parses (n : Int) (i : Int) (S : List PTree) : List PTree :=
  acceptSeq PTree.leaf PTree.node n i S

/-- The shift-reduce action sequence that builds a tree: `true` is SHIFT, `false` is
REDUCE. -/
def PTree.code : PTree → List Bool
  | .leaf _ => [true]
  | .node l r => l.code ++ r.code ++ [false]

/-- The action sequence that builds a whole stack (topmost first). -/
def stackCode : List PTree → List Bool
  | [] => []
  | T :: S => stackCode S ++ T.code

/-- The shape of a parenthesization: the binary tree of its inner nodes. -/
def shape : PTree → Tree Unit
  | .leaf _ => .nil
  | .node l r => .node () (shape l) (shape r)

/-- The parenthesization of a given shape whose leaves are numbered from `a` upwards. -/
def label : Tree Unit → Int → PTree
  | .nil, a => .leaf a
  | .node _ l r, a => .node (label l a) (label r (a + l.numNodes + 1))

/-- Least element of a list of integers (`0` for the empty list). -/
def listMin : List Int → Int
  | [] => 0
  | [x] => x
  | x :: y :: xs => min x (listMin (y :: xs))

/-- The classic dynamic-programming recurrence for the matrix-chain problem:
`m[i][j] = 0` when `i >= j`, and otherwise the least value, over the split points
`k = i, ..., j-1`, of `m[i][k] + m[k+1][j] + d[i-1]*d[k]*d[j]`. -/
def mcm (d : Int → Int) (i j : Int) : Int :=
  if i < j then
    listMin ((List.range (j - i).toNat).attach.map (fun t =>
      mcm d i (i + (t.1 : Int)) + mcm d (i + (t.1 : Int) + 1) j
        + d (i - 1) * d (i + (t.1 : Int)) * d j))
  else 0
termination_by (j - i).toNat
decreasing_by
  all_goals
    have := List.mem_range.mp t.2
    omega

/-- A fragment whose text has 250 characters. -/
def longNode : Node := ⟨1, 1, 0, ⟨List.replicate 250 'x'⟩⟩

/-- The left-nested parenthesization of three factors. -/
def leftTree3 : PTree := .node (.node (.leaf 1) (.leaf 2)) (.leaf 3)

/-- The right-nested parenthesization of three factors. -/
def rightTree3 : PTree := .node (.leaf 1) (.node (.leaf 2) (.leaf 3))

/-- Text length of the factors `1..m` with their separators, for `m <= 99`:
five characters for each one-digit factor and six for each two-digit factor. -/
def textBudget (m : Int) : Int := if m ≤ 9 then 5 * m else 6 * m - 9

/-- A start state full of leftovers of an earlier instance. -/
def dirtyState : State :=
  { stack := fun _ => ⟨5, 5, 5, "(M1 M2)"⟩
    top := 17
    bestCost := -3
    bestTree := "((M1 M2) M3)"
    d := fun k => if k = 4 then 99 else dOf [10, 20, 30, 5] k
    n := 3
    acceptLog := [] }

/-- The conversion done by `fscanf` with `%d` on a decimal token of value `t`: the value
is brought into the range of `long` and its low 32 bits are stored in the `int`.  A token
in the range of `int` is stored as it is. -/
def scanInt (t : Int) : Int :=
  wrapInt (max (-9223372036854775808) (min t 9223372036854775807))

/-- The two reading steps of the loop body of `main`: `fscanf` of `n`, then of
`d[0], ..., d[n]`.  `n` is the value read into `n`, `dims` are the dimension tokens that
follow it in the input; a slot whose token is missing keeps its old value.  The array has
the entries `d[0], ..., d[100]`: for `n > 100` the loop stores past its end, which has no
defined result, and there is no state. -/
def loadInstance (n : Int) (dims : List Int) (s : State) : Option State :=
  if n ≤ 100 then
    some { s with
      n := n
      d := fun k =>
        if 0 ≤ k ∧ k < n + 1 then (dims.map scanInt).getD k.toNat (s.d k) else s.d k }
  else none

/-- One iteration of the loop of `main`: read the instance, then reset and search. -/
def runInstance (n : Int) (dims : List Int) (s : State) : Option (Except Fault State) :=
  (loadInstance n dims s).map solveInstance

/-- Text length of the factors `1..m` with their separators, for `m <= 100`. -/
def textBudget100 (m : Int) : Int := if m ≤ 99 then textBudget m else 7 * m - 108

/-- Number of opening minus number of closing parentheses of a text. -/
def parenDepth (cs : List Char) : Int := (cs.count '(' : Int) - (cs.count ')' : Int)

/-- The fully right-nested parenthesization of the `k + 1` factors `a, ..., a + k`:
`(Ma (Ma+1 (... (Ma+k-1 Ma+k)...)))`. -/
def rightNested (a : Int) : Nat → PTree
  | 0 => .leaf a
  | k + 1 => .node (.leaf a) (rightNested (a + 1) k)

/-- Reducing a whole stack (topmost first) under the fragment `B` on top of it. -/
def closeStack : PTree → List PTree → PTree
  | B, [] => B
  | B, A :: rest => closeStack (.node A B) rest

/-- The state in which `main` starts the search of an instance: tracker and stack reset. -/
def resetState (s : State) : State :=
  { s with bestCost := LLONG_MAX, bestTree := "", top := 0 }

/-- The states `(i, s)` at which `backtrack` is called during the run started at
`backtrack 1 s0`.  By `backtrack_unfold`, the call at `(i, s)` calls `backtrack` again at
`(i + 1, s2)`, where `s2` is `s` after the SHIFT push, when `i <= n`, and at `(i, s4)`,
where `s4` is the state after case 1 returned, the two pops of REDUCE and the push of
the combined fragment, when the stack then holds at least two fragments. -/
inductive Visit (s0 : State) : Int → State → Prop where
  | start : Visit s0 1 s0
  | shift {i : Int} {s s2 : State} : Visit s0 i s → i ≤ s.n →
      push (makeLeaf s.d i) s = .ok s2 → Visit s0 (i + 1) s2
  | reduce {i : Int} {s sa s4 : State} {pB pA : Node × State} : Visit s0 i s →
      shiftCase backtrack i s = .ok sa → sa.top ≥ 2 → pop sa = .ok pB → pop pB.2 = .ok pA →
      push (combineNodes pA.1 pB.1) pA.2 = .ok s4 → Visit s0 i s4

/-! ## The instance generator of `generate_instances.c` -/

/-- How a run of the generator can fail once its file is open: `rand() % maxDim` with
`maxDim = 0`, or a loop that is still running when its budget of iterations is used up. -/
inductive GenFault where
  | divByZero
  | fuel
  deriving DecidableEq

/-- What the generator writes: the first line, then the instance records in order, each a
line with `n` and a line of dimensions. -/
structure GenOut where
  total : Int
  records : List (Int × List Int)
  deriving DecidableEq

/-- The counting loop `for (n = minN; n <= maxN; n++) totalInstances += m;`, at the test
of its condition with the counter `n` and the running sum `total`. -/
def countLoop (maxN m : Int) : Nat → Int → Int → Except GenFault Int
  | 0, n, total => if n ≤ maxN then .error .fuel else .ok total
  | fuel + 1, n, total =>
    if n ≤ maxN then countLoop maxN m fuel (wrapInt (n + 1)) (wrapInt (total + m))
    else .ok total

/-- The value of `totalInstances` after the counting loop. -/
def totalInstances (minN maxN m : Int) : Except GenFault Int :=
  countLoop maxN m (maxN + 1 - minN).toNat minN 0

/-- The loop `for (k = 0; k < n+1; k++)` with `cnt` iterations left: each draws
`1 + rand() % maxDim`; `p` counts the calls of `rand()` made so far, `rnd p` is the value the
next call returns. -/
def genDims (rnd : Nat → Int) (maxDim : Int) : Nat → Nat → Except GenFault (List Int × Nat)
  | 0, p => .ok ([], p)
  | cnt + 1, p =>
    if maxDim = 0 then .error .divByZero
    else
      match genDims rnd maxDim cnt (p + 1) with
      | .ok (rest, q) => .ok (wrapInt (1 + (rnd p).tmod maxDim) :: rest, q)
      | .error e => .error e

/-- The loop `for (j = 0; j < m; j++)` with `cnt` iterations left: one record per
iteration, the line with `n` and the line of the dimensions `k = 0, ..., n`. -/
def genInstances (rnd : Nat → Int) (n maxDim : Int) :
    Nat → Nat → Except GenFault (List (Int × List Int) × Nat)
  | 0, p => .ok ([], p)
  | cnt + 1, p =>
    match genDims rnd maxDim (wrapInt (n + 1)).toNat p with
    | .ok (dims, q) =>
      match genInstances rnd n maxDim cnt q with
      | .ok (rest, q2) => .ok ((n, dims) :: rest, q2)
      | .error e => .error e
    | .error e => .error e

/-- The writing loop `for (n = minN; n <= maxN; n++)`, at the test of its condition with
the counter `n`. -/
def genLoop (rnd : Nat → Int) (maxN m maxDim : Int) :
    Nat → Int → Nat → Except GenFault (List (Int × List Int))
  | 0, n, _ => if n ≤ maxN then .error .fuel else .ok []
  | fuel + 1, n, p =>
    if n ≤ maxN then
      match genInstances rnd n maxDim m.toNat p with
      | .ok (recs, q) =>
        match genLoop rnd maxN m maxDim fuel (wrapInt (n + 1)) q with
        | .ok rest => .ok (recs ++ rest)
        | .error e => .error e
      | .error e => .error e
    else .ok []

/-- The generator `main` of `generate_instances.c` on the arguments
`(minN, maxN, m, maxDim)`, with the output file open and `rnd` the stream of values of
`rand()`: the count, then the first line and the records. -/
def generate (rnd : Nat → Int) (minN maxN m maxDim : Int) : Except GenFault GenOut :=
  match totalInstances minN maxN m with
  | .ok total =>
    match genLoop rnd maxN m maxDim (maxN + 1 - minN).toNat minN 0 with
    | .ok recs => .ok ⟨total, recs⟩
    | .error e => .error e
  | .error e => .error e

/-! ## Basic facts about the stack operations -/

theorem backtrackFuel_succ (fuel : Nat) (i : Int) (s : State) :
    backtrackFuel (fuel + 1) i s =
      shiftCase (backtrackFuel fuel) i s >>= fun sa =>
      reduceCase (backtrackFuel fuel) i sa >>= fun sb => pure (acceptCase i sb) := rfl

theorem push_ok (nd : Node) (s : State) (h : s.top < 200) :
    push nd s = .ok { s with stack := Function.update s.stack s.top nd, top := s.top + 1 } := by
  unfold push MAXSTACK
  rw [if_neg (by omega)]

theorem pop_ok (s : State) (h : 0 < s.top) :
    pop s = .ok (s.stack (s.top - 1), { s with top := s.top - 1 }) := by
  unfold pop
  rw [if_neg (by omega)]

theorem push_eq_ok {nd : Node} {s s1 : State} (h : push nd s = .ok s1) :
    s.top < 200 ∧ s1.top = s.top + 1 ∧ s1.stack = Function.update s.stack s.top nd ∧
      Same s s1 := by
  unfold push MAXSTACK at h
  split at h
  · cases h
  · injection h with h
    subst h
    exact ⟨by omega, rfl, rfl, ⟨rfl, rfl, rfl, rfl, rfl⟩⟩

theorem pop_eq_ok {s : State} {p : Node × State} (h : pop s = .ok p) :
    0 < s.top ∧ p.1 = s.stack (s.top - 1) ∧ p.2.top = s.top - 1 ∧ p.2.stack = s.stack ∧
      Same s p.2 := by
  unfold pop at h
  split at h
  · cases h
  · injection h with h
    subst h
    exact ⟨by omega, rfl, rfl, rfl, ⟨rfl, rfl, rfl, rfl, rfl⟩⟩

theorem bind_eq_ok {ε α β : Type} {x : Except ε α} {f : α → Except ε β} {b : β}
    (h : (x >>= f) = .ok b) : ∃ a, x = .ok a ∧ f a = .ok b := by
  cases x with
  | error e => cases h
  | ok a => exact ⟨a, rfl, h⟩

theorem pure_eq_ok {ε α : Type} {a b : α} (h : (pure a : Except ε α) = .ok b) : a = b := by
  injection h

theorem Step.refl (s : State) : Step s s [] :=
  ⟨rfl, fun _ _ => rfl, rfl, rfl, by simp, rfl⟩

theorem Step.trans {s s1 s2 : State} {e1 e2 : List Node} (h1 : Step s s1 e1)
    (h2 : Step s1 s2 e2) : Step s s2 (e1 ++ e2) where
  top_eq := by rw [h2.top_eq, h1.top_eq]
  stack_eq := fun k hk => by rw [h2.stack_eq k (by rw [h1.top_eq]; exact hk), h1.stack_eq k hk]
  n_eq := by rw [h2.n_eq, h1.n_eq]
  d_eq := by rw [h2.d_eq, h1.d_eq]
  log_eq := by rw [h2.log_eq, h1.log_eq, List.append_assoc]
  best_eq := by rw [h2.best_eq, h1.best_eq, List.foldl_append]

/-! ## What a returning call changes -/

theorem shiftCase_step {call : Int → State → Except Fault State}
    (hcall : ∀ i s s1, call i s = .ok s1 → ∃ evs, Step s s1 evs)
    {i : Int} {s sa : State} (h : shiftCase call i s = .ok sa) : ∃ evs, Step s sa evs := by
  unfold shiftCase at h
  split at h
  · obtain ⟨s2, h2, h⟩ := bind_eq_ok h
    obtain ⟨s3, h3, h⟩ := bind_eq_ok h
    obtain ⟨p, hp, h⟩ := bind_eq_ok h
    obtain ⟨_, t2, k2, e2⟩ := push_eq_ok h2
    obtain ⟨evs, hs⟩ := hcall _ _ _ h3
    obtain ⟨_, _, tp, kp, ep⟩ := pop_eq_ok hp
    have := pure_eq_ok h
    subst this
    refine ⟨evs, ?_, ?_, ?_, ?_, ?_, ?_⟩
    · rw [tp, hs.top_eq, t2]; omega
    · intro k hk
      rw [kp, hs.stack_eq k (by omega), k2]
      exact Function.update_noteq (by omega) _ _
    · rw [ep.n_eq, hs.n_eq, e2.n_eq]
    · rw [ep.d_eq, hs.d_eq, e2.d_eq]
    · rw [ep.log_eq, hs.log_eq, e2.log_eq]
    · rw [ep.cost_eq, ep.tree_eq, hs.best_eq, e2.cost_eq, e2.tree_eq]
  · have := pure_eq_ok h
    subst this
    exact ⟨[], Step.refl s⟩

theorem reduceCase_step {call : Int → State → Except Fault State}
    (hcall : ∀ i s s1, call i s = .ok s1 → ∃ evs, Step s s1 evs)
    {i : Int} {s sb : State} (h : reduceCase call i s = .ok sb) : ∃ evs, Step s sb evs := by
  unfold reduceCase at h
  split at h
  · obtain ⟨pB, hB, h⟩ := bind_eq_ok h
    obtain ⟨pA, hA, h⟩ := bind_eq_ok h
    obtain ⟨s4, h4, h⟩ := bind_eq_ok h
    obtain ⟨s5, h5, h⟩ := bind_eq_ok h
    obtain ⟨p, hp, h⟩ := bind_eq_ok h
    obtain ⟨s6, h6, h⟩ := bind_eq_ok h
    obtain ⟨_, vB, tB, kB, eB⟩ := pop_eq_ok hB
    obtain ⟨_, vA, tA, kA, eA⟩ := pop_eq_ok hA
    obtain ⟨_, t4, k4, e4⟩ := push_eq_ok h4
    obtain ⟨evs, hs⟩ := hcall _ _ _ h5
    obtain ⟨_, _, tp, kp, ep⟩ := pop_eq_ok hp
    obtain ⟨_, t6, k6, e6⟩ := push_eq_ok h6
    obtain ⟨_, tb, kb, eb⟩ := push_eq_ok h
    have t5 := hs.top_eq
    refine ⟨evs, ?_, ?_, ?_, ?_, ?_, ?_⟩
    · omega
    · intro k hk
      rw [kb, k6, kp, Function.update_apply, Function.update_apply]
      split
      · rename_i hk1
        rw [vB, hk1]; congr 1; omega
      · split
        · rename_i hk1 hk2
          rw [vA, kB, hk2]; congr 1; omega
        · rw [hs.stack_eq k (by omega), k4, Function.update_apply, if_neg (by omega), kA, kB]
    · rw [eb.n_eq, e6.n_eq, ep.n_eq, hs.n_eq, e4.n_eq, eA.n_eq, eB.n_eq]
    · rw [eb.d_eq, e6.d_eq, ep.d_eq, hs.d_eq, e4.d_eq, eA.d_eq, eB.d_eq]
    · rw [eb.log_eq, e6.log_eq, ep.log_eq, hs.log_eq, e4.log_eq, eA.log_eq, eB.log_eq]
    · rw [eb.cost_eq, eb.tree_eq, e6.cost_eq, e6.tree_eq, ep.cost_eq, ep.tree_eq, hs.best_eq,
        e4.cost_eq, e4.tree_eq, eA.cost_eq, eA.tree_eq, eB.cost_eq, eB.tree_eq]
  · have := pure_eq_ok h
    subst this
    exact ⟨[], Step.refl s⟩

theorem acceptCase_step (i : Int) (s : State) :
    Step s (acceptCase i s) (if i > s.n ∧ s.top = 1 then [s.stack (s.top - 1)] else []) := by
  unfold acceptCase
  by_cases hc : i > s.n ∧ s.top = 1
  · rw [if_pos hc, if_pos hc]
    by_cases hlt : (s.stack (s.top - 1)).cost < s.bestCost
    · simp only [hlt, if_true]
      exact ⟨rfl, fun _ _ => rfl, rfl, rfl, rfl, by simp [track, hlt]⟩
    · simp only [hlt, if_false]
      exact ⟨rfl, fun _ _ => rfl, rfl, rfl, rfl, by simp [track, hlt]⟩
  · rw [if_neg hc, if_neg hc]
    exact Step.refl s

theorem backtrackFuel_step : ∀ (fuel : Nat) (i : Int) (s s1 : State),
    backtrackFuel fuel i s = .ok s1 → ∃ evs, Step s s1 evs := by
  intro fuel
  induction fuel with
  | zero => intro i s s1 h; cases h
  | succ fuel ih =>
    intro i s s1 h
    rw [backtrackFuel_succ] at h
    obtain ⟨sa, ha, h⟩ := bind_eq_ok h
    obtain ⟨sb, hb, h⟩ := bind_eq_ok h
    have := pure_eq_ok h
    subst this
    obtain ⟨e1, h1⟩ := shiftCase_step ih ha
    obtain ⟨e2, h2⟩ := reduceCase_step ih hb
    exact ⟨_, (h1.trans h2).trans (acceptCase_step i sb)⟩


/-! ## The run against the sequence of ACCEPT events -/

theorem ok_bind {ε α β : Type} (a : α) (f : α → Except ε β) :
    ((Except.ok a : Except ε α) >>= f) = f a := rfl

theorem acceptSeq_eq {α : Type} (leaf : Int → α) (comb : α → α → α) (n : Int) (i : Int)
    (S : List α) :
    acceptSeq leaf comb n i S =
      shiftSeq leaf comb n i S ++ reduceSeq leaf comb n i S ++ acceptNow n i S := by
  unfold shiftSeq reduceSeq acceptNow
  conv_lhs => rw [acceptSeq.eq_def]
  by_cases h : i ≤ n
  · simp only [dif_pos h, if_pos h]
  · simp only [dif_neg h, if_neg h]

theorem cands_eq (n : Int) (d : Int → Int) (i : Int) (S : List Node) :
    cands n d i S =
      shiftSeq (makeLeaf d) combineNodes n i S ++ reduceSeq (makeLeaf d) combineNodes n i S ++
        acceptNow n i S :=
  acceptSeq_eq _ _ n i S

theorem stackIs_top : ∀ (S : List Node) (t : Int) (stk : Int → Node),
    stackIs S t stk → t = S.length
  | [], _, _, h => h
  | _ :: S, t, stk, h => by
    have := stackIs_top S (t - 1) stk h.2
    simp only [List.length_cons, Nat.cast_add, Nat.cast_one]
    omega

theorem stackIs_congr : ∀ (S : List Node) (t : Int) (stk stk2 : Int → Node),
    stackIs S t stk → (∀ k, k < t → stk2 k = stk k) → stackIs S t stk2
  | [], _, _, _, h, _ => h
  | _ :: S, t, stk, stk2, h, hk =>
    ⟨by rw [hk _ (by omega)]; exact h.1,
     stackIs_congr S (t - 1) stk stk2 h.2 (fun k hlt => hk k (by omega))⟩

theorem stackIs_push (S : List Node) (t : Int) (stk : Int → Node) (x : Node)
    (h : stackIs S t stk) : stackIs (x :: S) (t + 1) (Function.update stk t x) := by
  refine ⟨?_, ?_⟩
  · rw [show t + 1 - 1 = t by omega, Function.update_same]
  · rw [show t + 1 - 1 = t by omega]
    exact stackIs_congr S t stk _ h (fun k hk => Function.update_noteq (by omega) _ _)

theorem Step.stackIs {s s1 : State} {evs : List Node} (h : Step s s1 evs) {S : List Node}
    (hS : stackIs S s.top s.stack) : stackIs S s1.top s1.stack := by
  rw [h.top_eq]
  exact stackIs_congr S s.top s.stack s1.stack hS h.stack_eq

theorem backtrackFuel_run : ∀ (fuel : Nat) (i : Int) (s : State) (S : List Node),
    stackIs S s.top s.stack → 2 * (s.n + 1 - i).toNat + S.length < fuel →
    S.length + (s.n + 1 - i).toNat ≤ 200 →
    ∃ s1, backtrackFuel fuel i s = .ok s1 ∧
      s1.acceptLog = s.acceptLog ++ cands s.n s.d i S := by
  intro fuel
  induction fuel with
  | zero => intro i s S _ h; omega
  | succ fuel ih =>
    intro i s S hS hfuel hcap
    have htop := stackIs_top S _ _ hS
    -- Case 1
    have h1 : ∃ sa, shiftCase (backtrackFuel fuel) i s = .ok sa ∧
        sa.acceptLog = s.acceptLog ++ shiftSeq (makeLeaf s.d) combineNodes s.n i S := by
      unfold shiftSeq
      by_cases hi : i ≤ s.n
      · obtain ⟨s3, h3, l3⟩ := ih (i + 1)
          { s with stack := Function.update s.stack s.top (makeLeaf s.d i), top := s.top + 1 }
          (makeLeaf s.d i :: S) (stackIs_push S _ _ _ hS)
          (by simp only [List.length_cons]; omega) (by simp only [List.length_cons]; omega)
        obtain ⟨e3, st3⟩ := backtrackFuel_step _ _ _ _ h3
        have t3 := st3.top_eq
        simp only at t3
        refine ⟨{ s3 with top := s3.top - 1 }, ?_, ?_⟩
        · unfold shiftCase
          rw [if_pos hi, push_ok _ _ (by omega), ok_bind, h3, ok_bind, pop_ok _ (by omega),
            ok_bind]
          rfl
        · rw [if_pos hi]; exact l3
      · refine ⟨s, ?_, ?_⟩
        · unfold shiftCase; rw [if_neg hi]; rfl
        · rw [if_neg hi]; simp
    obtain ⟨sa, ha, la⟩ := h1
    obtain ⟨ea, sta⟩ := shiftCase_step (backtrackFuel_step fuel) ha
    have hSa := sta.stackIs hS
    have tsa := sta.top_eq
    -- Case 2
    have h2 : ∃ sb, reduceCase (backtrackFuel fuel) i sa = .ok sb ∧
        sb.acceptLog = sa.acceptLog ++ reduceSeq (makeLeaf s.d) combineNodes s.n i S := by
      unfold reduceSeq
      rcases S with _ | ⟨B, _ | ⟨A, rest⟩⟩
      · refine ⟨sa, ?_, by simp⟩
        unfold reduceCase
        rw [if_neg (by simp at htop; omega)]; rfl
      · refine ⟨sa, ?_, by simp⟩
        unfold reduceCase
        rw [if_neg (by simp at htop; omega)]; rfl
      · simp only [List.length_cons, Nat.cast_add, Nat.cast_one] at htop hfuel hcap
        obtain ⟨hB, hA, hrest⟩ := hSa
        have hrest2 := stackIs_push rest _ _ (combineNodes A B) hrest
        obtain ⟨s5, h5, l5⟩ := ih i
          { sa with stack := Function.update sa.stack (sa.top - 1 - 1) (combineNodes A B),
                    top := sa.top - 1 - 1 + 1 }
          (combineNodes A B :: rest) hrest2
          (by simp only [List.length_cons, sta.n_eq]; omega)
          (by simp only [List.length_cons, sta.n_eq]; omega)
        obtain ⟨e5, st5⟩ := backtrackFuel_step _ _ _ _ h5
        have t5 := st5.top_eq
        simp only at t5
        refine ⟨{ s5 with
            stack := Function.update (Function.update s5.stack (s5.top - 1) A)
              (s5.top - 1 + 1) B,
            top := s5.top - 1 + 1 + 1 }, ?_, ?_⟩
        · unfold reduceCase
          rw [if_pos (by omega), pop_ok _ (by omega), ok_bind]
          simp only
          rw [pop_ok _ (by simp only; omega), ok_bind]
          simp only
          rw [push_ok _ _ (by simp only; omega), ok_bind, hB, hA, h5, ok_bind,
            pop_ok _ (by omega), ok_bind]
          simp only
          rw [push_ok _ _ (by simp only; omega), ok_bind, push_ok _ _ (by simp only; omega)]
        · simp only [l5, sta.n_eq, sta.d_eq]; rfl
    obtain ⟨sb, hb, lb⟩ := h2
    obtain ⟨eb, stb⟩ := reduceCase_step (backtrackFuel_step fuel) hb
    have hSb := stb.stackIs hSa
    have tsb := stb.top_eq
    refine ⟨acceptCase i sb, ?_, ?_⟩
    · rw [backtrackFuel_succ, ha, ok_bind, hb, ok_bind]; rfl
    · rw [(acceptCase_step i sb).log_eq, lb, la, cands_eq, List.append_assoc,
        List.append_assoc, List.append_assoc, stb.n_eq, sta.n_eq]
      congr 2
      unfold acceptNow
      by_cases hi : i > s.n
      · rcases S with _ | ⟨c, _ | ⟨A, rest⟩⟩
        · simp at htop; simp [hi]; omega
        · simp at htop
          have h1 : sb.top = 1 := by omega
          have h0 := hSb.1
          rw [h1] at h0
          simp only [hi, h1, and_self, if_true]
          simpa using h0
        · simp only [List.length_cons, Nat.cast_add, Nat.cast_one] at htop
          have : ¬ sb.top = 1 := by omega
          simp [hi, this]
      · simp [hi]



/-! ## Termination within the budget, and overflow of long chains -/

theorem bind_eq_error {ε α β : Type} {x : Except ε α} {f : α → Except ε β} {e : ε}
    (h : (x >>= f) = .error e) : x = .error e ∨ ∃ a, x = .ok a ∧ f a = .error e := by
  cases x with
  | error e2 =>
    left
    have h2 : (Except.error e2 : Except ε β) = .error e := h
    injection h2 with h2
    rw [h2]
  | ok a => right; exact ⟨a, rfl, h⟩

theorem push_eq_error {nd : Node} {s : State} {e : Fault} (h : push nd s = .error e) :
    e = .overflow ∧ 200 ≤ s.top := by
  unfold push MAXSTACK at h
  split at h
  · injection h with h
    exact ⟨h.symm, by omega⟩
  · cases h

theorem pop_eq_error {s : State} {e : Fault} (h : pop s = .error e) :
    e = .underflow ∧ s.top ≤ 0 := by
  unfold pop at h
  split at h
  · injection h with h
    exact ⟨h.symm, by omega⟩
  · cases h

theorem backtrackFuel_ne_fuel : ∀ (fuel : Nat) (i : Int) (s : State),
    2 * (s.n + 1 - i).toNat + s.top.toNat < fuel → backtrackFuel fuel i s ≠ .error .fuel := by
  intro fuel
  induction fuel with
  | zero => intro i s h; omega
  | succ fuel ih =>
    intro i s hfuel h
    rw [backtrackFuel_succ] at h
    rcases bind_eq_error h with h | ⟨sa, ha, h⟩
    · -- fault in case 1
      unfold shiftCase at h
      split at h
      · rcases bind_eq_error h with h | ⟨s2, h2, h⟩
        · exact absurd (push_eq_error h).1 (by decide)
        · obtain ⟨_, t2, _, e2⟩ := push_eq_ok h2
          rcases bind_eq_error h with h | ⟨s3, h3, h⟩
          · exact ih (i + 1) s2 (by rw [e2.n_eq, t2]; omega) h
          · rcases bind_eq_error h with h | ⟨p, _, h⟩
            · exact absurd (pop_eq_error h).1 (by decide)
            · cases h
      · cases h
    · obtain ⟨ea, sta⟩ := shiftCase_step (backtrackFuel_step fuel) ha
      rcases bind_eq_error h with h | ⟨sb, _, h⟩
      · unfold reduceCase at h
        split at h
        · rcases bind_eq_error h with h | ⟨pB, hB, h⟩
          · exact absurd (pop_eq_error h).1 (by decide)
          · obtain ⟨_, _, tB, _, eB⟩ := pop_eq_ok hB
            rcases bind_eq_error h with h | ⟨pA, hA, h⟩
            · exact absurd (pop_eq_error h).1 (by decide)
            · obtain ⟨_, _, tA, _, eA⟩ := pop_eq_ok hA
              rcases bind_eq_error h with h | ⟨s4, h4, h⟩
              · exact absurd (push_eq_error h).1 (by decide)
              · obtain ⟨_, t4, _, e4⟩ := push_eq_ok h4
                rcases bind_eq_error h with h | ⟨s5, _, h⟩
                · have := sta.top_eq
                  have := sta.n_eq
                  exact ih i s4 (by rw [e4.n_eq, eA.n_eq, eB.n_eq, t4, tA, tB]; omega) h
                · rcases bind_eq_error h with h | ⟨p, _, h⟩
                  · exact absurd (pop_eq_error h).1 (by decide)
                  · rcases bind_eq_error h with h | ⟨s6, _, h⟩
                    · exact absurd (push_eq_error h).1 (by decide)
                    · exact absurd (push_eq_error h).1 (by decide)
        · cases h
      · cases h

theorem backtrack_ne_fuel (i : Int) (s : State) : backtrack i s ≠ .error .fuel :=
  backtrackFuel_ne_fuel _ i s (by omega)

/-- Too long a chain for the stack array: the all-SHIFT path runs into the overflow
check of `push` before anything else can go wrong. -/
theorem backtrackFuel_overflow : ∀ (fuel : Nat) (i : Int) (s : State),
    0 ≤ s.top → s.top ≤ 200 → i ≤ s.n → 200 < s.top + (s.n + 1 - i) →
    2 * (s.n + 1 - i).toNat + s.top.toNat < fuel → backtrackFuel fuel i s = .error .overflow := by
  intro fuel
  induction fuel with
  | zero => intro i s _ _ _ _ h; omega
  | succ fuel ih =>
    intro i s h0 h200 hi hbig hfuel
    rw [backtrackFuel_succ]
    unfold shiftCase
    rw [if_pos hi]
    by_cases ht : s.top = 200
    · have : push (makeLeaf s.d i) s = .error .overflow := by
        unfold push MAXSTACK; rw [if_pos (by omega)]
      rw [this]; rfl
    · rw [push_ok _ _ (by omega), ok_bind, ih (i + 1) _ (by simp only; omega) (by simp only; omega)
        (by simp only; omega) (by simp only; omega) (by simp only; omega)]
      rfl

theorem bind_congr_ok {ε α β : Type} (x : Except ε α) (f g : α → Except ε β)
    (h : ∀ a, x = .ok a → f a = g a) : (x >>= f) = (x >>= g) := by
  cases x with
  | error e => rfl
  | ok a => exact h a rfl

/-- Case 1 does not depend on the recursive call beyond the state it is applied to. -/
theorem shiftCase_congr (c1 c2 : Int → State → Except Fault State) (i : Int) (s : State)
    (h : ∀ s2, s2.n = s.n → s2.top = s.top + 1 → c1 (i + 1) s2 = c2 (i + 1) s2) :
    shiftCase c1 i s = shiftCase c2 i s := by
  unfold shiftCase
  split
  · apply bind_congr_ok
    intro s2 h2
    obtain ⟨_, t2, _, e2⟩ := push_eq_ok h2
    rw [h s2 e2.n_eq t2]
  · rfl

/-- Case 2 does not depend on the recursive call beyond the state it is applied to. -/
theorem reduceCase_congr (c1 c2 : Int → State → Except Fault State) (i : Int) (s : State)
    (h : ∀ s4, s4.n = s.n → s4.top = s.top - 1 → c1 i s4 = c2 i s4) :
    reduceCase c1 i s = reduceCase c2 i s := by
  unfold reduceCase
  split
  · apply bind_congr_ok
    intro pB hB
    obtain ⟨_, _, tB, _, eB⟩ := pop_eq_ok hB
    apply bind_congr_ok
    intro pA hA
    obtain ⟨_, _, tA, _, eA⟩ := pop_eq_ok hA
    apply bind_congr_ok
    intro s4 h4
    obtain ⟨_, t4, _, e4⟩ := push_eq_ok h4
    rw [h s4 (by rw [e4.n_eq, eA.n_eq, eB.n_eq]) (by omega)]
  · rfl

/-- Any budget above the termination measure gives the same outcome. -/
theorem backtrackFuel_irrel : ∀ (f1 f2 : Nat) (i : Int) (s : State),
    2 * (s.n + 1 - i).toNat + s.top.toNat < f1 → 2 * (s.n + 1 - i).toNat + s.top.toNat < f2 →
    backtrackFuel f1 i s = backtrackFuel f2 i s := by
  intro f1
  induction f1 with
  | zero => intro f2 i s h; omega
  | succ f1 ih =>
    intro f2 i s h1 h2
    cases f2 with
    | zero => omega
    | succ f2 =>
      rw [backtrackFuel_succ, backtrackFuel_succ]
      have hs : shiftCase (backtrackFuel f1) i s = shiftCase (backtrackFuel f2) i s := by
        by_cases hi : i ≤ s.n
        · exact shiftCase_congr _ _ i s (fun s2 hn ht =>
            ih f2 (i + 1) s2 (by rw [hn, ht]; omega) (by rw [hn, ht]; omega))
        · unfold shiftCase; rw [if_neg hi, if_neg hi]
      rw [hs]
      apply bind_congr_ok
      intro sa ha
      obtain ⟨_, sta⟩ := shiftCase_step (backtrackFuel_step f2) ha
      have hr : reduceCase (backtrackFuel f1) i sa = reduceCase (backtrackFuel f2) i sa := by
        by_cases ht : sa.top ≥ 2
        · have := sta.top_eq
          have := sta.n_eq
          exact reduceCase_congr _ _ i sa (fun s4 hn ht4 =>
            ih f2 i s4 (by rw [hn, ht4]; omega) (by rw [hn, ht4]; omega))
        · unfold reduceCase; rw [if_neg ht, if_neg ht]
      rw [hr]

/-- The total function `backtrack` satisfies the recursive definition of the C function:
case 1 (SHIFT), then case 2 (REDUCE), then case 3 (the ACCEPT check), with `backtrack`
itself at the two recursive calls. -/
theorem backtrack_unfold (i : Int) (s : State) :
    backtrack i s =
      shiftCase backtrack i s >>= fun sa =>
      reduceCase backtrack i sa >>= fun sb => pure (acceptCase i sb) := by
  unfold backtrack
  rw [backtrackFuel_succ]
  have hs : shiftCase (backtrackFuel (2 * (s.n + 1 - i).toNat + s.top.toNat)) i s =
      shiftCase (fun i s => backtrackFuel (2 * (s.n + 1 - i).toNat + s.top.toNat + 1) i s) i s := by
    by_cases hi : i ≤ s.n
    · exact shiftCase_congr _ _ i s (fun s2 hn ht =>
        backtrackFuel_irrel _ _ (i + 1) s2 (by rw [hn, ht]; omega) (by omega))
    · unfold shiftCase; rw [if_neg hi, if_neg hi]
  rw [hs]
  apply bind_congr_ok
  intro sa ha
  obtain ⟨_, sta⟩ := shiftCase_step (fun i s s1 h => backtrackFuel_step _ i s s1 h) ha
  have hr : reduceCase (backtrackFuel (2 * (s.n + 1 - i).toNat + s.top.toNat)) i sa =
      reduceCase (fun i s => backtrackFuel (2 * (s.n + 1 - i).toNat + s.top.toNat + 1) i s)
        i sa := by
    by_cases ht : sa.top ≥ 2
    · have := sta.top_eq
      have := sta.n_eq
      exact reduceCase_congr _ _ i sa (fun s4 hn ht4 =>
        backtrackFuel_irrel _ _ i s4 (by rw [hn, ht4]; omega) (by omega))
    · unfold reduceCase; rw [if_neg ht, if_neg ht]
  rw [hr]

/-! ## The accepted parenthesizations: soundness, completeness, no duplicates -/

theorem acceptSeq_induction {α : Type} (leaf : Int → α) (comb : α → α → α) (n : Int)
    (P : Int → List α → Prop)
    (step : ∀ i S, (i ≤ n → P (i + 1) (leaf i :: S)) →
      (∀ B A rest, S = B :: A :: rest → P i (comb A B :: rest)) → P i S) :
    ∀ i S, P i S := by
  have key : ∀ (m : Nat) (i : Int) (S : List α), 2 * (n + 1 - i).toNat + S.length ≤ m → P i S := by
    intro m
    induction m with
    | zero =>
      intro i S hm
      refine step i S (fun hi => by omega) ?_
      intro B A rest hS
      subst hS
      simp only [List.length_cons] at hm
      omega
    | succ m ih =>
      intro i S hm
      refine step i S (fun hi => ih _ _ (by simp only [List.length_cons]; omega)) ?_
      intro B A rest hS
      subst hS
      simp only [List.length_cons] at hm
      exact ih _ _ (by simp only [List.length_cons]; omega)
  exact fun i S => key _ i S le_rfl

theorem mem_acceptSeq {α : Type} {leaf : Int → α} {comb : α → α → α} {n i : Int} {S : List α}
    {x : α} : x ∈ acceptSeq leaf comb n i S ↔
      (i ≤ n ∧ x ∈ acceptSeq leaf comb n (i + 1) (leaf i :: S)) ∨
      (∃ B A rest, S = B :: A :: rest ∧ x ∈ acceptSeq leaf comb n i (comb A B :: rest)) ∨
      (n < i ∧ S = [x]) := by
  rw [acceptSeq_eq, List.mem_append, List.mem_append, or_assoc]
  refine or_congr ?_ (or_congr ?_ ?_)
  · unfold shiftSeq
    by_cases h : i ≤ n
    · simp [h]
    · simp [h]
  · unfold reduceSeq
    rcases S with _ | ⟨B, _ | ⟨A, rest⟩⟩
    · simp
    · simp
    · constructor
      · intro h; exact ⟨B, A, rest, rfl, h⟩
      · rintro ⟨B2, A2, rest2, h, hx⟩
        injection h with h1 h
        injection h with h2 h3
        subst h1 h2 h3
        exact hx
  · unfold acceptNow
    by_cases h : n < i
    · rcases S with _ | ⟨c, _ | ⟨A, rest⟩⟩ <;> simp [h, eq_comm]
    · simp [h]

theorem acceptSeq_map {α β : Type} (leaf : Int → α) (comb : α → α → α) (leaf2 : Int → β)
    (comb2 : β → β → β) (f : α → β) (hl : ∀ i, f (leaf i) = leaf2 i)
    (hc : ∀ a b, f (comb a b) = comb2 (f a) (f b)) (n : Int) :
    ∀ i S, acceptSeq leaf2 comb2 n i (S.map f) = (acceptSeq leaf comb n i S).map f := by
  refine acceptSeq_induction leaf comb n _ ?_
  intro i S h1 h2
  rw [acceptSeq_eq, acceptSeq_eq leaf comb, List.map_append, List.map_append]
  congr 1
  congr 1
  · unfold shiftSeq
    by_cases hi : i ≤ n
    · rw [if_pos hi, if_pos hi, ← h1 hi, List.map_cons, hl]
    · rw [if_neg hi, if_neg hi]; rfl
  · unfold reduceSeq
    rcases S with _ | ⟨B, _ | ⟨A, rest⟩⟩
    · rfl
    · rfl
    · simp only [List.map_cons]
      rw [← h2 B A rest rfl, List.map_cons, hc]
  · unfold acceptNow
    by_cases hi : i > n
    · rcases S with _ | ⟨c, _ | ⟨A, rest⟩⟩ <;> simp [hi]
    · simp [hi]

theorem cands_map_nodeOf (n : Int) (d : Int → Int) (i : Int) (S : List PTree) :
    cands n d i (S.map (nodeOf d)) = (parses n i S).map (nodeOf d) :=
  acceptSeq_map PTree.leaf PTree.node (makeLeaf d) combineNodes (nodeOf d) (fun _ => rfl)
    (fun _ _ => rfl) n i S

theorem Spans.le : ∀ {T : PTree} {a b : Int}, Spans T a b → a ≤ b
  | .leaf _, _, _, h => by obtain ⟨h1, h2⟩ := h; omega
  | .node _ _, _, _, ⟨_, h1, h2⟩ => by have := h1.le; have := h2.le; omega

theorem Spans.lo_eq : ∀ {T : PTree} {a b : Int}, Spans T a b → T.lo = a
  | .leaf _, _, _, h => h.1.symm
  | .node _ _, _, _, ⟨_, h1, _⟩ => h1.lo_eq

theorem Spans.hi_eq : ∀ {T : PTree} {a b : Int}, Spans T a b → T.hi = b
  | .leaf _, _, _, h => h.2.symm
  | .node _ _, _, _, ⟨_, _, h2⟩ => h2.hi_eq

/-- Soundness of the search: every accepted tree parenthesizes the whole chain. -/
theorem parses_sound (n a : Int) : ∀ (i : Int) (S : List PTree) (T : PTree),
    i ≤ n + 1 → Chain S a i → T ∈ parses n i S → Spans T a n := by
  unfold parses
  refine acceptSeq_induction PTree.leaf PTree.node n _ ?_
  intro i S h1 h2 T hle hS hT
  rcases mem_acceptSeq.mp hT with ⟨hi, h⟩ | ⟨B, A, rest, rfl, h⟩ | ⟨hi, rfl⟩
  · refine h1 hi T (by omega) ⟨i, ⟨rfl, by omega⟩, hS⟩ h
  · obtain ⟨m, hB, m2, hA, hrest⟩ := hS
    refine h2 B A rest rfl T hle ⟨m2, ⟨m - 1, hA, ?_⟩, hrest⟩ h
    rw [show m - 1 + 1 = m by omega]; exact hB
  · obtain ⟨m, hT, hm⟩ := hS
    have hm2 : m = a := hm
    have hin : i - 1 = n := by omega
    rw [hm2, hin] at hT
    exact hT

/-- Every accepted tree of a state is also accepted from the state before the tree on
top of the stack was built. -/
theorem parses_build (n : Int) : ∀ (T : PTree) (a b : Int) (S : List PTree) (X : PTree),
    Spans T a b → b ≤ n → X ∈ parses n (b + 1) (T :: S) → X ∈ parses n a S
  | .leaf i, a, b, S, X, h, hb, hX => by
    obtain ⟨rfl, rfl⟩ := h
    unfold parses
    exact mem_acceptSeq.mpr (Or.inl ⟨hb, hX⟩)
  | .node l r, a, b, S, X, ⟨k, hl, hr⟩, hb, hX => by
    have hkb := hr.le
    refine parses_build n l a k S X hl (by omega) ?_
    refine parses_build n r (k + 1) b (l :: S) X hr hb ?_
    unfold parses
    exact mem_acceptSeq.mpr (Or.inr (Or.inl ⟨r, l, S, rfl, hX⟩))

/-- Completeness of the search: every parenthesization of the whole chain is accepted. -/
theorem parses_complete (n : Int) (T : PTree) (h : Spans T 1 n) : T ∈ parses n 1 [] := by
  refine parses_build n T 1 n [] T h le_rfl ?_
  unfold parses
  exact mem_acceptSeq.mpr (Or.inr (Or.inr ⟨by omega, rfl⟩))

theorem parses_neg (n : Int) (h : n < 0) : parses n 1 [] = [] := by
  refine List.eq_nil_iff_forall_not_mem.mpr (fun T hT => ?_)
  unfold parses at hT
  rcases mem_acceptSeq.mp hT with ⟨hi, _⟩ | ⟨B, A, rest, h, _⟩ | ⟨_, h⟩
  · omega
  · cases h
  · cases h

theorem mem_parses_iff (n : Int) (T : PTree) : T ∈ parses n 1 [] ↔ Spans T 1 n := by
  constructor
  · intro h
    by_cases hn : n < 0
    · rw [parses_neg n hn] at h; cases h
    · exact parses_sound n 1 1 [] T (by omega) rfl h
  · exact parses_complete n T

/-- Every accepted tree extends the action sequence of the stack it was accepted from. -/
theorem parses_code (n : Int) : ∀ (i : Int) (S : List PTree) (T : PTree),
    T ∈ parses n i S → ∃ t, stackCode S ++ t = T.code := by
  unfold parses
  refine acceptSeq_induction PTree.leaf PTree.node n _ ?_
  intro i S h1 h2 T hT
  rcases mem_acceptSeq.mp hT with ⟨hi, h⟩ | ⟨B, A, rest, rfl, h⟩ | ⟨hi, rfl⟩
  · obtain ⟨t, ht⟩ := h1 hi T h
    exact ⟨true :: t, by rw [← ht]; simp [stackCode, PTree.code]⟩
  · obtain ⟨t, ht⟩ := h2 B A rest rfl T h
    exact ⟨false :: t, by rw [← ht]; simp [stackCode, PTree.code]⟩
  · exact ⟨[], by simp [stackCode]⟩

theorem shiftSeq_code (n i : Int) (S : List PTree) (T : PTree)
    (h : T ∈ shiftSeq PTree.leaf PTree.node n i S) : ∃ t, stackCode S ++ true :: t = T.code := by
  unfold shiftSeq at h
  split at h
  · obtain ⟨t, ht⟩ := parses_code n _ _ T h
    exact ⟨t, by rw [← ht]; simp [stackCode, PTree.code]⟩
  · cases h

theorem reduceSeq_code (n i : Int) (S : List PTree) (T : PTree)
    (h : T ∈ reduceSeq PTree.leaf PTree.node n i S) :
    ∃ t, stackCode S ++ false :: t = T.code := by
  unfold reduceSeq at h
  rcases S with _ | ⟨B, _ | ⟨A, rest⟩⟩
  · cases h
  · cases h
  · obtain ⟨t, ht⟩ := parses_code n _ _ T h
    exact ⟨t, by rw [← ht]; simp [stackCode, PTree.code]⟩

theorem acceptNow_code (n i : Int) (S : List PTree) (T : PTree)
    (h : T ∈ acceptNow n i S) : stackCode S = T.code := by
  unfold acceptNow at h
  split at h
  · rcases S with _ | ⟨c, _ | ⟨A, rest⟩⟩
    · cases h
    · simp only [List.mem_singleton] at h
      subst h
      simp [stackCode]
    · cases h
  · cases h

theorem acceptNow_nodup {α : Type} (n i : Int) (S : List α) : (acceptNow n i S).Nodup := by
  unfold acceptNow
  split
  · rcases S with _ | ⟨c, _ | ⟨A, rest⟩⟩ <;> simp
  · simp

/-- No parenthesization is accepted twice. -/
theorem parses_nodup (n : Int) : ∀ (i : Int) (S : List PTree), (parses n i S).Nodup := by
  unfold parses
  refine acceptSeq_induction PTree.leaf PTree.node n _ ?_
  intro i S h1 h2
  rw [acceptSeq_eq, List.nodup_append, List.nodup_append]
  refine ⟨⟨?_, ?_, ?_⟩, acceptNow_nodup n i S, ?_⟩
  · unfold shiftSeq
    split
    · exact h1 ‹_›
    · exact List.nodup_nil
  · unfold reduceSeq
    rcases S with _ | ⟨B, _ | ⟨A, rest⟩⟩
    · exact List.nodup_nil
    · exact List.nodup_nil
    · exact h2 B A rest rfl
  · intro T hs hr
    obtain ⟨t1, e1⟩ := shiftSeq_code n i S T hs
    obtain ⟨t2, e2⟩ := reduceSeq_code n i S T hr
    have := List.append_cancel_left (e1.trans e2.symm)
    cases this
  · intro T hsr ha
    have e3 := acceptNow_code n i S T ha
    rcases List.mem_append.mp hsr with hs | hr
    · obtain ⟨t1, e1⟩ := shiftSeq_code n i S T hs
      rw [← e3] at e1
      have := congrArg List.length e1
      simp at this
    · obtain ⟨t2, e2⟩ := reduceSeq_code n i S T hr
      rw [← e3] at e2
      have := congrArg List.length e2
      simp at this

/-! ## Counting: `Catalan(n-1)` accepted parenthesizations -/

theorem label_spans : ∀ (t : Tree Unit) (a : Int), Spans (label t a) a (a + t.numNodes)
  | .nil, a => ⟨rfl, by simp [Tree.numNodes]⟩
  | .node _ l r, a => by
    refine ⟨a + l.numNodes, label_spans l a, ?_⟩
    have := label_spans r (a + l.numNodes + 1)
    simp only [Tree.numNodes, Nat.cast_add, Nat.cast_one]
    rw [show a + ((l.numNodes : Int) + r.numNodes + 1) = a + l.numNodes + 1 + r.numNodes by omega]
    exact this

theorem shape_label : ∀ (t : Tree Unit) (a : Int), shape (label t a) = t
  | .nil, _ => rfl
  | .node () l r, a => by
    simp only [label, shape, shape_label l, shape_label r]

theorem spans_label : ∀ (T : PTree) (a b : Int), Spans T a b →
    label (shape T) a = T ∧ a + ((shape T).numNodes : Int) = b
  | .leaf i, a, b, h => by
    obtain ⟨rfl, rfl⟩ := h
    simp [shape, label, Tree.numNodes]
  | .node l r, a, b, ⟨k, hl, hr⟩ => by
    obtain ⟨e1, n1⟩ := spans_label l a k hl
    obtain ⟨e2, n2⟩ := spans_label r (k + 1) b hr
    simp only [shape, label, Tree.numNodes, Nat.cast_add, Nat.cast_one]
    rw [n1, e1, e2]
    exact ⟨rfl, by omega⟩

/-- The search accepts exactly `Catalan(n-1)` parenthesizations. -/
theorem parses_length (n : Int) (hn : 1 ≤ n) :
    (parses n 1 []).length = catalan (n - 1).toNat := by
  rw [← Tree.treesOfNumNodesEq_card_eq_catalan, ← List.toFinset_card_of_nodup (parses_nodup n 1 []),
    ← Finset.card_image_of_injective (Tree.treesOfNumNodesEq (n - 1).toNat)
      (f := fun t => label t 1)
      (fun t1 t2 h => by
        have := congrArg shape h
        simpa only [shape_label] using this)]
  congr 1
  ext T
  simp only [List.mem_toFinset, mem_parses_iff, Finset.mem_image, Tree.mem_treesOfNumNodesEq]
  constructor
  · intro h
    obtain ⟨e, hnum⟩ := spans_label T 1 n h
    exact ⟨shape T, by omega, e⟩
  · rintro ⟨t, ht, rfl⟩
    have := label_spans t 1
    rw [ht, show (1 : Int) + ((n - 1).toNat : Int) = n by omega] at this
    exact this

/-! ## The dynamic-programming recurrence -/

theorem listMin_le : ∀ (l : List Int) (x : Int), x ∈ l → listMin l ≤ x
  | [y], x, h => by
    simp only [List.mem_singleton] at h
    subst h
    exact le_rfl
  | y :: z :: l, x, h => by
    rcases List.mem_cons.mp h with h | h
    · subst h
      exact min_le_left _ _
    · exact le_trans (min_le_right _ _) (listMin_le (z :: l) x h)

theorem listMin_mem : ∀ (l : List Int), l ≠ [] → listMin l ∈ l
  | [], h => absurd rfl h
  | [y], _ => List.mem_singleton.mpr rfl
  | y :: z :: l, _ => by
    have ih := listMin_mem (z :: l) (by simp)
    unfold listMin
    rcases min_choice y (listMin (z :: l)) with h | h
    · rw [h]; exact List.mem_cons_self _ _
    · rw [h]; exact List.mem_cons_of_mem _ ih

theorem mcm_of_lt (d : Int → Int) (i j : Int) (h : i < j) :
    mcm d i j = listMin ((List.range (j - i).toNat).map (fun (t : Nat) =>
      mcm d i (i + (t : Int)) + mcm d (i + (t : Int) + 1) j + d (i - 1) * d (i + (t : Int)) * d j)) := by
  rw [mcm, if_pos h]
  congr 1
  exact List.attach_map_coe (List.range (j - i).toNat) (fun (t : Nat) =>
      mcm d i (i + (t : Int)) + mcm d (i + (t : Int) + 1) j + d (i - 1) * d (i + (t : Int)) * d j)

theorem mcm_of_ge (d : Int → Int) (i j : Int) (h : j ≤ i) : mcm d i j = 0 := by
  rw [mcm, if_neg (by omega)]

/-- The recurrence value is a lower bound on the cost of every parenthesization. -/
theorem mcm_le_treeCost (d : Int → Int) : ∀ (T : PTree) (a b : Int), Spans T a b →
    mcm d a b ≤ treeCost d T
  | .leaf i, a, b, h => by
    obtain ⟨rfl, rfl⟩ := h
    rw [mcm_of_ge d _ _ le_rfl]
    exact le_rfl
  | .node l r, a, b, ⟨k, hl, hr⟩ => by
    have h1 := mcm_le_treeCost d l a k hl
    have h2 := mcm_le_treeCost d r (k + 1) b hr
    have hak := hl.le
    have hkb := hr.le
    rw [mcm_of_lt d a b (by omega)]
    have hmem : mcm d a k + mcm d (k + 1) b + d (a - 1) * d k * d b ∈
        (List.range (b - a).toNat).map (fun (t : Nat) =>
          mcm d a (a + (t : Int)) + mcm d (a + (t : Int) + 1) b
            + d (a - 1) * d (a + (t : Int)) * d b) := by
      refine List.mem_map.mpr ⟨(k - a).toNat, List.mem_range.mpr (by omega), ?_⟩
      rw [show a + ((k - a).toNat : Int) = k by omega]
    refine le_trans (listMin_le _ _ hmem) ?_
    unfold treeCost
    rw [hl.lo_eq, hl.hi_eq, hr.hi_eq]
    omega

/-- The recurrence value is the cost of some parenthesization. -/
theorem mcm_attained (d : Int → Int) : ∀ (m : Nat) (a b : Int), (b - a).toNat ≤ m → a ≤ b →
    ∃ T, Spans T a b ∧ treeCost d T = mcm d a b := by
  intro m
  induction m with
  | zero =>
    intro a b hm hab
    have : a = b := by omega
    subst this
    exact ⟨.leaf a, ⟨rfl, rfl⟩, by rw [mcm_of_ge d _ _ le_rfl]; rfl⟩
  | succ m ih =>
    intro a b hm hab
    by_cases hlt : a < b
    · have hne : (List.range (b - a).toNat).map (fun (t : Nat) =>
          mcm d a (a + (t : Int)) + mcm d (a + (t : Int) + 1) b
            + d (a - 1) * d (a + (t : Int)) * d b) ≠ [] := by
        intro h
        have := congrArg List.length h
        simp at this
        omega
      have hmem := listMin_mem _ hne
      rw [← mcm_of_lt d a b hlt] at hmem
      obtain ⟨t, ht, he⟩ := List.mem_map.mp hmem
      have htlt := List.mem_range.mp ht
      obtain ⟨L, hL, cL⟩ := ih a (a + t) (by omega) (by omega)
      obtain ⟨R, hR, cR⟩ := ih (a + t + 1) b (by omega) (by omega)
      refine ⟨.node L R, ⟨a + t, hL, hR⟩, ?_⟩
      unfold treeCost
      rw [hL.lo_eq, hL.hi_eq, hR.hi_eq, cL, cR, ← he]
    · have : a = b := by omega
      subst this
      exact ⟨.leaf a, ⟨rfl, rfl⟩, by rw [mcm_of_ge d _ _ le_rfl]; rfl⟩

/-! ## Exactness of the computed costs, and the tracker -/

theorem wrapLL_eq (x : Int) (h1 : -9223372036854775808 ≤ x) (h2 : x ≤ 9223372036854775807) :
    wrapLL x = x := by
  unfold wrapLL
  omega

theorem nodeOf_rows (d : Int → Int) : ∀ T : PTree, (nodeOf d T).rows = d (T.lo - 1)
  | .leaf _ => rfl
  | .node l _ => nodeOf_rows d l

theorem nodeOf_cols (d : Int → Int) : ∀ T : PTree, (nodeOf d T).cols = d T.hi
  | .leaf _ => rfl
  | .node _ r => nodeOf_cols d r

theorem treeCost_nonneg (d : Int → Int) : ∀ (T : PTree) (a b : Int), Spans T a b →
    (∀ k, a - 1 ≤ k → k ≤ b → 0 ≤ d k) → 0 ≤ treeCost d T
  | .leaf _, _, _, _, _ => le_rfl
  | .node l r, a, b, ⟨k, hl, hr⟩, hd => by
    have hak := hl.le
    have hkb := hr.le
    have h1 := treeCost_nonneg d l a k hl (fun j h1 h2 => hd j h1 (by omega))
    have h2 := treeCost_nonneg d r (k + 1) b hr (fun j h1 h2 => hd j (by omega) h2)
    unfold treeCost
    rw [hl.lo_eq, hl.hi_eq, hr.hi_eq]
    have := mul_nonneg (mul_nonneg (hd (a - 1) le_rfl (by omega)) (hd k (by omega) (by omega)))
      (hd b (by omega) le_rfl)
    omega

/-- When the exact cost of a parenthesization fits in a `long long`, the cost field
computed by the code for it is exact. -/
theorem nodeOf_cost (d : Int → Int) : ∀ (T : PTree) (a b : Int), Spans T a b →
    (∀ k, a - 1 ≤ k → k ≤ b → 1 ≤ d k) → treeCost d T ≤ LLONG_MAX →
    (nodeOf d T).cost = treeCost d T
  | .leaf _, _, _, _, _, _ => rfl
  | .node l r, a, b, ⟨k, hl, hr⟩, hd, hc => by
    have hak := hl.le
    have hkb := hr.le
    have hdl : ∀ j, a - 1 ≤ j → j ≤ k → 1 ≤ d j := fun j h1 h2 => hd j h1 (by omega)
    have hdr : ∀ j, k + 1 - 1 ≤ j → j ≤ b → 1 ≤ d j := fun j h1 h2 => hd j (by omega) h2
    have n1 := treeCost_nonneg d l a k hl (fun j h1 h2 => le_trans zero_le_one (hdl j h1 h2))
    have n2 := treeCost_nonneg d r (k + 1) b hr
      (fun j h1 h2 => le_trans zero_le_one (hdr j h1 h2))
    unfold treeCost at hc
    rw [hl.lo_eq, hl.hi_eq, hr.hi_eq] at hc
    have p1 : 1 ≤ d (a - 1) := hd _ le_rfl (by omega)
    have p2 : 1 ≤ d k := hd _ (by omega) (by omega)
    have p3 : 1 ≤ d b := hd _ (by omega) le_rfl
    have q1 : 0 ≤ d (a - 1) * d k := mul_nonneg (by omega) (by omega)
    have q2 : d (a - 1) * d k ≤ d (a - 1) * d k * d b := le_mul_of_one_le_right q1 p3
    unfold LLONG_MAX at hc
    have e1 := nodeOf_cost d l a k hl hdl (by unfold LLONG_MAX; omega)
    have e2 := nodeOf_cost d r (k + 1) b hr hdr (by unfold LLONG_MAX; omega)
    unfold nodeOf combineNodes treeCost
    simp only
    rw [e1, e2, nodeOf_rows, nodeOf_cols, nodeOf_cols, hl.lo_eq, hl.hi_eq, hr.hi_eq,
      wrapLL_eq (d (a - 1) * d k) (by omega) (by omega),
      wrapLL_eq (d (a - 1) * d k * d b) (by omega) (by omega),
      wrapLL_eq (treeCost d l + treeCost d r) (by omega) (by omega),
      wrapLL_eq _ (by omega) (by omega)]

/-- The tracker after a sequence of ACCEPT events: either untouched, because no event was
strictly cheaper than the initial cost, or the first event of least cost. -/
theorem track_foldl : ∀ (cs : List Node) (b : Int × String),
    (cs.foldl track b = b ∧ ∀ x ∈ cs, b.1 ≤ x.cost) ∨
    (∃ l1 c l2, cs = l1 ++ c :: l2 ∧ cs.foldl track b = (c.cost, c.repr) ∧ c.cost < b.1 ∧
      (∀ x ∈ l1, c.cost < x.cost) ∧ (∀ x ∈ l2, c.cost ≤ x.cost))
  | [], b => Or.inl ⟨rfl, fun _ h => absurd h (List.not_mem_nil _)⟩
  | x :: xs, b => by
    rw [List.foldl_cons]
    by_cases hx : x.cost < b.1
    · have ht : track b x = (x.cost, x.repr) := by unfold track; rw [if_pos hx]
      rw [ht]
      rcases track_foldl xs (x.cost, x.repr) with ⟨h1, h2⟩ | ⟨l1, c, l2, e, h1, h2, h3, h4⟩
      · exact Or.inr ⟨[], x, xs, rfl, h1, hx, fun _ h => absurd h (List.not_mem_nil _), h2⟩
      · refine Or.inr ⟨x :: l1, c, l2, by rw [e]; rfl, h1, lt_trans h2 hx, ?_, h4⟩
        intro y hy
        rcases List.mem_cons.mp hy with rfl | hy
        · exact h2
        · exact h3 y hy
    · have ht : track b x = b := by unfold track; rw [if_neg hx]
      rw [ht]
      rcases track_foldl xs b with ⟨h1, h2⟩ | ⟨l1, c, l2, e, h1, h2, h3, h4⟩
      · refine Or.inl ⟨h1, ?_⟩
        intro y hy
        rcases List.mem_cons.mp hy with rfl | hy
        · omega
        · exact h2 y hy
      · refine Or.inr ⟨x :: l1, c, l2, by rw [e]; rfl, h1, h2, ?_, h4⟩
        intro y hy
        rcases List.mem_cons.mp hy with rfl | hy
        · omega
        · exact h3 y hy

theorem solveInstance_ok (s : State) (hn : s.n ≤ 200) :
    ∃ s1, solveInstance s = .ok s1 ∧ s1.top = 0 ∧ s1.n = s.n ∧ s1.d = s.d ∧
      s1.acceptLog = s.acceptLog ++ cands s.n s.d 1 [] ∧
      (s1.bestCost, s1.bestTree) = (cands s.n s.d 1 []).foldl track (LLONG_MAX, "") := by
  unfold solveInstance backtrack
  obtain ⟨s1, h1, l1⟩ := backtrackFuel_run
    (2 * (s.n + 1 - 1).toNat + (0 : Int).toNat + 1) 1
    { s with bestCost := LLONG_MAX, bestTree := "", top := 0 } [] rfl
    (by simp only [List.length_nil]; omega) (by simp only [List.length_nil]; omega)
  obtain ⟨evs, st⟩ := backtrackFuel_step _ _ _ _ h1
  have hev : evs = cands s.n s.d 1 [] := List.append_cancel_left (st.log_eq.symm.trans l1)
  subst hev
  exact ⟨s1, h1, st.top_eq, st.n_eq, st.d_eq, st.log_eq, st.best_eq⟩

theorem solveInstance_overflow (s : State) (hn : 200 < s.n) :
    solveInstance s = .error .overflow := by
  unfold solveInstance backtrack
  exact backtrackFuel_overflow _ 1 _ le_rfl (by simp only; omega) (by simp only; omega)
    (by simp only; omega) (by simp only; omega)

/-! ## C6 and C7: the cost model and the parse stack -/

theorem snprintfRepr_length (text : String) : (snprintfRepr text).length ≤ 499 := by
  unfold snprintfRepr MAXREPR
  simp only [String.length, List.length_take]
  omega

theorem snprintfRepr_eq (text : String) (h : text.length ≤ 499) : snprintfRepr text = text := by
  unfold snprintfRepr MAXREPR
  have hl : text.data.length ≤ 500 - 1 := h
  rw [List.take_of_length_le hl]

/-- C6, as stated, fails: combining two fragments whose texts have 250 characters each
gives a text of at most 499 characters, not the 503-character concatenation. -/
theorem combineNodes_repr_counterexample :
    (combineNodes longNode longNode).repr ≠ "(" ++ longNode.repr ++ " " ++ longNode.repr ++ ")" := by
  intro h
  have h1 := snprintfRepr_length ("(" ++ longNode.repr ++ " " ++ longNode.repr ++ ")")
  have h2 : (combineNodes longNode longNode).repr.length ≤ 499 := h1
  rw [h] at h2
  have h3 : longNode.repr.length = 250 := List.length_replicate 250 'x'
  have e1 : "(".length = 1 := rfl
  have e2 : " ".length = 1 := rfl
  have e3 : ")".length = 1 := rfl
  simp only [String.length_append, h3, e1, e2, e3] at h2
  omega

/-- C6, amended: `combineNodes A B` has the rows of `A`, the columns of `B`, the cost
`A.cost + B.cost + A.rows * A.cols * B.cols` computed in 64-bit arithmetic (exact whenever
the product and the sum fit in a `long long`), and as text the first 499 characters of
`"(" ++ A.repr ++ " " ++ B.repr ++ ")"`, which is the whole concatenation whenever that
has at most 499 characters. -/
theorem combineNodes_contract (A B : Node) :
    (combineNodes A B).rows = A.rows ∧
    (combineNodes A B).cols = B.cols ∧
    (combineNodes A B).cost =
      wrapLL (wrapLL (A.cost + B.cost) + wrapLL (wrapLL (A.rows * A.cols) * B.cols)) ∧
    (0 ≤ A.cost → 0 ≤ B.cost → 0 ≤ A.rows → 0 ≤ A.cols → 1 ≤ B.cols →
      A.cost + B.cost + A.rows * A.cols * B.cols ≤ LLONG_MAX →
      (combineNodes A B).cost = A.cost + B.cost + A.rows * A.cols * B.cols) ∧
    (combineNodes A B).repr.data =
      ("(" ++ A.repr ++ " " ++ B.repr ++ ")").data.take 499 ∧
    (A.repr.length + B.repr.length + 3 ≤ 499 →
      (combineNodes A B).repr = "(" ++ A.repr ++ " " ++ B.repr ++ ")") := by
  refine ⟨rfl, rfl, rfl, ?_, rfl, ?_⟩
  · intro hA hB hr hc hb hsum
    have q1 : 0 ≤ A.rows * A.cols := mul_nonneg hr hc
    have q2 : A.rows * A.cols ≤ A.rows * A.cols * B.cols := le_mul_of_one_le_right q1 hb
    unfold LLONG_MAX at hsum
    unfold combineNodes
    simp only
    rw [wrapLL_eq (A.rows * A.cols) (by omega) (by omega),
      wrapLL_eq (A.rows * A.cols * B.cols) (by omega) (by omega),
      wrapLL_eq (A.cost + B.cost) (by omega) (by omega),
      wrapLL_eq _ (by omega) (by omega)]
  · intro h
    unfold combineNodes
    simp only
    apply snprintfRepr_eq
    simp only [String.length_append]
    have : "(".length = 1 := rfl
    have : " ".length = 1 := rfl
    have : ")".length = 1 := rfl
    omega

/-- The contract of C6 at two concrete fragments. -/
theorem combineNodes_contract_witness :
    (combineNodes ⟨10, 20, 0, "M1"⟩ ⟨20, 30, 0, "M2"⟩).cost = 6000 ∧
    (combineNodes ⟨10, 20, 0, "M1"⟩ ⟨20, 30, 0, "M2"⟩).repr = "(M1 M2)" :=
  ⟨((combineNodes_contract ⟨10, 20, 0, "M1"⟩ ⟨20, 30, 0, "M2"⟩).2.2.2.1 (by decide) (by decide)
      (by decide) (by decide) (by decide) (by decide)).trans (by decide),
   ((combineNodes_contract ⟨10, 20, 0, "M1"⟩ ⟨20, 30, 0, "M2"⟩).2.2.2.2.2 (by decide)).trans
      (by decide)⟩

/-- C7: on a stack holding `top` nodes, `0 <= top <= 200`: `push` fails, with the overflow
error, exactly when 200 nodes are held, and otherwise stores the node in slot `top`,
leaves every other slot alone and increments `top`; `pop` fails, with the underflow
error, exactly when no node is held, and otherwise returns the node in slot `top - 1`
and decrements `top`; a successful `push` followed by `pop` returns the pushed node and
leaves `top` and the slots below it as before. -/
theorem stack_contract (nd : Node) (s : State) (h0 : 0 ≤ s.top) (h200 : s.top ≤ 200) :
    (push nd s = .error .overflow ↔ s.top = 200) ∧
    ((∃ e, push nd s = .error e) ↔ s.top = 200) ∧
    (s.top < 200 → ∃ s1, push nd s = .ok s1 ∧ s1.top = s.top + 1 ∧ s1.stack s.top = nd ∧
      (∀ k, k ≠ s.top → s1.stack k = s.stack k) ∧ Same s s1) ∧
    (pop s = .error .underflow ↔ s.top = 0) ∧
    ((∃ e, pop s = .error e) ↔ s.top = 0) ∧
    (0 < s.top → ∃ s1, pop s = .ok (s.stack (s.top - 1), s1) ∧ s1.top = s.top - 1 ∧
      s1.stack = s.stack ∧ Same s s1) ∧
    (s.top < 200 → ∃ s1 s2, push nd s = .ok s1 ∧ pop s1 = .ok (nd, s2) ∧ s2.top = s.top ∧
      (∀ k, k < s.top → s2.stack k = s.stack k) ∧ Same s s2) := by
  have hpush_err : s.top = 200 → push nd s = .error .overflow := by
    intro h; unfold push MAXSTACK; rw [if_pos (by omega)]
  have hpop_err : s.top = 0 → pop s = .error .underflow := by
    intro h; unfold pop; rw [if_pos (by omega)]
  refine ⟨⟨?_, hpush_err⟩, ⟨?_, fun h => ⟨_, hpush_err h⟩⟩, ?_, ⟨?_, hpop_err⟩,
    ⟨?_, fun h => ⟨_, hpop_err h⟩⟩, ?_, ?_⟩
  · intro h
    have := (push_eq_error h).2
    omega
  · rintro ⟨e, h⟩
    have := (push_eq_error h).2
    omega
  · intro h
    refine ⟨_, push_ok nd s h, rfl, Function.update_same _ _ _, ?_, ⟨rfl, rfl, rfl, rfl, rfl⟩⟩
    intro k hk
    exact Function.update_noteq hk _ _
  · intro h
    have := (pop_eq_error h).2
    omega
  · rintro ⟨e, h⟩
    have := (pop_eq_error h).2
    omega
  · intro h
    exact ⟨_, pop_ok s h, rfl, rfl, ⟨rfl, rfl, rfl, rfl, rfl⟩⟩
  · intro h
    refine ⟨_, { s with stack := Function.update s.stack s.top nd, top := s.top + 1 - 1 },
      push_ok nd s h, ?_, ?_, ?_, ⟨rfl, rfl, rfl, rfl, rfl⟩⟩
    · rw [pop_ok _ (by simp only; omega)]
      have e : s.top + 1 - 1 = s.top := by omega
      simp only [e]
      rw [e, Function.update_same]
    · simp only; omega
    · intro k hk
      exact Function.update_noteq (by omega) _ _

/-- The stack contract on the empty stack of a fresh state. -/
theorem stack_contract_witness :
    (pop (initState 1 (dOf [2, 3])) = .error .underflow ↔ (initState 1 (dOf [2, 3])).top = 0) ∧
    ∃ s1 s2, push ⟨2, 3, 0, "M1"⟩ (initState 1 (dOf [2, 3])) = .ok s1 ∧
      pop s1 = .ok (⟨2, 3, 0, "M1"⟩, s2) ∧ s2.top = 0 :=
  have h := stack_contract ⟨2, 3, 0, "M1"⟩ (initState 1 (dOf [2, 3])) (by decide) (by decide)
  ⟨h.2.2.2.1,
   let ⟨s1, s2, h1, h2, h3, _⟩ := h.2.2.2.2.2.2 (by decide)
   ⟨s1, s2, h1, h2, h3⟩⟩

/-! ## C5: backtracking restores the stack -/

/-- C5: a call of `backtrack` always terminates, with a result or with a capacity error;
when it returns, `top` and every stack slot below `top` are as the call found them, and
so are `n` and `d`; the per-instance run therefore ends with an empty stack, and it does
return whenever `n <= 200`. -/
theorem backtrack_restores_stack (i : Int) (s : State) :
    backtrack i s ≠ .error .fuel ∧
    (∀ s1, backtrack i s = .ok s1 →
      s1.top = s.top ∧ (∀ k, k < s.top → s1.stack k = s.stack k) ∧ s1.n = s.n ∧ s1.d = s.d) ∧
    (∀ s1, solveInstance s = .ok s1 → s1.top = 0) ∧
    (s.n ≤ 200 → ∃ s1, solveInstance s = .ok s1 ∧ s1.top = 0) := by
  refine ⟨backtrack_ne_fuel i s, ?_, ?_, ?_⟩
  · intro s1 h
    obtain ⟨evs, st⟩ := backtrackFuel_step _ _ _ _ h
    exact ⟨st.top_eq, st.stack_eq, st.n_eq, st.d_eq⟩
  · intro s1 h
    obtain ⟨evs, st⟩ := backtrackFuel_step _ _ _ _ h
    exact st.top_eq
  · intro hn
    obtain ⟨s1, h1, ht, _⟩ := solveInstance_ok s hn
    exact ⟨s1, h1, ht⟩

/-- The stack is restored on the instance `n = 3`, `d = [10, 20, 30, 5]`. -/
theorem backtrack_restores_stack_witness :
    ∃ s1, solveInstance (initState 3 (dOf [10, 20, 30, 5])) = .ok s1 ∧ s1.top = 0 :=
  (backtrack_restores_stack 1 (initState 3 (dOf [10, 20, 30, 5]))).2.2.2 (by decide)

/-! ## C9: one factor -/

theorem makeLeaf_one (d : Int → Int) : makeLeaf d 1 = ⟨d 0, d 1, 0, "M1"⟩ := by
  unfold makeLeaf
  congr 1

theorem cands_one (d : Int → Int) : cands 1 d 1 [] = [makeLeaf d 1] := by
  simp [cands, acceptSeq]

/-- C9: for `n = 1` the search returns cost 0 and text `M1`; the fragment is the leaf of
`makeLeaf(1)`, of shape `d[0] x d[1]` and cost 0, and it is found by exactly one ACCEPT
event. -/
theorem single_factor (s : State) (h : s.n = 1) :
    ∃ s1, solveInstance s = .ok s1 ∧ s1.bestCost = 0 ∧ s1.bestTree = "M1" ∧
      s1.acceptLog = s.acceptLog ++ [makeLeaf s.d 1] ∧
      makeLeaf s.d 1 = ⟨s.d 0, s.d 1, 0, "M1"⟩ := by
  obtain ⟨s1, h1, _, _, _, hl, hb⟩ := solveInstance_ok s (by omega)
  rw [h, cands_one] at hl hb
  rw [makeLeaf_one] at hb
  simp only [List.foldl_cons, List.foldl_nil, track] at hb
  rw [if_pos (by decide)] at hb
  injection hb with hb1 hb2
  exact ⟨s1, h1, hb1, hb2, hl, makeLeaf_one s.d⟩

/-- The single-factor instance `d = [7, 9]`. -/
theorem single_factor_witness :
    ∃ s1, solveInstance (initState 1 (dOf [7, 9])) = .ok s1 ∧ s1.bestCost = 0 ∧
      s1.bestTree = "M1" ∧ s1.acceptLog = [makeLeaf (dOf [7, 9]) 1] :=
  let ⟨s1, h1, h2, h3, h4, _⟩ := single_factor (initState 1 (dOf [7, 9])) rfl
  ⟨s1, h1, h2, h3, h4⟩

/-! ## C8: three factors -/

theorem parses_three : parses 3 1 [] = [rightTree3, leftTree3] := by
  simp [parses, acceptSeq, rightTree3, leftTree3]

theorem leftTree3_spans : Spans leftTree3 1 3 :=
  ⟨2, ⟨1, ⟨rfl, rfl⟩, ⟨by decide, rfl⟩⟩, ⟨by decide, rfl⟩⟩

theorem rightTree3_spans : Spans rightTree3 1 3 :=
  ⟨1, ⟨rfl, rfl⟩, ⟨2, ⟨by decide, rfl⟩, ⟨by decide, rfl⟩⟩⟩

theorem leftTree3_cost (d : Int → Int) :
    treeCost d leftTree3 = d 0 * d 1 * d 2 + d 0 * d 2 * d 3 := by
  simp [treeCost, leftTree3, PTree.lo, PTree.hi]

theorem rightTree3_cost (d : Int → Int) :
    treeCost d rightTree3 = d 1 * d 2 * d 3 + d 0 * d 1 * d 3 := by
  simp [treeCost, rightTree3, PTree.lo, PTree.hi]

theorem leftTree3_repr (d : Int → Int) : (nodeOf d leftTree3).repr = "((M1 M2) M3)" := by
  show snprintfRepr ("(" ++ snprintfRepr ("(" ++ snprintfRepr ("M" ++ Int.repr 1) ++ " " ++
    snprintfRepr ("M" ++ Int.repr 2) ++ ")") ++ " " ++ snprintfRepr ("M" ++ Int.repr 3) ++ ")") = _
  decide

theorem rightTree3_repr (d : Int → Int) : (nodeOf d rightTree3).repr = "(M1 (M2 M3))" := by
  show snprintfRepr ("(" ++ snprintfRepr ("M" ++ Int.repr 1) ++ " " ++ snprintfRepr ("(" ++
    snprintfRepr ("M" ++ Int.repr 2) ++ " " ++ snprintfRepr ("M" ++ Int.repr 3) ++ ")") ++ ")") = _
  decide

/-- The two costs of a three-factor chain cannot both be `2^63 - 1`: one of them is even. -/
theorem three_parity (a b c e : Int)
    (hL : a * b * c + a * c * e = 9223372036854775807)
    (hR : b * c * e + a * b * e = 9223372036854775807) : False := by
  have hL2 : Odd (a * c * (b + e)) := by
    have : a * c * (b + e) = 9223372036854775807 := by rw [← hL]; ring
    rw [this]; decide
  have hR2 : Odd (b * e * (a + c)) := by
    have : b * e * (a + c) = 9223372036854775807 := by rw [← hR]; ring
    rw [this]; decide
  rw [Int.odd_mul, Int.odd_mul] at hL2 hR2
  obtain ⟨⟨ha, hc⟩, _⟩ := hL2
  obtain ⟨_, hac⟩ := hR2
  rw [Int.odd_add] at hac
  exact (Int.not_even_iff_odd.mpr hc) (hac.mp ha)

/-- C8: for `n = 3` and dimensions at least 1 whose two parenthesization costs
`L = d0*d1*d2 + d0*d2*d3` and `R = d1*d2*d3 + d0*d1*d3` fit in a `long long`, the search
returns the cost `min(L, R)`, with the text `((M1 M2) M3)` exactly when `L < R` and the
text `(M1 (M2 M3))` otherwise, ties included. -/
theorem three_factors (s : State) (hn : s.n = 3)
    (h0 : 1 ≤ s.d 0) (h1 : 1 ≤ s.d 1) (h2 : 1 ≤ s.d 2) (h3 : 1 ≤ s.d 3)
    (hL : s.d 0 * s.d 1 * s.d 2 + s.d 0 * s.d 2 * s.d 3 ≤ LLONG_MAX)
    (hR : s.d 1 * s.d 2 * s.d 3 + s.d 0 * s.d 1 * s.d 3 ≤ LLONG_MAX) :
    ∃ s1, solveInstance s = .ok s1 ∧
      s1.bestCost = min (s.d 0 * s.d 1 * s.d 2 + s.d 0 * s.d 2 * s.d 3)
        (s.d 1 * s.d 2 * s.d 3 + s.d 0 * s.d 1 * s.d 3) ∧
      (s1.bestTree = "((M1 M2) M3)" ↔
        s.d 0 * s.d 1 * s.d 2 + s.d 0 * s.d 2 * s.d 3 <
          s.d 1 * s.d 2 * s.d 3 + s.d 0 * s.d 1 * s.d 3) ∧
      (s1.bestTree = "(M1 (M2 M3))" ↔
        ¬ s.d 0 * s.d 1 * s.d 2 + s.d 0 * s.d 2 * s.d 3 <
          s.d 1 * s.d 2 * s.d 3 + s.d 0 * s.d 1 * s.d 3) := by
  obtain ⟨s1, hs1, _, _, _, _, hb⟩ := solveInstance_ok s (by omega)
  have hd : ∀ k, (1 : Int) - 1 ≤ k → k ≤ 3 → 1 ≤ s.d k := by
    intro k hk1 hk2
    have : k = 0 ∨ k = 1 ∨ k = 2 ∨ k = 3 := by omega
    rcases this with rfl | rfl | rfl | rfl <;> assumption
  have cL := nodeOf_cost s.d leftTree3 1 3 leftTree3_spans hd (by rw [leftTree3_cost]; exact hL)
  have cR := nodeOf_cost s.d rightTree3 1 3 rightTree3_spans hd
    (by rw [rightTree3_cost]; exact hR)
  rw [leftTree3_cost] at cL
  rw [rightTree3_cost] at cR
  have hc : cands s.n s.d 1 [] = [nodeOf s.d rightTree3, nodeOf s.d leftTree3] := by
    have := cands_map_nodeOf s.n s.d 1 []
    rw [List.map_nil, hn, parses_three] at this
    rw [hn, this]; rfl
  rw [hc] at hb
  simp only [List.foldl_cons, List.foldl_nil, track, cL, cR, leftTree3_repr,
    rightTree3_repr] at hb
  have hne : ("((M1 M2) M3)" : String) ≠ "(M1 (M2 M3))" := by decide
  have hne2 : ("" : String) ≠ "(M1 (M2 M3))" := by decide
  have hne3 : ("" : String) ≠ "((M1 M2) M3)" := by decide
  have hpar := three_parity (s.d 0) (s.d 1) (s.d 2) (s.d 3)
  unfold LLONG_MAX at hL hR hb
  refine ⟨s1, hs1, ?_⟩
  by_cases hRlt : s.d 1 * s.d 2 * s.d 3 + s.d 0 * s.d 1 * s.d 3 < 9223372036854775807
  · rw [if_pos hRlt] at hb
    simp only at hb
    by_cases hlt : s.d 0 * s.d 1 * s.d 2 + s.d 0 * s.d 2 * s.d 3 <
        s.d 1 * s.d 2 * s.d 3 + s.d 0 * s.d 1 * s.d 3
    · rw [if_pos hlt] at hb
      injection hb with hb1 hb2
      rw [hb1, hb2]
      exact ⟨(min_eq_left (le_of_lt hlt)).symm, ⟨fun _ => hlt, fun _ => rfl⟩,
        ⟨fun h => absurd h hne, fun h => absurd hlt h⟩⟩
    · rw [if_neg hlt] at hb
      injection hb with hb1 hb2
      rw [hb1, hb2]
      exact ⟨(min_eq_right (not_lt.mp hlt)).symm, ⟨fun h => absurd h.symm hne, fun h => absurd h hlt⟩,
        ⟨fun _ => hlt, fun _ => rfl⟩⟩
  · rw [if_neg hRlt] at hb
    simp only at hb
    have hReq : s.d 1 * s.d 2 * s.d 3 + s.d 0 * s.d 1 * s.d 3 = 9223372036854775807 := by omega
    have hLlt : s.d 0 * s.d 1 * s.d 2 + s.d 0 * s.d 2 * s.d 3 < 9223372036854775807 := by
      rcases lt_or_eq_of_le hL with h | h
      · exact h
      · exact absurd (hpar h hReq) id
    rw [if_pos hLlt] at hb
    injection hb with hb1 hb2
    rw [hb1, hb2]
    have hlt : s.d 0 * s.d 1 * s.d 2 + s.d 0 * s.d 2 * s.d 3 <
        s.d 1 * s.d 2 * s.d 3 + s.d 0 * s.d 1 * s.d 3 := by omega
    exact ⟨(min_eq_left (le_of_lt hlt)).symm, ⟨fun _ => hlt, fun _ => rfl⟩,
      ⟨fun h => absurd h hne, fun h => absurd hlt h⟩⟩

/-- The instance `d = [10, 20, 30, 5]`: `L = 7500`, `R = 4000`, result 4000 with the
right-nested text. -/
theorem three_factors_witness :
    ∃ s1, solveInstance (initState 3 (dOf [10, 20, 30, 5])) = .ok s1 ∧
      s1.bestCost = 4000 ∧ s1.bestTree = "(M1 (M2 M3))" :=
  let ⟨s1, h1, h2, _, h4⟩ := three_factors (initState 3 (dOf [10, 20, 30, 5])) rfl
    (by decide) (by decide) (by decide) (by decide) (by decide) (by decide)
  ⟨s1, h1, h2.trans (by decide), h4.mpr (by decide)⟩

/-! ## C1: optimality -/

theorem factors_length (a b : Int) : (factors a b).length = (b + 1 - a).toNat := by
  simp [factors]

theorem factors_append (a k b : Int) (h1 : a ≤ k + 1) (h2 : k ≤ b) :
    factors a k ++ factors (k + 1) b = factors a b := by
  unfold factors
  have e : (b + 1 - a).toNat = (k + 1 - a).toNat + (b + 1 - (k + 1)).toNat := by omega
  rw [e, List.range_add, List.map_append, List.map_map]
  congr 1
  apply List.map_congr_left
  intro t _
  simp only [Function.comp_apply, Nat.cast_add]
  omega

theorem factors_self (a : Int) : factors a a = [a] := by
  unfold factors
  rw [show (a + 1 - a).toNat = 1 by omega]
  simp [List.range_succ]

theorem leaves_ne_nil : ∀ T : PTree, T.leaves ≠ []
  | .leaf _ => by simp [PTree.leaves]
  | .node l _ => by simp [PTree.leaves, leaves_ne_nil l]

theorem Spans.leaves : ∀ {T : PTree} {a b : Int}, Spans T a b → T.leaves = factors a b
  | .leaf i, a, b, h => by
    obtain ⟨rfl, rfl⟩ := h
    rw [factors_self]; rfl
  | .node l r, a, b, ⟨k, hl, hr⟩ => by
    have := hl.le
    have := hr.le
    unfold PTree.leaves
    rw [hl.leaves, hr.leaves, factors_append a k b (by omega) (by omega)]

theorem spans_of_leaves : ∀ (T : PTree) (a b : Int), T.leaves = factors a b → Spans T a b
  | .leaf i, a, b, h => by
    unfold PTree.leaves at h
    have hl := congrArg List.length h
    rw [factors_length] at hl
    simp only [List.length_singleton] at hl
    have hab : b = a := by omega
    subst hab
    rw [factors_self] at h
    injection h with h
    exact ⟨h.symm, h.symm⟩
  | .node l r, a, b, h => by
    unfold PTree.leaves at h
    have hl := congrArg List.length h
    rw [factors_length, List.length_append] at hl
    have p1 : 0 < l.leaves.length := List.length_pos.mpr (leaves_ne_nil l)
    have p2 : 0 < r.leaves.length := List.length_pos.mpr (leaves_ne_nil r)
    rw [← factors_append a (a + l.leaves.length - 1) b (by omega) (by omega)] at h
    have hlen : l.leaves.length = (factors a (a + l.leaves.length - 1)).length := by
      rw [factors_length]; omega
    obtain ⟨e1, e2⟩ := List.append_inj h hlen
    exact ⟨a + l.leaves.length - 1, spans_of_leaves l _ _ e1, spans_of_leaves r _ _ e2⟩

theorem spans_iff_leaves (T : PTree) (a b : Int) : Spans T a b ↔ T.leaves = factors a b :=
  ⟨fun h => h.leaves, spans_of_leaves T a b⟩

/-- With every dimension between 0 and `D`, a parenthesization of `a..b` costs at most
`(b - a) * D^3`. -/
theorem treeCost_le (d : Int → Int) (D : Int) : ∀ (T : PTree) (a b : Int), Spans T a b →
    (∀ k, a - 1 ≤ k → k ≤ b → 0 ≤ d k ∧ d k ≤ D) → treeCost d T ≤ (b - a) * (D * D * D)
  | .leaf _, a, b, h, _ => by
    obtain ⟨rfl, rfl⟩ := h
    simp [treeCost]
  | .node l r, a, b, ⟨k, hl, hr⟩, hd => by
    have hak := hl.le
    have hkb := hr.le
    have h1 := treeCost_le d D l a k hl (fun j h1 h2 => hd j h1 (by omega))
    have h2 := treeCost_le d D r (k + 1) b hr (fun j h1 h2 => hd j (by omega) h2)
    unfold treeCost
    rw [hl.lo_eq, hl.hi_eq, hr.hi_eq]
    obtain ⟨a0, a1⟩ := hd (a - 1) le_rfl (by omega)
    obtain ⟨k0, k1⟩ := hd k (by omega) (by omega)
    obtain ⟨b0, b1⟩ := hd b (by omega) le_rfl
    have hD : 0 ≤ D := le_trans a0 a1
    have hp : d (a - 1) * d k * d b ≤ D * D * D :=
      mul_le_mul (mul_le_mul a1 k1 k0 hD) b1 b0 (mul_nonneg hD hD)
    have e : (b - a) * (D * D * D) =
        (k - a) * (D * D * D) + (b - (k + 1)) * (D * D * D) + D * D * D := by ring
    rw [e]
    omega

/-- The per-instance run in terms of the accepted parenthesizations. -/
theorem solveInstance_parses (s : State) (hn : s.n ≤ 200) :
    ∃ s1, solveInstance s = .ok s1 ∧
      s1.acceptLog = s.acceptLog ++ (parses s.n 1 []).map (nodeOf s.d) ∧
      (s1.bestCost, s1.bestTree) =
        ((parses s.n 1 []).map (nodeOf s.d)).foldl track (LLONG_MAX, "") := by
  obtain ⟨s1, h1, _, _, _, hl, hb⟩ := solveInstance_ok s hn
  have := cands_map_nodeOf s.n s.d 1 []
  rw [List.map_nil] at this
  rw [this] at hl hb
  exact ⟨s1, h1, hl, hb⟩

/-- The least cost over the accepted fragments, under exact arithmetic, is the value of
the recurrence. -/
theorem best_eq_mcm (n : Int) (d : Int → Int) (hn1 : 1 ≤ n)
    (hd : ∀ k, 0 ≤ k → k ≤ n → 1 ≤ d k)
    (hfit : ∀ T, Spans T 1 n → treeCost d T ≤ LLONG_MAX) :
    (((parses n 1 []).map (nodeOf d)).foldl track (LLONG_MAX, "")).1 = mcm d 1 n := by
  have hcost : ∀ T, Spans T 1 n → (nodeOf d T).cost = treeCost d T := fun T hT =>
    nodeOf_cost d T 1 n hT (fun k h1 h2 => hd k (by omega) h2) (hfit T hT)
  obtain ⟨T0, hT0, c0⟩ := mcm_attained d _ 1 n le_rfl hn1
  have hmem0 : nodeOf d T0 ∈ (parses n 1 []).map (nodeOf d) :=
    List.mem_map.mpr ⟨T0, (mem_parses_iff n T0).mpr hT0, rfl⟩
  rcases track_foldl ((parses n 1 []).map (nodeOf d)) (LLONG_MAX, "") with
    ⟨h1, h2⟩ | ⟨l1, c, l2, e, h1, h2, h3, h4⟩
  · rw [h1]
    have := h2 _ hmem0
    rw [hcost T0 hT0] at this
    have := hfit T0 hT0
    simp only at *
    omega
  · rw [h1]
    have hc : c ∈ (parses n 1 []).map (nodeOf d) := by rw [e]; simp
    obtain ⟨T1, hT1, rfl⟩ := List.mem_map.mp hc
    have hT1s := (mem_parses_iff n T1).mp hT1
    have hle : (nodeOf d T1).cost ≤ (nodeOf d T0).cost := by
      rw [e] at hmem0
      rcases List.mem_append.mp hmem0 with h | h
      · exact le_of_lt (h3 _ h)
      · rcases List.mem_cons.mp h with h | h
        · rw [h]
        · exact h4 _ h
    rw [hcost T0 hT0, hcost T1 hT1s] at hle
    have := mcm_le_treeCost d T1 1 n hT1s
    simp only
    rw [hcost T1 hT1s]
    omega

/-- C1: on a valid instance (`1 <= n <= 100`, dimensions at least 1, every
parenthesization cost within `long long`), the run returns and `bestCost` is the value
`m[1][n]` of the dynamic-programming recurrence, which is the least cost over all full
parenthesizations of the factors `1..n`: no parenthesization is cheaper and some
parenthesization costs exactly that. -/
theorem backtrack_optimal (s : State) (hn1 : 1 ≤ s.n) (hn100 : s.n ≤ 100)
    (hd : ∀ k, 0 ≤ k → k ≤ s.n → 1 ≤ s.d k)
    (hfit : ∀ T : PTree, T.leaves = factors 1 s.n → treeCost s.d T ≤ LLONG_MAX) :
    ∃ s1, solveInstance s = .ok s1 ∧ s1.bestCost = mcm s.d 1 s.n ∧
      (∀ T : PTree, T.leaves = factors 1 s.n → s1.bestCost ≤ treeCost s.d T) ∧
      (∃ T : PTree, T.leaves = factors 1 s.n ∧ treeCost s.d T = s1.bestCost) := by
  obtain ⟨s1, h1, _, hb⟩ := solveInstance_parses s (by omega)
  have hbest : s1.bestCost = mcm s.d 1 s.n := by
    have := best_eq_mcm s.n s.d hn1 hd (fun T hT => hfit T hT.leaves)
    rw [← hb] at this
    exact this
  refine ⟨s1, h1, hbest, ?_, ?_⟩
  · intro T hT
    rw [hbest]
    exact mcm_le_treeCost s.d T 1 s.n (spans_of_leaves T 1 s.n hT)
  · obtain ⟨T0, hT0, c0⟩ := mcm_attained s.d _ 1 s.n le_rfl hn1
    exact ⟨T0, hT0.leaves, by rw [hbest, c0]⟩

/-- Dimensions bounded by `D` with `(n - 1) * D^3` within `long long` make every
parenthesization cost fit. -/
theorem fits_of_bound (n : Int) (d : Int → Int) (D : Int)
    (hd : ∀ k, 0 ≤ k → k ≤ n → 0 ≤ d k ∧ d k ≤ D) (hD : (n - 1) * (D * D * D) ≤ LLONG_MAX)
    (T : PTree) (hT : T.leaves = factors 1 n) : treeCost d T ≤ LLONG_MAX :=
  le_trans (treeCost_le d D T 1 n (spans_of_leaves T 1 n hT)
    (fun k h1 h2 => hd k (by omega) h2)) hD

theorem dOf_cases (l : List Int) (n : Int) (P : Int → Prop)
    (h : ∀ t : Nat, t < (n + 1).toNat → P (l.getD t 0)) :
    ∀ k, 0 ≤ k → k ≤ n → P (dOf l k) := by
  intro k h0 h1
  unfold dOf
  rw [if_neg (by omega)]
  exact h k.toNat (by omega)

/-- The instance `n = 2`, `d = [10, 20, 30]`: the optimum is 6000. -/
theorem backtrack_optimal_witness :
    ∃ s1, solveInstance (initState 2 (dOf [10, 20, 30])) = .ok s1 ∧ s1.bestCost = 6000 :=
  let ⟨s1, h1, h2, _⟩ := backtrack_optimal (initState 2 (dOf [10, 20, 30])) (by decide)
    (by decide)
    (dOf_cases [10, 20, 30] 2 (fun x => 1 ≤ x) (by decide))
    (fits_of_bound 2 (dOf [10, 20, 30]) 30
      (dOf_cases [10, 20, 30] 2 (fun x => 0 ≤ x ∧ x ≤ 30) (by decide)) (by decide))
  ⟨s1, h1, h2.trans (by simp [initState, mcm, listMin, dOf, List.range, List.range.loop])⟩

/-! ## Text lengths -/

set_option maxRecDepth 100000 in
theorem repr_length_lt_100 : ∀ k : Nat, k < 100 →
    (Nat.repr k).length = if k < 10 then 1 else 2 := by
  decide

theorem leaf_text_length (i : Int) (h1 : 1 ≤ i) (h2 : i ≤ 99) :
    ((render (.leaf i)).length : Int) + 3 = textBudget i - textBudget (i - 1) := by
  obtain ⟨k, rfl⟩ := Int.eq_ofNat_of_zero_le (by omega : 0 ≤ i)
  have hk := repr_length_lt_100 k (by omega)
  have e : render (.leaf (k : Int)) = "M" ++ Nat.repr k := rfl
  have e1 : "M".length = 1 := rfl
  rw [e, String.length_append, hk, e1]
  unfold textBudget
  split_ifs <;> omega

theorem render_length : ∀ (T : PTree) (a b : Int), Spans T a b → 1 ≤ a → b ≤ 99 →
    ((render T).length : Int) + 3 = textBudget b - textBudget (a - 1)
  | .leaf i, a, b, h, h1, h2 => by
    obtain ⟨rfl, rfl⟩ := h
    exact leaf_text_length _ h1 h2
  | .node l r, a, b, ⟨k, hl, hr⟩, h1, h2 => by
    have hak := hl.le
    have hkb := hr.le
    have e1 := render_length l a k hl h1 (by omega)
    have e2 := render_length r (k + 1) b hr (by omega) h2
    rw [show k + 1 - 1 = k by omega] at e2
    have p1 : "(".length = 1 := rfl
    have p2 : " ".length = 1 := rfl
    have p3 : ")".length = 1 := rfl
    unfold render
    simp only [String.length_append, p1, p2, p3, Nat.cast_add, Nat.cast_one]
    omega

theorem textBudget_mono (a b : Int) (h : a ≤ b) (h0 : 0 ≤ a) : textBudget a ≤ textBudget b := by
  unfold textBudget
  split_ifs <;> omega

theorem nodeOf_repr_length (d : Int → Int) : ∀ T : PTree, (nodeOf d T).repr.length ≤ 499
  | .leaf _ => snprintfRepr_length _
  | .node _ _ => snprintfRepr_length _

/-- A text that fits in the buffer is built without truncation. -/
theorem nodeOf_repr (d : Int → Int) : ∀ T : PTree, (render T).length ≤ 499 →
    (nodeOf d T).repr = render T
  | .leaf _, h => snprintfRepr_eq _ h
  | .node l r, h => by
    have p1 : "(".length = 1 := rfl
    have p2 : " ".length = 1 := rfl
    have p3 : ")".length = 1 := rfl
    have h2 := h
    unfold render at h2
    simp only [String.length_append, p1, p2, p3] at h2
    unfold nodeOf combineNodes
    simp only
    rw [nodeOf_repr d l (by omega), nodeOf_repr d r (by omega)]
    exact snprintfRepr_eq _ h

/-- Up to 85 factors every text fits in the 500-byte buffer. -/
theorem nodeOf_repr_of_le_85 (d : Int → Int) (n : Int) (hn : n ≤ 85) (T : PTree)
    (hT : Spans T 1 n) : (nodeOf d T).repr = render T := by
  apply nodeOf_repr
  have h := render_length T 1 n hT le_rfl (by omega)
  have hle := hT.le
  unfold textBudget at h
  split_ifs at h <;> omega

/-- The full text of 86 factors has 504 characters. -/
theorem render_length_86 (T : PTree) (hT : Spans T 1 86) : (render T).length = 504 := by
  have h := render_length T 1 86 hT le_rfl (by decide)
  unfold textBudget at h
  split_ifs at h <;> omega

/-! ## C2 and C3: the reported parenthesization -/

/-- The tracker after a run holds the initial pair or the cost and text of an accepted
fragment. -/
theorem track_foldl_mem (cs : List Node) (b : Int × String) :
    cs.foldl track b = b ∨ ∃ c ∈ cs, cs.foldl track b = (c.cost, c.repr) := by
  rcases track_foldl cs b with ⟨h, _⟩ | ⟨l1, c, l2, e, h, _⟩
  · exact Or.inl h
  · exact Or.inr ⟨c, by rw [e]; simp, h⟩

theorem render_ne_empty : ∀ T : PTree, render T ≠ ""
  | .leaf i => by
    intro h
    have h2 := congrArg String.length h
    have e : render (.leaf i) = "M" ++ Int.repr i := rfl
    have e1 : "M".length = 1 := rfl
    have e0 : "".length = 0 := rfl
    rw [e, String.length_append, e1, e0] at h2
    omega
  | .node l r => by
    intro h
    have h2 := congrArg String.length h
    have p1 : "(".length = 1 := rfl
    have e0 : "".length = 0 := rfl
    unfold render at h2
    simp only [String.length_append, p1, e0] at h2
    omega

theorem parses_two : parses 2 1 [] = [.node (.leaf 1) (.leaf 2)] := by
  simp [parses, acceptSeq]

/-- C2, as stated, fails in two ways.  On the two-factor instance
`d = [859764727, 1532540863, 7]`, whose only cost is exactly `LLONG_MAX`, the tracker
is never updated and the reported text is empty, which is the text of no tree.  On the
86-factor instance with all dimensions 1 the reported text has at most 499 characters,
while every parenthesization of 86 factors has a text of 504 characters. -/
theorem reported_tree_counterexample :
    ((859764727 : Int) * 1532540863 * 7 = LLONG_MAX ∧
      ∃ s1, solveInstance (initState 2 (dOf [859764727, 1532540863, 7])) = .ok s1 ∧
        s1.bestTree = "" ∧ ∀ T : PTree, render T ≠ s1.bestTree) ∧
    (∃ s1, solveInstance (initState 86 (fun _ => 1)) = .ok s1 ∧
      ∀ T : PTree, T.leaves = factors 1 86 → render T ≠ s1.bestTree) := by
  refine ⟨⟨by decide, ?_⟩, ?_⟩
  · obtain ⟨s1, h1, _, hb⟩ := solveInstance_parses (initState 2 (dOf [859764727, 1532540863, 7]))
      (by decide)
    have hn : (initState 2 (dOf [859764727, 1532540863, 7])).n = 2 := rfl
    rw [hn, parses_two] at hb
    have hc : (nodeOf (initState 2 (dOf [859764727, 1532540863, 7])).d
        (.node (.leaf 1) (.leaf 2))).cost = LLONG_MAX := by decide
    simp only [List.map_cons, List.map_nil, List.foldl_cons, List.foldl_nil, track, hc,
      lt_irrefl, if_false] at hb
    injection hb with hb1 hb2
    refine ⟨s1, h1, hb2, fun T => ?_⟩
    rw [hb2]
    exact render_ne_empty T
  · obtain ⟨s1, h1, _, hb⟩ := solveInstance_parses (initState 86 (fun _ => 1)) (by decide)
    refine ⟨s1, h1, fun T hT hr => ?_⟩
    have hlen := render_length_86 T (spans_of_leaves T 1 86 hT)
    have hshort : s1.bestTree.length ≤ 499 := by
      rcases track_foldl_mem ((parses (initState 86 (fun _ => 1)).n 1 []).map
          (nodeOf (initState 86 (fun _ => 1)).d)) (LLONG_MAX, "") with h | ⟨c, hc, h⟩
      · rw [h] at hb
        injection hb with _ hb2
        rw [hb2]
        decide
      · rw [h] at hb
        injection hb with _ hb2
        obtain ⟨T2, _, rfl⟩ := List.mem_map.mp hc
        rw [hb2]
        exact nodeOf_repr_length _ T2
    rw [← hr, hlen] at hshort
    omega

/-- On a valid instance whose optimum is below `LLONG_MAX`, the tracker ends on the first
accepted parenthesization of least cost. -/
theorem solveInstance_first_min (s : State) (hn1 : 1 ≤ s.n) (hn200 : s.n ≤ 200)
    (hd : ∀ k, 0 ≤ k → k ≤ s.n → 1 ≤ s.d k)
    (hfit : ∀ T, Spans T 1 s.n → treeCost s.d T ≤ LLONG_MAX)
    (hmin : mcm s.d 1 s.n < LLONG_MAX) :
    ∃ s1 l1 T l2, solveInstance s = .ok s1 ∧ parses s.n 1 [] = l1 ++ T :: l2 ∧
      s1.acceptLog = s.acceptLog ++ (parses s.n 1 []).map (nodeOf s.d) ∧
      s1.bestCost = (nodeOf s.d T).cost ∧ s1.bestTree = (nodeOf s.d T).repr ∧
      (nodeOf s.d T).cost = mcm s.d 1 s.n ∧
      (∀ X ∈ l1, (nodeOf s.d T).cost < (nodeOf s.d X).cost) ∧
      (∀ X ∈ l2, (nodeOf s.d T).cost ≤ (nodeOf s.d X).cost) := by
  obtain ⟨s1, h1, hl, hb⟩ := solveInstance_parses s hn200
  have hbest := best_eq_mcm s.n s.d hn1 hd hfit
  rcases track_foldl ((parses s.n 1 []).map (nodeOf s.d)) (LLONG_MAX, "") with
    ⟨h, _⟩ | ⟨m1, c, m2, e, h, _, h3, h4⟩
  · rw [h] at hbest
    simp only at hbest
    omega
  · obtain ⟨l1, r, e1, rfl, e2⟩ := List.map_eq_append_iff.mp e
    obtain ⟨T, l2, rfl, rfl, rfl⟩ := List.map_eq_cons_iff.mp e2
    rw [h] at hb hbest
    injection hb with hb1 hb2
    refine ⟨s1, l1, T, l2, h1, e1, hl, hb1, hb2, hbest, ?_, ?_⟩
    · intro X hX
      exact h3 _ (List.mem_map_of_mem _ hX)
    · intro X hX
      exact h4 _ (List.mem_map_of_mem _ hX)

/-- C2, amended: on a valid instance with `1 <= n <= 85` whose least cost is below
`LLONG_MAX`, the text left in `bestTree` is exactly the rendering of a full binary tree
whose leaves, read left to right, are the factors `1, ..., n`, and the multiplication cost
of that tree is the reported `bestCost`. -/
theorem reported_tree_genuine (s : State) (hn1 : 1 ≤ s.n) (hn85 : s.n ≤ 85)
    (hd : ∀ k, 0 ≤ k → k ≤ s.n → 1 ≤ s.d k)
    (hfit : ∀ T : PTree, T.leaves = factors 1 s.n → treeCost s.d T ≤ LLONG_MAX)
    (hmin : mcm s.d 1 s.n < LLONG_MAX) :
    ∃ s1 T, solveInstance s = .ok s1 ∧ T.leaves = factors 1 s.n ∧
      s1.bestTree = render T ∧ treeCost s.d T = s1.bestCost := by
  have hfit2 : ∀ T, Spans T 1 s.n → treeCost s.d T ≤ LLONG_MAX := fun T hT => hfit T hT.leaves
  obtain ⟨s1, l1, T, l2, h1, e, _, hc, hr, _⟩ :=
    solveInstance_first_min s hn1 (by omega) hd hfit2 hmin
  have hT : Spans T 1 s.n := (mem_parses_iff s.n T).mp (by rw [e]; simp)
  refine ⟨s1, T, h1, hT.leaves, ?_, ?_⟩
  · rw [hr, nodeOf_repr_of_le_85 s.d s.n hn85 T hT]
  · rw [hc, nodeOf_cost s.d T 1 s.n hT (fun k h1 h2 => hd k (by omega) h2) (hfit2 T hT)]

/-- The instance `n = 3`, `d = [10, 20, 30, 5]`: the reported text is the rendering of the
right-nested tree, whose cost 4000 is the reported cost. -/
theorem reported_tree_genuine_witness :
    ∃ s1 T, solveInstance (initState 3 (dOf [10, 20, 30, 5])) = .ok s1 ∧
      T.leaves = factors 1 3 ∧ s1.bestTree = render T ∧
      treeCost (dOf [10, 20, 30, 5]) T = s1.bestCost :=
  reported_tree_genuine (initState 3 (dOf [10, 20, 30, 5])) (by decide) (by decide)
    (dOf_cases [10, 20, 30, 5] 3 (fun x => 1 ≤ x) (by decide))
    (fits_of_bound 3 (dOf [10, 20, 30, 5]) 30
      (dOf_cases [10, 20, 30, 5] 3 (fun x => 0 ≤ x ∧ x ≤ 30) (by decide)) (by decide))
    (by simp [initState, mcm, listMin, dOf, List.range, List.range.loop, LLONG_MAX])

/-- C3, as stated, fails: on the two-factor instance `d = [1532540863, 859764727, 7]` all
arithmetic is exact, the only complete parse `(M1 M2)` has the least cost, `LLONG_MAX`,
and yet the reported text is empty, because the tracker starts at `LLONG_MAX` and is
updated only on a strictly smaller cost. -/
theorem tie_break_counterexample :
    (1532540863 : Int) * 859764727 * 7 = LLONG_MAX ∧
    ∃ s1, solveInstance (initState 2 (dOf [1532540863, 859764727, 7])) = .ok s1 ∧
      s1.acceptLog = [⟨1532540863, 7, LLONG_MAX, "(M1 M2)"⟩] ∧
      s1.bestCost = LLONG_MAX ∧ s1.bestTree = "" := by
  refine ⟨by decide, ?_⟩
  obtain ⟨s1, h1, hl, hb⟩ := solveInstance_parses (initState 2 (dOf [1532540863, 859764727, 7]))
    (by decide)
  have hn : (initState 2 (dOf [1532540863, 859764727, 7])).n = 2 := rfl
  rw [hn, parses_two] at hb hl
  have hc : nodeOf (initState 2 (dOf [1532540863, 859764727, 7])).d
      (.node (.leaf 1) (.leaf 2)) = ⟨1532540863, 7, LLONG_MAX, "(M1 M2)"⟩ := by decide
  simp only [List.map_cons, List.map_nil, List.foldl_cons, List.foldl_nil, track, hc,
    lt_irrefl, if_false] at hb hl
  injection hb with hb1 hb2
  exact ⟨s1, h1, hl, hb1, hb2⟩

/-- C3, amended: on a valid instance whose least cost is below `LLONG_MAX`, the sequence
of ACCEPT events of the run (the depth-first order, SHIFT before REDUCE, of `parses`)
splits around one event `c` whose text and cost are the ones reported; the cost of `c`
is the least cost; every earlier event is strictly dearer, and no later event is
cheaper, so a later parse of the same cost does not replace `c`. -/
theorem first_minimum_wins (s : State) (hn1 : 1 ≤ s.n) (hn100 : s.n ≤ 100)
    (hd : ∀ k, 0 ≤ k → k ≤ s.n → 1 ≤ s.d k)
    (hfit : ∀ T : PTree, T.leaves = factors 1 s.n → treeCost s.d T ≤ LLONG_MAX)
    (hmin : mcm s.d 1 s.n < LLONG_MAX) :
    ∃ s1 l1 c l2, solveInstance s = .ok s1 ∧
      s1.acceptLog = s.acceptLog ++ (l1 ++ c :: l2) ∧
      l1 ++ c :: l2 = (parses s.n 1 []).map (nodeOf s.d) ∧
      s1.bestTree = c.repr ∧ s1.bestCost = c.cost ∧ c.cost = mcm s.d 1 s.n ∧
      (∀ x ∈ l1, c.cost < x.cost) ∧ (∀ x ∈ l2, c.cost ≤ x.cost) := by
  obtain ⟨s1, l1, T, l2, h1, e, hl, hc, hr, hm, h3, h4⟩ :=
    solveInstance_first_min s hn1 (by omega) hd (fun T hT => hfit T hT.leaves) hmin
  refine ⟨s1, l1.map (nodeOf s.d), nodeOf s.d T, l2.map (nodeOf s.d), h1, ?_, ?_, hr, hc, hm,
    ?_, ?_⟩
  · rw [hl, e, List.map_append, List.map_cons]
  · rw [e, List.map_append, List.map_cons]
  · intro x hx
    obtain ⟨X, hX, rfl⟩ := List.mem_map.mp hx
    exact h3 X hX
  · intro x hx
    obtain ⟨X, hX, rfl⟩ := List.mem_map.mp hx
    exact h4 X hX

/-- The tie `d = [1, 1, 1, 1]`: both parenthesizations cost 2, and the first one found,
the right-nested one, is reported. -/
theorem first_minimum_wins_witness :
    ∃ s1 l1 c l2, solveInstance (initState 3 (fun _ => 1)) = .ok s1 ∧
      s1.acceptLog = l1 ++ c :: l2 ∧ s1.bestTree = c.repr ∧ s1.bestCost = c.cost ∧
      (∀ x ∈ l1, c.cost < x.cost) ∧ (∀ x ∈ l2, c.cost ≤ x.cost) :=
  let ⟨s1, l1, c, l2, h1, h2, _, h4, h5, _, h7, h8⟩ :=
    first_minimum_wins (initState 3 (fun _ => 1)) (by decide) (by decide)
      (fun _ _ _ => le_rfl)
      (fits_of_bound 3 (fun _ => 1) 1 (fun _ _ _ => ⟨zero_le_one, le_rfl⟩) (by decide))
      (by simp [initState, mcm, listMin, List.range, List.range.loop, LLONG_MAX])
  ⟨s1, l1, c, l2, h1, h2, h4, h5, h7, h8⟩

/-! ## C4: the number of ACCEPT events -/

/-- C4: for every `n >= 1` that the dimension array holds (`n <= 100`) the run from the
empty stack returns, and its ACCEPT events are, in order, the fragments of the trees of a
list `ps` that has exactly `Catalan(n-1) = C(2(n-1), n-1) / n` members, has no
duplicates, and contains exactly the full parenthesizations of the factors `1, ..., n`. -/
theorem accept_count (s : State) (hn1 : 1 ≤ s.n) (hn100 : s.n ≤ 100) :
    ∃ (s1 : State) (ps : List PTree), solveInstance s = .ok s1 ∧
      s1.acceptLog = s.acceptLog ++ ps.map (nodeOf s.d) ∧
      s1.acceptLog.length = s.acceptLog.length + catalan (s.n - 1).toNat ∧
      ps.length = catalan (s.n - 1).toNat ∧
      catalan (s.n - 1).toNat =
        Nat.choose (2 * (s.n - 1).toNat) (s.n - 1).toNat / s.n.toNat ∧
      ps.Nodup ∧ ∀ T : PTree, T ∈ ps ↔ T.leaves = factors 1 s.n := by
  obtain ⟨s1, h1, hl, _⟩ := solveInstance_parses s (show s.n ≤ 200 by omega)
  refine ⟨s1, parses s.n 1 [], h1, hl, ?_, parses_length s.n hn1, ?_, parses_nodup s.n 1 [], ?_⟩
  · rw [hl, List.length_append, List.length_map, parses_length s.n hn1]
  · rw [catalan_eq_centralBinom_div, Nat.centralBinom_eq_two_mul_choose,
      show (s.n - 1).toNat + 1 = s.n.toNat by omega]
  · intro T
    rw [mem_parses_iff, spans_iff_leaves]

/-- Four factors: five ACCEPT events. -/
theorem accept_count_witness :
    ∃ (s1 : State) (ps : List PTree), solveInstance (initState 4 (fun _ => 1)) = .ok s1 ∧
      s1.acceptLog = ps.map (nodeOf (fun _ => 1)) ∧ ps.length = 5 ∧ ps.Nodup :=
  let ⟨s1, ps, h1, h2, _, h4, _, h6, _⟩ :=
    accept_count (initState 4 (fun _ => 1)) (by decide) (by decide)
  ⟨s1, ps, h1, h2, h4.trans (by
    rw [show ((initState 4 (fun _ => 1)).n - 1).toNat = 3 from rfl]
    exact catalan_three), h6⟩

/-! ## C10: no state leaks between instances -/

theorem nodeOf_congr (d d2 : Int → Int) : ∀ (T : PTree) (a b : Int), Spans T a b →
    (∀ k, a - 1 ≤ k → k ≤ b → d k = d2 k) → nodeOf d T = nodeOf d2 T
  | .leaf i, a, b, h, hd => by
    obtain ⟨h1, h2⟩ := h
    unfold nodeOf makeLeaf
    rw [hd (i - 1) (by omega) (by omega), hd i (by omega) (by omega)]
  | .node l r, a, b, ⟨k, hl, hr⟩, hd => by
    have := hl.le
    have := hr.le
    unfold nodeOf
    rw [nodeOf_congr d d2 l a k hl (fun j h1 h2 => hd j h1 (by omega)),
      nodeOf_congr d d2 r (k + 1) b hr (fun j h1 h2 => hd j (by omega) h2)]

/-- C10: the result pair of the per-instance run depends on `n` and `d[0..n]` only: two
start states that agree on them give the same outcome, whatever their stack arrays,
`top`, `bestCost`, `bestTree` and remaining dimensions; in particular a second run,
started from the state the first one left, gives the same result. -/
theorem no_state_leak (s t : State) (hn : s.n = t.n)
    (hd : ∀ k, 0 ≤ k → k ≤ s.n → s.d k = t.d k) :
    result (solveInstance s) = result (solveInstance t) ∧
    (∀ s1, solveInstance s = .ok s1 →
      result (solveInstance s1) = result (solveInstance s)) := by
  have key : ∀ (u v : State), u.n = v.n → (∀ k, 0 ≤ k → k ≤ u.n → u.d k = v.d k) →
      result (solveInstance u) = result (solveInstance v) := by
    intro u v hn hd
    by_cases h200 : u.n ≤ 200
    · obtain ⟨u1, hu, _, hub⟩ := solveInstance_parses u h200
      obtain ⟨v1, hv, _, hvb⟩ := solveInstance_parses v (by omega)
      have hmap : (parses u.n 1 []).map (nodeOf u.d) = (parses v.n 1 []).map (nodeOf v.d) := by
        rw [← hn]
        apply List.map_congr_left
        intro T hT
        exact nodeOf_congr u.d v.d T 1 u.n ((mem_parses_iff u.n T).mp hT)
          (fun k h1 h2 => hd k (by omega) h2)
      rw [hu, hv]
      unfold result
      simp only
      rw [hub, hvb, hmap]
    · rw [solveInstance_overflow u (by omega), solveInstance_overflow v (by omega)]
  refine ⟨key s t hn hd, ?_⟩
  intro s1 h1
  have hs1 := h1
  unfold solveInstance at hs1
  obtain ⟨evs, st⟩ := backtrackFuel_step _ _ _ _ hs1
  exact key s1 s st.n_eq (fun k _ _ => by rw [st.d_eq])

/-- The instance `n = 3`, `d = [10, 20, 30, 5]` gives the same result from a fresh state and
from a state full of leftovers. -/
theorem no_state_leak_witness :
    result (solveInstance (initState 3 (dOf [10, 20, 30, 5]))) = result (solveInstance dirtyState) :=
  (no_state_leak (initState 3 (dOf [10, 20, 30, 5])) dirtyState rfl
    (by
      intro k h0 h3
      have h3b : k ≤ 3 := h3
      have : k = 0 ∨ k = 1 ∨ k = 2 ∨ k = 3 := by omega
      rcases this with rfl | rfl | rfl | rfl <;> decide)).1

/-! ## C20 and C15: degenerate lengths, termination -/

theorem solveInstance_nonpos (s : State) (hn : s.n ≤ 0) :
    solveInstance s = .ok { s with bestCost := LLONG_MAX, bestTree := "", top := 0 } := by
  have e0 : shiftCase (backtrackFuel 0) 1
      { s with bestCost := LLONG_MAX, bestTree := "", top := 0 } =
      .ok { s with bestCost := LLONG_MAX, bestTree := "", top := 0 } := by
    unfold shiftCase; rw [if_neg (by simp only; omega)]; rfl
  have e1 : reduceCase (backtrackFuel 0) 1
      { s with bestCost := LLONG_MAX, bestTree := "", top := 0 } =
      .ok { s with bestCost := LLONG_MAX, bestTree := "", top := 0 } := by
    unfold reduceCase; rw [if_neg (by simp only; omega)]; rfl
  have e2 : acceptCase 1 { s with bestCost := LLONG_MAX, bestTree := "", top := 0 } =
      { s with bestCost := LLONG_MAX, bestTree := "", top := 0 } := by
    unfold acceptCase; rw [if_neg (by simp only; omega)]
  unfold solveInstance backtrack
  have hf : 2 * (s.n + 1 - 1).toNat + (0 : Int).toNat + 1 = 0 + 1 := by omega
  simp only
  rw [hf, backtrackFuel_succ, e0, ok_bind, e1, ok_bind, e2]
  rfl

/-- C20: for `n <= 0` the per-instance run returns the reset state itself: nothing was
shifted, reduced or accepted, the stack array and the log are untouched, and the result
is `LLONG_MAX` with the empty text; no error is raised. -/
theorem degenerate_length (s : State) (hn : s.n ≤ 0) :
    solveInstance s = .ok { s with bestCost := LLONG_MAX, bestTree := "", top := 0 } ∧
    result (solveInstance s) = some (9223372036854775807, "") ∧
    cands s.n s.d 1 [] = [] := by
  have h := solveInstance_nonpos s hn
  refine ⟨h, by rw [h]; rfl, ?_⟩
  rw [cands_eq]
  unfold shiftSeq reduceSeq acceptNow
  rw [if_neg (by omega)]
  simp

/-- The degenerate instance `n = 0`, `d = [5]`. -/
theorem degenerate_length_witness :
    result (solveInstance (initState 0 (dOf [5]))) = some (9223372036854775807, "") :=
  (degenerate_length (initState 0 (dOf [5])) (by decide)).2.1

/-- C15: `backtrack` is a total function that never exhausts its budget, the budget being
the measure `2 * (n + 1 - i) + top` plus one; any larger budget gives the same outcome; it
satisfies the recursive definition of the C function; and the measure strictly
decreases at both recursive calls: SHIFT calls at `(i + 1, top + 1)` with `i <= n`, REDUCE
calls at `(i, top - 1)`. -/
theorem backtrack_terminates (i : Int) (s : State) :
    backtrack i s ≠ .error .fuel ∧
    (∀ fuel, 2 * (s.n + 1 - i).toNat + s.top.toNat < fuel →
      backtrackFuel fuel i s = backtrack i s) ∧
    backtrack i s =
      (shiftCase backtrack i s >>= fun sa =>
        reduceCase backtrack i sa >>= fun sb => pure (acceptCase i sb)) ∧
    (∀ s2, i ≤ s.n → push (makeLeaf s.d i) s = .ok s2 →
      2 * (s2.n + 1 - (i + 1)).toNat + s2.top.toNat < 2 * (s.n + 1 - i).toNat + s.top.toNat) ∧
    (∀ sa pB pA s4, shiftCase backtrack i s = .ok sa → sa.top ≥ 2 → pop sa = .ok pB →
      pop pB.2 = .ok pA → push (combineNodes pA.1 pB.1) pA.2 = .ok s4 →
      2 * (s4.n + 1 - i).toNat + s4.top.toNat < 2 * (s.n + 1 - i).toNat + s.top.toNat) := by
  refine ⟨backtrack_ne_fuel i s, ?_, backtrack_unfold i s, ?_, ?_⟩
  · intro fuel hf
    exact backtrackFuel_irrel _ _ i s hf (by omega)
  · intro s2 hi h2
    obtain ⟨_, t2, _, e2⟩ := push_eq_ok h2
    rw [e2.n_eq, t2]
    omega
  · intro sa pB pA s4 ha ht hB hA h4
    obtain ⟨_, sta⟩ := shiftCase_step (fun i s s1 h => backtrackFuel_step _ i s s1 h) ha
    obtain ⟨_, _, tB, _, eB⟩ := pop_eq_ok hB
    obtain ⟨_, _, tA, _, eA⟩ := pop_eq_ok hA
    obtain ⟨_, t4, _, e4⟩ := push_eq_ok h4
    have := sta.top_eq
    have := sta.n_eq
    rw [e4.n_eq, eA.n_eq, eB.n_eq, t4, tA, tB]
    omega

/-- Termination on the instance `n = 3`, `d = [10, 20, 30, 5]`: the run is not cut short. -/
theorem backtrack_terminates_witness :
    backtrack 1 (initState 3 (dOf [10, 20, 30, 5])) ≠ .error .fuel ∧
    backtrackFuel 100 1 (initState 3 (dOf [10, 20, 30, 5])) =
      backtrack 1 (initState 3 (dOf [10, 20, 30, 5])) :=
  ⟨(backtrack_terminates 1 (initState 3 (dOf [10, 20, 30, 5]))).1,
   (backtrack_terminates 1 (initState 3 (dOf [10, 20, 30, 5]))).2.1 100 (by decide)⟩

/-! ## C12: the declared chain length is not checked -/

theorem scanInt_eq (t : Int) (h0 : -2147483648 ≤ t) (h1 : t < 2147483648) : scanInt t = t := by
  unfold scanInt wrapInt
  rw [min_eq_left (by omega), max_eq_right (by omega)]
  omega

theorem parses_nonpos (n : Int) (h : n ≤ 0) : parses n 1 [] = [] := by
  refine List.eq_nil_iff_forall_not_mem.mpr (fun T hT => ?_)
  unfold parses at hT
  rcases mem_acceptSeq.mp hT with ⟨hi, _⟩ | ⟨B, A, rest, h, _⟩ | ⟨_, h⟩
  · omega
  · cases h
  · cases h

theorem loadInstance_eq (n : Int) (dims : List Int) (s : State) (hn : n ≤ 100) :
    loadInstance n dims s = some { s with
      n := n
      d := fun k =>
        if 0 ≤ k ∧ k < n + 1 then (dims.map scanInt).getD k.toNat (s.d k) else s.d k } := by
  unfold loadInstance
  rw [if_pos hn]

/-- C12, as stated, fails: an instance declared with `n = 0`, or with `n = -3`, is not
rejected: the dimension `d[0]` of the first is stored, for both the search is run, and
the result `LLONG_MAX` with the empty text is reported without any error. -/
theorem length_check_counterexample :
    (∃ s0, loadInstance 0 [5] (initState 7 (fun _ => 1)) = some s0 ∧ s0.n = 0 ∧
      s0.d 0 = 5 ∧
      runInstance 0 [5] (initState 7 (fun _ => 1)) = some (solveInstance s0) ∧
      result (solveInstance s0) = some (LLONG_MAX, "")) ∧
    (∃ s0, loadInstance (-3) [] (initState 7 (fun _ => 1)) = some s0 ∧ s0.n = -3 ∧
      runInstance (-3) [] (initState 7 (fun _ => 1)) = some (solveInstance s0) ∧
      result (solveInstance s0) = some (LLONG_MAX, "")) := by
  refine ⟨⟨_, loadInstance_eq 0 [5] _ (by decide), rfl, by decide, ?_, ?_⟩,
    ⟨_, loadInstance_eq (-3) [] _ (by decide), rfl, ?_, ?_⟩⟩
  · unfold runInstance
    rw [loadInstance_eq 0 [5] _ (by decide)]
    rfl
  · rw [solveInstance_nonpos _ (le_refl (0 : Int))]
    rfl
  · unfold runInstance
    rw [loadInstance_eq (-3) [] _ (by decide)]
    rfl
  · rw [solveInstance_nonpos _ (show (-3 : Int) ≤ 0 by decide)]
    rfl

/-- C12, amended: the solver has no check of the declared chain length.  Whatever
`n <= 100` is read, zero and negative values included, the dimensions `d[0..n]` found in
the input are stored, as the `int` that `fscanf` makes of each token, and the search is
run and returns without error, with one ACCEPT event per parenthesization of the `n`
factors (`Catalan(n-1)` of them for `n >= 1`, none for `n <= 0`); for `n <= 0` the
result is `LLONG_MAX` with the empty text. -/
theorem no_length_check (n : Int) (dims : List Int) (s : State) (hn : n ≤ 100) :
    ∃ s0, loadInstance n dims s = some s0 ∧
      runInstance n dims s = some (solveInstance s0) ∧
      s0.n = n ∧
      (∀ k : Nat, (k : Int) < n + 1 → k < dims.length →
        s0.d k = scanInt (dims.getD k 0) ∧
        (-2147483648 ≤ dims.getD k 0 → dims.getD k 0 < 2147483648 →
          s0.d k = dims.getD k 0)) ∧
      (∀ k : Int, n < k → s0.d k = s.d k) ∧
      (n ≤ 0 → result (solveInstance s0) = some (LLONG_MAX, "")) ∧
      ∃ s1, solveInstance s0 = .ok s1 ∧
        s1.acceptLog.length = s.acceptLog.length + (parses n 1 []).length ∧
        (1 ≤ n → (parses n 1 []).length = catalan (n - 1).toNat) ∧
        (n ≤ 0 → (parses n 1 []).length = 0) := by
  refine ⟨_, loadInstance_eq n dims s hn, ?_, rfl, ?_, ?_, ?_, ?_⟩
  · unfold runInstance
    rw [loadInstance_eq n dims s hn]
    rfl
  · intro k hk hlen
    have hlen2 : k < (dims.map scanInt).length := by rw [List.length_map]; exact hlen
    have e : (if (0 : Int) ≤ (k : Int) ∧ (k : Int) < n + 1 then
        (dims.map scanInt).getD (k : Int).toNat (s.d k) else s.d k) =
        scanInt (dims.getD k 0) := by
      rw [if_pos ⟨by omega, hk⟩, Int.toNat_ofNat, List.getD_eq_getElem _ _ hlen2,
        List.getD_eq_getElem _ _ hlen, List.getElem_map]
    refine ⟨e, fun h0 h1 => ?_⟩
    exact e.trans (scanInt_eq _ h0 h1)
  · intro k hk
    show (if 0 ≤ k ∧ k < n + 1 then (dims.map scanInt).getD k.toNat (s.d k) else s.d k) = _
    rw [if_neg (by omega)]
  · intro hn0
    rw [solveInstance_nonpos _ hn0]
    rfl
  · obtain ⟨s1, h1, hl, _⟩ := solveInstance_parses
      { s with
        n := n
        d := fun k =>
          if 0 ≤ k ∧ k < n + 1 then (dims.map scanInt).getD k.toNat (s.d k) else s.d k }
      (show n ≤ 200 by omega)
    refine ⟨s1, h1, ?_, fun h1n => parses_length n h1n, fun hn0 => ?_⟩
    · rw [hl, List.length_append, List.length_map]
    · rw [parses_nonpos n hn0]
      rfl

/-- The missing check on the declared length `n = -3` with no dimensions, and on `n = 2`
with `d = [10, 20, 30]`. -/
theorem no_length_check_witness :
    ∃ s0, loadInstance 2 [10, 20, 30] (initState 7 (fun _ => 1)) = some s0 ∧
      s0.n = 2 ∧ s0.d 2 = 30 :=
  let ⟨s0, h1, _, h2, h3, _⟩ :=
    no_length_check 2 [10, 20, 30] (initState 7 (fun _ => 1)) (by decide)
  ⟨s0, h1, h2, ((h3 2 (by decide) (by decide)).2 (by decide) (by decide))⟩

theorem take_append_take {α : Type} (n : Nat) (a x z : List α) :
    (a ++ x.take n ++ z).take n = (a ++ x ++ z).take n := by
  by_cases h : x.length ≤ n
  · rw [List.take_of_length_le h]
  · have h1 : n ≤ (a ++ x.take n).length := by
      rw [List.length_append, List.length_take]; omega
    have h2 : n ≤ (a ++ x).length := by
      rw [List.length_append]; omega
    rw [List.take_append_of_le_length h1, List.take_append_of_le_length h2,
      List.take_append_eq_append_take, List.take_append_eq_append_take, List.take_take]
    congr 2
    omega

/-- The text of a fragment is the first 499 characters of the full text of its tree. -/
theorem nodeOf_repr_take (d : Int → Int) : ∀ T : PTree,
    (nodeOf d T).repr.data = (render T).data.take 499
  | .leaf _ => rfl
  | .node l r => by
    have hl := nodeOf_repr_take d l
    have hr := nodeOf_repr_take d r
    show (("(" ++ (nodeOf d l).repr ++ " " ++ (nodeOf d r).repr ++ ")").data).take 499 = _
    unfold render
    simp only [String.data_append, hl, hr]
    rw [take_append_take 499 (['('] ++ List.take 499 (render l).data ++ [' ']) (render r).data
      [')']]
    have e1 : ['('] ++ List.take 499 (render l).data ++ [' '] ++ (render r).data ++ [')'] =
        ['('] ++ List.take 499 (render l).data ++ ([' '] ++ (render r).data ++ [')']) := by
      simp only [List.append_assoc]
    have e2 : ['('] ++ (render l).data ++ [' '] ++ (render r).data ++ [')'] =
        ['('] ++ (render l).data ++ ([' '] ++ (render r).data ++ [')']) := by
      simp only [List.append_assoc]
    rw [e1, e2, take_append_take 499 ['('] (render l).data _]

/-- The full text has the length of its leaf texts plus three characters for each
inner node. -/
theorem render_length_sum : ∀ T : PTree,
    (render T).length + 3 = (T.leaves.map (fun i => ("M" ++ Int.repr i).length + 3)).sum
  | .leaf _ => by simp [render, PTree.leaves]
  | .node l r => by
    have hl := render_length_sum l
    have hr := render_length_sum r
    have p1 : "(".length = 1 := rfl
    have p2 : " ".length = 1 := rfl
    have p3 : ")".length = 1 := rfl
    have e : (render (.node l r)).length = 1 + (render l).length + 1 + (render r).length + 1 := by
      show ("(" ++ render l ++ " " ++ render r ++ ")").length = _
      simp only [String.length_append, p1, p2, p3]
    unfold PTree.leaves
    rw [List.map_append, List.sum_append, ← hl, ← hr, e]
    omega

theorem render_length_100 : ∀ (T : PTree) (a b : Int), Spans T a b → 1 ≤ a → b ≤ 100 →
    ((render T).length : Int) + 3 = textBudget100 b - textBudget100 (a - 1)
  | .leaf i, a, b, h, h1, h2 => by
    obtain ⟨ha, hb⟩ := h
    subst ha hb
    by_cases h99 : b ≤ 99
    · have := leaf_text_length b h1 h99
      unfold textBudget100
      rw [if_pos h99, if_pos (by omega)]
      exact this
    · have e : b = 100 := by omega
      subst e
      decide
  | .node l r, a, b, ⟨k, hl, hr⟩, h1, h2 => by
    have hak := hl.le
    have hkb := hr.le
    have e1 := render_length_100 l a k hl h1 (by omega)
    have e2 := render_length_100 r (k + 1) b hr (by omega) h2
    rw [show k + 1 - 1 = k by omega] at e2
    have p1 : "(".length = 1 := rfl
    have p2 : " ".length = 1 := rfl
    have p3 : ")".length = 1 := rfl
    unfold render
    simp only [String.length_append, p1, p2, p3, Nat.cast_add, Nat.cast_one]
    omega

theorem parenDepth_nil : parenDepth [] = 0 := rfl

theorem parenDepth_append (x y : List Char) :
    parenDepth (x ++ y) = parenDepth x + parenDepth y := by
  unfold parenDepth
  rw [List.count_append, List.count_append]
  push_cast
  ring

theorem parenDepth_open (x : List Char) : parenDepth ('(' :: x) = 1 + parenDepth x := by
  unfold parenDepth
  rw [List.count_cons_self, List.count_cons_of_ne (by decide)]
  push_cast
  ring

theorem parenDepth_space (x : List Char) : parenDepth (' ' :: x) = parenDepth x := by
  unfold parenDepth
  rw [List.count_cons_of_ne (by decide), List.count_cons_of_ne (by decide)]

theorem parenDepth_take_close (m : Nat) :
    parenDepth (List.take m [')']) = if m = 0 then 0 else -1 := by
  cases m with
  | zero => rfl
  | succ m =>
    rw [if_neg (Nat.succ_ne_zero m), List.take_succ_cons, List.take_nil]
    rfl

set_option maxRecDepth 100000 in
theorem repr_no_paren : ∀ k : Nat, k < 101 →
    (Nat.repr k).data.count '(' = 0 ∧ (Nat.repr k).data.count ')' = 0 := by
  decide

/-- No prefix of a leaf text contains a parenthesis. -/
theorem leaf_depth (i : Int) (h1 : 1 ≤ i) (h2 : i ≤ 100) (k : Nat) :
    parenDepth (List.take k (render (.leaf i)).data) = 0 := by
  obtain ⟨m, rfl⟩ := Int.eq_ofNat_of_zero_le (by omega : 0 ≤ i)
  obtain ⟨c1, c2⟩ := repr_no_paren m (by omega)
  have e : (render (.leaf (m : Int))).data = 'M' :: (Nat.repr m).data := rfl
  have z1 : (render (.leaf (m : Int))).data.count '(' = 0 := by
    rw [e, List.count_cons_of_ne (by decide), c1]
  have z2 : (render (.leaf (m : Int))).data.count ')' = 0 := by
    rw [e, List.count_cons_of_ne (by decide), c2]
  have s1 := (List.take_sublist k (render (.leaf (m : Int))).data).count_le '('
  have s2 := (List.take_sublist k (render (.leaf (m : Int))).data).count_le ')'
  unfold parenDepth
  omega

theorem render_node_data (l r : PTree) :
    (render (.node l r)).data = '(' :: ((render l).data ++ ' ' :: ((render r).data ++ [')'])) := by
  show ("(" ++ render l ++ " " ++ render r ++ ")").data = _
  simp only [String.data_append]
  simp

/-- Every prefix of a full text has at least as many opening as closing parentheses, the
full text has as many of each, and a proper non-empty prefix of the text of an inner
node has strictly more opening ones. -/
theorem render_depth : ∀ (T : PTree) (a b : Int), Spans T a b → 1 ≤ a → b ≤ 100 →
    (∀ k : Nat, 0 ≤ parenDepth (List.take k (render T).data)) ∧
    parenDepth (render T).data = 0 ∧
    (a < b → ∀ k : Nat, 0 < k → k < (render T).data.length →
      0 < parenDepth (List.take k (render T).data))
  | .leaf i, a, b, h, h1, h2 => by
    obtain ⟨ha, hb⟩ := h
    subst ha hb
    refine ⟨fun k => le_of_eq (leaf_depth b h1 h2 k).symm, ?_, fun h => absurd h (lt_irrefl _)⟩
    have := leaf_depth b h1 h2 (render (.leaf b)).data.length
    rw [List.take_length] at this
    exact this
  | .node l r, a, b, ⟨m, hl, hr⟩, h1, h2 => by
    have hak := hl.le
    have hkb := hr.le
    obtain ⟨l1, l2, _⟩ := render_depth l a m hl h1 (by omega)
    obtain ⟨r1, r2, _⟩ := render_depth r (m + 1) b hr (by omega) h2
    have key : ∀ j : Nat, parenDepth (List.take (j + 1) (render (.node l r)).data) =
        1 + parenDepth (List.take j (render l).data) +
          (if j - (render l).data.length = 0 then 0 else
            parenDepth (List.take (j - (render l).data.length - 1) (render r).data) +
              (if j - (render l).data.length - 1 - (render r).data.length = 0 then 0 else -1)) := by
      intro j
      rw [render_node_data, List.take_succ_cons, parenDepth_open, List.take_append_eq_append_take,
        parenDepth_append]
      rcases Nat.eq_zero_or_pos (j - (render l).data.length) with h0 | h0
      · rw [h0, if_pos rfl, List.take_zero, parenDepth_nil]
        ring
      · obtain ⟨p, hp⟩ := Nat.exists_eq_succ_of_ne_zero (Nat.pos_iff_ne_zero.mp h0)
        rw [if_neg (Nat.pos_iff_ne_zero.mp h0), hp, List.take_succ_cons, parenDepth_space,
          List.take_append_eq_append_take, parenDepth_append, parenDepth_take_close]
        simp only [Nat.succ_sub_one]
        ring
    have full : parenDepth (render (.node l r)).data = 0 := by
      rw [render_node_data, parenDepth_open, parenDepth_append, parenDepth_space,
        parenDepth_append, l2, r2]
      rfl
    refine ⟨?_, full, ?_⟩
    · intro k
      cases k with
      | zero => exact le_of_eq rfl
      | succ j =>
        rw [key j]
        have hL := l1 j
        split_ifs with c1 c2
        · omega
        · have := r1 (j - (render l).data.length - 1)
          omega
        · have e1 : List.take j (render l).data = (render l).data :=
            List.take_of_length_le (by omega)
          have e2 : List.take (j - (render l).data.length - 1) (render r).data =
              (render r).data := List.take_of_length_le (by omega)
          rw [e1, e2, l2, r2]
          decide
    · intro _ k hk0 hklen
      obtain ⟨j, rfl⟩ := Nat.exists_eq_succ_of_ne_zero (Nat.pos_iff_ne_zero.mp hk0)
      rw [Nat.succ_eq_add_one, key j]
      have hL := l1 j
      have hlen : (render (.node l r)).data.length =
          (render l).data.length + (render r).data.length + 3 := by
        rw [render_node_data]
        simp only [List.length_cons, List.length_append, List.length_nil]
        omega
      rw [hlen] at hklen
      split_ifs with c1 c2
      · omega
      · have := r1 (j - (render l).data.length - 1)
        omega
      · omega

theorem rightNested_spans : ∀ (k : Nat) (a : Int), Spans (rightNested a k) a (a + k)
  | 0, a => ⟨rfl, by simp⟩
  | k + 1, a => by
    refine ⟨a, ⟨rfl, rfl⟩, ?_⟩
    have := rightNested_spans k (a + 1)
    rw [show a + ((k + 1 : Nat) : Int) = a + 1 + k by push_cast; omega]
    exact this

/-- Once every factor is shifted, the only ACCEPT event is the one reached by reducing the
whole stack. -/
theorem acceptSeq_closed (n i : Int) (hi : n < i) : ∀ (rest : List PTree) (B : PTree),
    acceptSeq PTree.leaf PTree.node n i (B :: rest) = [closeStack B rest]
  | [], B => by
    rw [acceptSeq_eq]
    unfold shiftSeq reduceSeq acceptNow
    rw [if_neg (by omega), if_pos hi]
    rfl
  | A :: rest, B => by
    rw [acceptSeq_eq]
    unfold shiftSeq reduceSeq acceptNow
    rw [if_neg (by omega), if_pos hi]
    simp only [List.nil_append, List.append_nil]
    exact acceptSeq_closed n i hi rest (.node A B)

/-- The first ACCEPT event below a state with `k` factors still to shift: shift them all,
then reduce the whole stack. -/
theorem acceptSeq_first (n : Int) : ∀ (k : Nat) (i : Int) (S : List PTree),
    i + k = n + 1 → 0 < k →
    ∃ rest, acceptSeq PTree.leaf PTree.node n i S = closeStack (rightNested i (k - 1)) S :: rest
  | 0, _, _, _, h => absurd h (lt_irrefl 0)
  | 1, i, S, hk, _ => by
    rw [acceptSeq_eq]
    unfold shiftSeq
    rw [if_pos (by omega), acceptSeq_closed n (i + 1) (by omega) S (.leaf i)]
    exact ⟨_, rfl⟩
  | k + 2, i, S, hk, _ => by
    obtain ⟨rest, h⟩ := acceptSeq_first n (k + 1) (i + 1) (.leaf i :: S)
      (by push_cast at hk ⊢; omega) (Nat.succ_pos k)
    rw [acceptSeq_eq]
    unfold shiftSeq
    rw [if_pos (by push_cast at hk; omega), h]
    exact ⟨_, rfl⟩

/-- The first accepted parenthesization is the fully right-nested one. -/
theorem parses_first (n : Int) (hn : 1 ≤ n) :
    ∃ rest, parses n 1 [] = rightNested 1 (n - 1).toNat :: rest := by
  obtain ⟨rest, h⟩ := acceptSeq_first n n.toNat 1 [] (by omega) (by omega)
  refine ⟨rest, ?_⟩
  unfold parses
  rw [h, show n.toNat - 1 = (n - 1).toNat by omega]
  rfl

/-- After the run the tracker is untouched, or it holds the cost, below `LLONG_MAX`, and
the text of the fragment of an accepted parenthesization. -/
theorem solveInstance_tracker (s : State) (hn : s.n ≤ 200) :
    ∃ s1, solveInstance s = .ok s1 ∧
      s1.acceptLog = s.acceptLog ++ (parses s.n 1 []).map (nodeOf s.d) ∧
      ((s1.bestCost = LLONG_MAX ∧ s1.bestTree = "") ∨
       (s1.bestCost < LLONG_MAX ∧ ∃ T, Spans T 1 s.n ∧
         s1.bestCost = (nodeOf s.d T).cost ∧ s1.bestTree = (nodeOf s.d T).repr)) := by
  obtain ⟨s1, h1, hl, hb⟩ := solveInstance_parses s hn
  refine ⟨s1, h1, hl, ?_⟩
  rcases track_foldl ((parses s.n 1 []).map (nodeOf s.d)) (LLONG_MAX, "") with
    ⟨h, _⟩ | ⟨m1, c, m2, e, h, hlt, _⟩
  · rw [h] at hb
    injection hb with hb1 hb2
    exact Or.inl ⟨hb1, hb2⟩
  · rw [h] at hb
    injection hb with hb1 hb2
    have hc : c ∈ (parses s.n 1 []).map (nodeOf s.d) := by rw [e]; simp
    obtain ⟨T, hT, rfl⟩ := List.mem_map.mp hc
    exact Or.inr ⟨by rw [hb1]; exact hlt, T, (mem_parses_iff s.n T).mp hT, hb1, hb2⟩

theorem sum_map_add_three (f : Int → Nat) : ∀ l : List Int,
    (l.map (fun i => f i + 3)).sum = (l.map f).sum + 3 * l.length
  | [] => rfl
  | x :: l => by
    simp only [List.map_cons, List.sum_cons, List.length_cons, sum_map_add_three f l]
    omega

/-- The text of a fragment that needs at least 500 characters: exactly 499 characters,
with more opening than closing parentheses. -/
theorem nodeOf_repr_cut (d : Int → Int) (T : PTree) (n : Int) (hT : Spans T 1 n)
    (h86 : 86 ≤ n) (h100 : n ≤ 100) :
    504 ≤ (render T).length ∧ (nodeOf d T).repr.length = 499 ∧
    (nodeOf d T).repr.data = (render T).data.take 499 ∧
    0 < parenDepth (nodeOf d T).repr.data := by
  have hlen := render_length_100 T 1 n hT le_rfl h100
  have h504 : 504 ≤ (render T).length := by
    unfold textBudget100 textBudget at hlen
    split_ifs at hlen <;> omega
  have hdata := nodeOf_repr_take d T
  have hl : (render T).data.length = (render T).length := rfl
  refine ⟨h504, ?_, hdata, ?_⟩
  · show (nodeOf d T).repr.data.length = 499
    rw [hdata, List.length_take]
    omega
  · rw [hdata]
    exact (render_depth T 1 n hT le_rfl h100).2.2 (by omega) 499 (by decide) (by omega)

theorem nodeOf_repr_sub_85 (d : Int → Int) (n : Int) (hn : n ≤ 85) (T : PTree) (a b : Int)
    (ha : 1 ≤ a) (hb : b ≤ n) (hT : Spans T a b) : (nodeOf d T).repr = render T := by
  apply nodeOf_repr
  have h := render_length T a b hT ha (by omega)
  have hle := hT.le
  have hm := textBudget_mono 0 (a - 1) (by omega) le_rfl
  unfold textBudget at h hm
  split_ifs at h hm <;> omega

/-- C17, as stated, fails: on the two-factor instance `d = [1532540863, 7, 859764727]`
(`n = 2`, below 85) the only complete parse has the complete text `(M1 M2)` in its
fragment, at the exact cost `LLONG_MAX`; no parse is recorded and the reported text is
empty, not the complete text. -/
theorem text_limit_counterexample :
    (1532540863 : Int) * 7 * 859764727 = LLONG_MAX ∧
    ∃ s1, solveInstance (initState 2 (dOf [1532540863, 7, 859764727])) = .ok s1 ∧
      s1.acceptLog.map (fun c => (c.cost, c.repr)) = [(LLONG_MAX, "(M1 M2)")] ∧
      s1.bestCost = LLONG_MAX ∧ s1.bestTree = "" ∧
      ∀ T : PTree, T.leaves = factors 1 2 → render T = "(M1 M2)" ∧ render T ≠ s1.bestTree := by
  refine ⟨by decide, ?_⟩
  obtain ⟨s1, h1, hl, hb⟩ :=
    solveInstance_parses (initState 2 (dOf [1532540863, 7, 859764727])) (by decide)
  have hn : (initState 2 (dOf [1532540863, 7, 859764727])).n = 2 := rfl
  rw [hn, parses_two] at hb hl
  have hc : (nodeOf (initState 2 (dOf [1532540863, 7, 859764727])).d
      (.node (.leaf 1) (.leaf 2))).cost = LLONG_MAX := by decide
  simp only [List.map_cons, List.map_nil, List.foldl_cons, List.foldl_nil, track, hc,
    lt_irrefl, if_false] at hb
  injection hb with hb1 hb2
  refine ⟨s1, h1, ?_, hb1, hb2, fun T hT => ?_⟩
  · rw [hl]
    decide
  · have hT2 : T ∈ parses 2 1 [] := (mem_parses_iff 2 T).mpr (spans_of_leaves T 1 2 hT)
    rw [parses_two, List.mem_singleton] at hT2
    subst hT2
    rw [hb2]
    exact ⟨by decide, by decide⟩

/-- C17, amended: the full text of a parenthesization of the factors `1..n` has the
length of the leaf texts `M1`, ..., `Mn` plus `3 * (n - 1)`.  For `1 <= n <= 85` that is
at most 498: no fragment over any run of factors is ever cut, and whenever a parse was
recorded (`bestCost` below `LLONG_MAX`) the reported text is the complete text of a
parenthesization.  For `86 <= n <= 100` it is at least 504: the text of every complete
parse is cut to its first 499 characters, exactly, and has more opening than closing
parentheses, and so has the reported text whenever a parse was recorded. -/
theorem text_buffer_limit (s : State) :
    (∀ T : PTree, T.leaves = factors 1 s.n →
      (render T).length =
        ((factors 1 s.n).map (fun i => ("M" ++ Int.repr i).length)).sum
          + 3 * (s.n.toNat - 1)) ∧
    (1 ≤ s.n → s.n ≤ 85 →
      (∀ T : PTree, T.leaves = factors 1 s.n → (render T).length ≤ 498) ∧
      (∀ (a b : Int) (T : PTree), 1 ≤ a → b ≤ s.n → T.leaves = factors a b →
        (nodeOf s.d T).repr = render T) ∧
      ∃ s1, solveInstance s = .ok s1 ∧
        (s1.bestCost < LLONG_MAX →
          ∃ T : PTree, T.leaves = factors 1 s.n ∧ s1.bestTree = render T)) ∧
    (86 ≤ s.n → s.n ≤ 100 →
      (∀ T : PTree, T.leaves = factors 1 s.n →
        504 ≤ (render T).length ∧ (nodeOf s.d T).repr.length = 499 ∧
        (nodeOf s.d T).repr.data = (render T).data.take 499 ∧
        0 < parenDepth (nodeOf s.d T).repr.data) ∧
      ∃ s1, solveInstance s = .ok s1 ∧
        (∀ c ∈ s1.acceptLog.drop s.acceptLog.length,
          c.repr.length = 499 ∧ 0 < parenDepth c.repr.data) ∧
        (s1.bestCost < LLONG_MAX →
          s1.bestTree.length = 499 ∧ 0 < parenDepth s1.bestTree.data)) := by
  refine ⟨?_, ?_, ?_⟩
  · intro T hT
    have h := render_length_sum T
    rw [hT, sum_map_add_three, factors_length] at h
    have hne : 0 < (factors 1 s.n).length := by
      rw [← hT]; exact List.length_pos.mpr (leaves_ne_nil T)
    rw [factors_length] at hne
    have e : (s.n + 1 - 1).toNat = s.n.toNat := by congr 1; omega
    rw [e] at h hne
    omega
  · intro h1 h85
    refine ⟨?_, ?_, ?_⟩
    · intro T hT
      have h := render_length T 1 s.n (spans_of_leaves T 1 s.n hT) le_rfl (by omega)
      unfold textBudget at h
      split_ifs at h <;> omega
    · intro a b T ha hb hT
      exact nodeOf_repr_sub_85 s.d s.n h85 T a b ha hb (spans_of_leaves T a b hT)
    · obtain ⟨s1, hs1, _, htr⟩ := solveInstance_tracker s (by omega)
      refine ⟨s1, hs1, fun hlt => ?_⟩
      rcases htr with ⟨h, _⟩ | ⟨_, T, hT, _, hr⟩
      · omega
      · exact ⟨T, hT.leaves, by rw [hr, nodeOf_repr_of_le_85 s.d s.n h85 T hT]⟩
  · intro h86 h100
    refine ⟨?_, ?_⟩
    · intro T hT
      exact nodeOf_repr_cut s.d T s.n (spans_of_leaves T 1 s.n hT) h86 h100
    · obtain ⟨s1, hs1, hl, htr⟩ := solveInstance_tracker s (by omega)
      refine ⟨s1, hs1, ?_, fun hlt => ?_⟩
      · intro c hc
        rw [hl, List.drop_left] at hc
        obtain ⟨T, hT, rfl⟩ := List.mem_map.mp hc
        have := nodeOf_repr_cut s.d T s.n ((mem_parses_iff s.n T).mp hT) h86 h100
        exact ⟨this.2.1, this.2.2.2⟩
      · rcases htr with ⟨h, _⟩ | ⟨_, T, hT, _, hr⟩
        · omega
        · have := nodeOf_repr_cut s.d T s.n hT h86 h100
          rw [hr]
          exact ⟨this.2.1, this.2.2.2⟩

/-- The limit at 86 factors: the right-nested fragment has a text of exactly 499
characters. -/
theorem text_buffer_limit_witness :
    (nodeOf (fun _ => 1) (rightNested 1 85)).repr.length = 499 :=
  ((text_buffer_limit (initState 86 (fun _ => 1))).2.2 (by decide) (by decide)).1
    (rightNested 1 85) (rightNested_spans 85 1).leaves |>.2.1

theorem mcm_le_bound (n : Int) (d : Int → Int) (D : Int) (hn : 1 ≤ n)
    (hd : ∀ k, 0 ≤ k → k ≤ n → 0 ≤ d k ∧ d k ≤ D) : mcm d 1 n ≤ (n - 1) * (D * D * D) := by
  obtain ⟨T, hT, hc⟩ := mcm_attained d _ 1 n le_rfl hn
  rw [← hc]
  exact treeCost_le d D T 1 n hT (fun k h1 h2 => hd k (by omega) h2)

/-- On an instance with dimensions in `[1, D]` and `(n - 1) * D^3` below `LLONG_MAX` a parse
is recorded: the tracker ends below `LLONG_MAX`, on the fragment of a parenthesization of
least cost. -/
theorem solveInstance_bounded (s : State) (D : Int) (hn1 : 1 ≤ s.n) (hn200 : s.n ≤ 200)
    (hd : ∀ k, 0 ≤ k → k ≤ s.n → 1 ≤ s.d k ∧ s.d k ≤ D)
    (hD : (s.n - 1) * (D * D * D) < LLONG_MAX) :
    ∃ s1 T, solveInstance s = .ok s1 ∧ Spans T 1 s.n ∧ s1.bestCost < LLONG_MAX ∧
      s1.bestCost = treeCost s.d T ∧ treeCost s.d T = mcm s.d 1 s.n ∧
      s1.bestTree = (nodeOf s.d T).repr := by
  have hd0 : ∀ k, 0 ≤ k → k ≤ s.n → 0 ≤ s.d k ∧ s.d k ≤ D :=
    fun k h0 h1 => ⟨le_trans zero_le_one (hd k h0 h1).1, (hd k h0 h1).2⟩
  have hfit : ∀ T, Spans T 1 s.n → treeCost s.d T ≤ LLONG_MAX := fun T hT =>
    le_trans (treeCost_le s.d D T 1 s.n hT (fun k h1 h2 => hd0 k (by omega) h2)) (le_of_lt hD)
  have hmin : mcm s.d 1 s.n < LLONG_MAX := lt_of_le_of_lt (mcm_le_bound s.n s.d D hn1 hd0) hD
  obtain ⟨s1, l1, T, l2, h1, e, _, hc, hr, hm, _⟩ :=
    solveInstance_first_min s hn1 hn200 (fun k h0 h1 => (hd k h0 h1).1) hfit hmin
  have hT : Spans T 1 s.n := (mem_parses_iff s.n T).mp (by rw [e]; simp)
  have hcost := nodeOf_cost s.d T 1 s.n hT (fun k h1 h2 => (hd k (by omega) h2).1) (hfit T hT)
  exact ⟨s1, T, h1, hT, by rw [hc, hm]; exact hmin, by rw [hc, hcost], by rw [← hcost, hm], hr⟩

/-- C11, as stated, fails: on the 86-factor instance with all dimensions 2 every complete
parse needs a text of 504 characters, more than the buffer holds, and yet the run
returns without error, with a recorded cost and a result text of 499 characters. -/
theorem repr_overflow_counterexample :
    (∀ T : PTree, T.leaves = factors 1 86 → (render T).length = 504) ∧
    ∃ s1, solveInstance (initState 86 (fun _ => 2)) = .ok s1 ∧ s1.bestCost < LLONG_MAX ∧
      s1.bestTree.length = 499 := by
  refine ⟨fun T hT => render_length_86 T (spans_of_leaves T 1 86 hT), ?_⟩
  obtain ⟨s1, T, h1, hT, hlt, _, _, hr⟩ := solveInstance_bounded (initState 86 (fun _ => 2)) 2
    (by decide) (by decide) (fun _ _ _ => ⟨one_le_two, le_rfl⟩) (by decide)
  refine ⟨s1, h1, hlt, ?_⟩
  rw [hr]
  exact (nodeOf_repr_cut _ T 86 hT (by decide) (by decide)).2.1

/-- C11, amended: a text that does not fit is not fatal.  `combineNodes` always returns a
fragment; when the combined text needs more than 499 characters, the fragment carries
its first 499 characters.  With `86 <= n <= 100`, where no complete text fits, the run
returns without error, and a recorded result carries a text of 499 characters that is the
cut text of a parenthesization. -/
theorem repr_overflow_truncates :
    (∀ A B : Node, 499 < A.repr.length + B.repr.length + 3 →
      (combineNodes A B).repr.length = 499 ∧
      (combineNodes A B).repr.data =
        ("(" ++ A.repr ++ " " ++ B.repr ++ ")").data.take 499) ∧
    (∀ s : State, 86 ≤ s.n → s.n ≤ 100 →
      ∃ s1, solveInstance s = .ok s1 ∧
        (s1.bestCost < LLONG_MAX → ∃ T : PTree, T.leaves = factors 1 s.n ∧
          499 < (render T).length ∧ s1.bestTree.data = (render T).data.take 499)) := by
  refine ⟨?_, ?_⟩
  · intro A B h
    refine ⟨?_, rfl⟩
    show (("(" ++ A.repr ++ " " ++ B.repr ++ ")").data.take 499).length = 499
    have p1 : "(".length = 1 := rfl
    have p2 : " ".length = 1 := rfl
    have p3 : ")".length = 1 := rfl
    have hl : ("(" ++ A.repr ++ " " ++ B.repr ++ ")").data.length =
        ("(" ++ A.repr ++ " " ++ B.repr ++ ")").length := rfl
    rw [List.length_take, hl]
    simp only [String.length_append, p1, p2, p3]
    omega
  · intro s h86 h100
    obtain ⟨s1, hs1, _, htr⟩ := solveInstance_tracker s (by omega)
    refine ⟨s1, hs1, fun hlt => ?_⟩
    rcases htr with ⟨h, _⟩ | ⟨_, T, hT, _, hr⟩
    · omega
    · have := nodeOf_repr_cut s.d T s.n hT h86 h100
      exact ⟨T, hT.leaves, by omega, by rw [hr]; exact this.2.2.1⟩

/-- Two fragments with texts of 250 characters: the combined text has 499 characters. -/
theorem repr_overflow_truncates_witness :
    (combineNodes longNode longNode).repr.length = 499 :=
  (repr_overflow_truncates.1 longNode longNode (by
    have h3 : longNode.repr.length = 250 := List.length_replicate 250 'x'
    rw [h3]; decide)).1

/-- With all dimensions equal to `c`, every parenthesization of `a..b` costs
`(b - a) * c^3`. -/
theorem treeCost_uniform (d : Int → Int) (c : Int) : ∀ (T : PTree) (a b : Int), Spans T a b →
    (∀ k, a - 1 ≤ k → k ≤ b → d k = c) → treeCost d T = (b - a) * (c * c * c)
  | .leaf _, a, b, h, _ => by
    obtain ⟨ha, hb⟩ := h
    subst ha hb
    simp [treeCost]
  | .node l r, a, b, ⟨k, hl, hr⟩, hd => by
    have hak := hl.le
    have hkb := hr.le
    have h1 := treeCost_uniform d c l a k hl (fun j h1 h2 => hd j h1 (by omega))
    have h2 := treeCost_uniform d c r (k + 1) b hr (fun j h1 h2 => hd j (by omega) h2)
    unfold treeCost
    rw [hl.lo_eq, hl.hi_eq, hr.hi_eq, h1, h2, hd (a - 1) le_rfl (by omega),
      hd k (by omega) (by omega), hd b (by omega) le_rfl]
    ring

/-- C18, as stated, fails: on the two-factor instance `d = [7, 1532540863, 859764727]`
all arithmetic is exact and the right-nested parse `(M1 M2)`, the only one, attains the
least cost, `LLONG_MAX`; it is the first ACCEPT event, and yet it is not the one
reported: the reported text is empty. -/
theorem right_nested_counterexample :
    (7 : Int) * 1532540863 * 859764727 = LLONG_MAX ∧
    render (rightNested 1 1) = "(M1 M2)" ∧
    treeCost (dOf [7, 1532540863, 859764727]) (rightNested 1 1) = LLONG_MAX ∧
    mcm (dOf [7, 1532540863, 859764727]) 1 2 = LLONG_MAX ∧
    ∃ s1, solveInstance (initState 2 (dOf [7, 1532540863, 859764727])) = .ok s1 ∧
      s1.acceptLog = [nodeOf (dOf [7, 1532540863, 859764727]) (rightNested 1 1)] ∧
      s1.bestTree = "" := by
  refine ⟨by decide, by decide, by decide, ?_, ?_⟩
  · simp [mcm, listMin, dOf, List.range, List.range.loop, LLONG_MAX]
  · obtain ⟨s1, h1, hl, hb⟩ :=
      solveInstance_parses (initState 2 (dOf [7, 1532540863, 859764727])) (by decide)
    have hn : (initState 2 (dOf [7, 1532540863, 859764727])).n = 2 := rfl
    rw [hn, parses_two] at hb hl
    have hc : (nodeOf (initState 2 (dOf [7, 1532540863, 859764727])).d
        (.node (.leaf 1) (.leaf 2))).cost = LLONG_MAX := by decide
    simp only [List.map_cons, List.map_nil, List.foldl_cons, List.foldl_nil, track, hc,
      lt_irrefl, if_false] at hb
    injection hb with hb1 hb2
    exact ⟨s1, h1, hl, hb2⟩

/-- C18, amended: on a valid instance with `2 <= n <= 85` the first ACCEPT event sees the
fragment of the fully right-nested parenthesization, with its complete text; whenever
that parenthesization attains the least cost and the least cost is below `LLONG_MAX`,
it is the one reported; so when all the dimensions equal the same `c >= 1` and
`(n - 1) * c^3` is below `LLONG_MAX`, the result is `bestCost = (n - 1) * c^3` with the
fully right-nested text. -/
theorem first_parse_right_nested (s : State) (hn2 : 2 ≤ s.n) (hn85 : s.n ≤ 85)
    (hd : ∀ k, 0 ≤ k → k ≤ s.n → 1 ≤ s.d k)
    (hfit : ∀ T : PTree, T.leaves = factors 1 s.n → treeCost s.d T ≤ LLONG_MAX) :
    ∃ s1 rest, solveInstance s = .ok s1 ∧
      s1.acceptLog = s.acceptLog ++ nodeOf s.d (rightNested 1 (s.n - 1).toNat) :: rest ∧
      (rightNested 1 (s.n - 1).toNat).leaves = factors 1 s.n ∧
      (nodeOf s.d (rightNested 1 (s.n - 1).toNat)).repr =
        render (rightNested 1 (s.n - 1).toNat) ∧
      (treeCost s.d (rightNested 1 (s.n - 1).toNat) = mcm s.d 1 s.n →
        mcm s.d 1 s.n < LLONG_MAX →
        s1.bestTree = render (rightNested 1 (s.n - 1).toNat) ∧
        s1.bestCost = treeCost s.d (rightNested 1 (s.n - 1).toNat)) ∧
      (∀ c : Int, (∀ k, 0 ≤ k → k ≤ s.n → s.d k = c) → (s.n - 1) * (c * c * c) < LLONG_MAX →
        s1.bestCost = (s.n - 1) * (c * c * c) ∧
        s1.bestTree = render (rightNested 1 (s.n - 1).toNat)) := by
  have hfit2 : ∀ T, Spans T 1 s.n → treeCost s.d T ≤ LLONG_MAX := fun T hT => hfit T hT.leaves
  have hrn : Spans (rightNested 1 (s.n - 1).toNat) 1 s.n := by
    have := rightNested_spans (s.n - 1).toNat 1
    rw [show (1 : Int) + ((s.n - 1).toNat : Int) = s.n by omega] at this
    exact this
  obtain ⟨rest, hp⟩ := parses_first s.n (by omega)
  have hrepr := nodeOf_repr_of_le_85 s.d s.n hn85 _ hrn
  have hcost := nodeOf_cost s.d _ 1 s.n hrn (fun k h1 h2 => hd k (by omega) h2) (hfit2 _ hrn)
  obtain ⟨s1, hs1, hl, _⟩ := solveInstance_parses s (by omega)
  have key : treeCost s.d (rightNested 1 (s.n - 1).toNat) = mcm s.d 1 s.n →
      mcm s.d 1 s.n < LLONG_MAX →
      s1.bestTree = render (rightNested 1 (s.n - 1).toNat) ∧
      s1.bestCost = treeCost s.d (rightNested 1 (s.n - 1).toNat) := by
    intro hopt hmin
    obtain ⟨s2, l1, T, l2, h2, e, _, hc, hr, hm, h3, _⟩ :=
      solveInstance_first_min s (by omega) (by omega) hd hfit2 hmin
    have hs : s2 = s1 := by
      have := h2.symm.trans hs1
      injection this
    subst hs
    rw [hp] at e
    rcases l1 with _ | ⟨X, l1⟩
    · simp only [List.nil_append] at e
      injection e with e1 _
      subst e1
      exact ⟨by rw [hr, hrepr], by rw [hc, hcost]⟩
    · simp only [List.cons_append] at e
      injection e with e1 _
      subst e1
      have := h3 _ (List.mem_cons_self _ _)
      rw [hm, hcost, hopt] at this
      exact absurd this (lt_irrefl _)
  refine ⟨s1, rest.map (nodeOf s.d), hs1, by rw [hl, hp]; rfl, hrn.leaves, hrepr, key, ?_⟩
  intro c hc hlt
  have hu := treeCost_uniform s.d c _ 1 s.n hrn (fun k h1 h2 => hc k (by omega) h2)
  obtain ⟨T0, hT0, c0⟩ := mcm_attained s.d _ 1 s.n le_rfl (by omega : 1 ≤ s.n)
  have hu0 := treeCost_uniform s.d c T0 1 s.n hT0 (fun k h1 h2 => hc k (by omega) h2)
  have hopt : treeCost s.d (rightNested 1 (s.n - 1).toNat) = mcm s.d 1 s.n := by
    rw [hu, ← c0, hu0]
  obtain ⟨k1, k2⟩ := key hopt (by rw [← hopt, hu]; exact hlt)
  exact ⟨by rw [k2, hu], k1⟩

/-- Three factors with all dimensions 2: the result is `2 * 2^3 = 16` with the text
`(M1 (M2 M3))`. -/
theorem first_parse_right_nested_witness :
    ∃ s1, solveInstance (initState 3 (fun _ => 2)) = .ok s1 ∧ s1.bestCost = 16 ∧
      s1.bestTree = "(M1 (M2 M3))" :=
  let ⟨s1, _, h1, _, _, _, _, h6⟩ := first_parse_right_nested (initState 3 (fun _ => 2))
    (by decide) (by decide) (fun _ _ _ => one_le_two)
    (fits_of_bound 3 (fun _ => 2) 2 (fun _ _ _ => ⟨zero_le_two, le_rfl⟩) (by decide))
  ⟨s1, h1, (h6 2 (fun _ _ _ => rfl) (by decide)).1.trans (by decide),
    (h6 2 (fun _ _ _ => rfl) (by decide)).2.trans (by decide)⟩

theorem solveInstance_eq (s : State) : solveInstance s = backtrack 1 (resetState s) := rfl

theorem backtrack_step (i : Int) (s s1 : State) (h : backtrack i s = .ok s1) :
    ∃ evs, Step s s1 evs :=
  backtrackFuel_step _ i s s1 h

theorem chain_length : ∀ (S : List PTree) (a i : Int), Chain S a i →
    a ≤ i ∧ (S.length : Int) ≤ i - a ∧ (a < i → 0 < S.length)
  | [], a, i, h => by
    have h2 : i = a := h
    subst h2
    exact ⟨le_rfl, by simp, fun h => absurd h (lt_irrefl _)⟩
  | T :: S, a, i, ⟨m, hT, hS⟩ => by
    obtain ⟨h1, h2, _⟩ := chain_length S a m hS
    have := hT.le
    refine ⟨by omega, ?_, fun _ => Nat.succ_pos _⟩
    simp only [List.length_cons, Nat.cast_add, Nat.cast_one]
    omega

theorem chain_mem : ∀ (S : List PTree) (a i : Int), Chain S a i → ∀ T ∈ S,
    ∃ l r, a ≤ l ∧ r ≤ i - 1 ∧ Spans T l r
  | [], _, _, _, _, h => absurd h (List.not_mem_nil _)
  | X :: S, a, i, ⟨m, hX, hS⟩, T, h => by
    rcases List.mem_cons.mp h with rfl | h
    · exact ⟨m, i - 1, (chain_length S a m hS).1, le_rfl, hX⟩
    · obtain ⟨l, r, h1, h2, h3⟩ := chain_mem S a m hS T h
      have := hX.le
      exact ⟨l, r, h1, by omega, h3⟩

/-- The stack at every visited state: the fragments of a chain of trees that partitions
the shifted factors `1..i-1` into consecutive runs. -/
theorem visit_invariant (s0 : State) (h0 : s0.top = 0) : ∀ (i : Int) (s : State),
    Visit s0 i s →
    ∃ S : List PTree, Chain S 1 i ∧ stackIs (S.map (nodeOf s0.d)) s.top s.stack ∧
      s.n = s0.n ∧ s.d = s0.d ∧ (i = 1 ∨ i ≤ s0.n + 1) := by
  intro i s hv
  induction hv with
  | start => exact ⟨[], rfl, h0, rfl, rfl, Or.inl rfl⟩
  | @shift i s s2 _ hi hp ih =>
    obtain ⟨S, hc, hs, hn, hd, _⟩ := ih
    obtain ⟨_, t2, k2, e2⟩ := push_eq_ok hp
    refine ⟨.leaf i :: S, ⟨i, ⟨rfl, by omega⟩, hc⟩, ?_, by rw [e2.n_eq, hn],
      by rw [e2.d_eq, hd], Or.inr (by omega)⟩
    rw [t2, k2, List.map_cons, hd]
    exact stackIs_push _ _ _ (makeLeaf s0.d i) hs
  | @reduce i s sa s4 pB pA _ ha ht hB hA h4 ih =>
    obtain ⟨S, hc, hs, hn, hd, hi⟩ := ih
    obtain ⟨_, sta⟩ := shiftCase_step backtrack_step ha
    have hsa := sta.stackIs hs
    have hlen := stackIs_top _ _ _ hsa
    obtain ⟨_, vB, tB, kB, eB⟩ := pop_eq_ok hB
    obtain ⟨_, vA, tA, kA, eA⟩ := pop_eq_ok hA
    obtain ⟨_, t4, k4, e4⟩ := push_eq_ok h4
    rcases S with _ | ⟨B, _ | ⟨A, rest⟩⟩
    · simp at hlen; omega
    · simp at hlen; omega
    · obtain ⟨hB2, hA2, hrest⟩ := hsa
      obtain ⟨m, hBs, m2, hAs, hcr⟩ := hc
      refine ⟨.node A B :: rest, ⟨m2, ⟨m - 1, hAs, by rw [show m - 1 + 1 = m by omega]; exact hBs⟩,
        hcr⟩, ?_, by rw [e4.n_eq, eA.n_eq, eB.n_eq, sta.n_eq, hn],
        by rw [e4.d_eq, eA.d_eq, eB.d_eq, sta.d_eq, hd], hi⟩
      rw [t4, k4, kA, kB, tA, tB, vA, vB, kB, tB, hB2, hA2, List.map_cons]
      exact stackIs_push _ _ _ _ hrest

/-- Read from the bottom of the stack upwards, the leaves of a chain are the factors it
partitions. -/
theorem chain_leaves : ∀ (S : List PTree) (a i : Int), Chain S a i →
    (S.reverse.map PTree.leaves).flatten = factors a (i - 1)
  | [], a, i, h => by
    have h2 : i = a := h
    subst h2
    unfold factors
    rw [show (i - 1 + 1 - i).toNat = 0 by omega]
    rfl
  | T :: S, a, i, ⟨m, hT, hS⟩ => by
    have ih := chain_leaves S a m hS
    have h1 := (chain_length S a m hS).1
    have h2 := hT.le
    rw [List.reverse_cons, List.map_append, List.flatten_append, ih, List.map_singleton,
      List.flatten_singleton, hT.leaves]
    have := factors_append a (m - 1) (i - 1) (by omega) (by omega)
    rw [show m - 1 + 1 = m by omega] at this
    exact this

theorem treeCost_extend_left (d : Int → Int) (b : Int) : ∀ (k : Nat) (a : Int) (T : PTree),
    Spans T a b → 1 ≤ a - k → (∀ j, 0 ≤ j → j ≤ b → 0 ≤ d j) →
    ∃ F, Spans F (a - k) b ∧ treeCost d T ≤ treeCost d F
  | 0, a, T, hT, _, _ => ⟨T, by simpa using hT, le_rfl⟩
  | k + 1, a, T, hT, ha, hd => by
    obtain ⟨F, hF, hc⟩ := treeCost_extend_left d b k a T hT (by push_cast at ha; omega) hd
    have hle := hF.le
    refine ⟨.node (.leaf (a - k - 1)) F, ⟨a - k - 1, ⟨by push_cast; omega, rfl⟩,
      by rw [show a - k - 1 + 1 = a - k by omega]; exact hF⟩, ?_⟩
    have p := mul_nonneg (mul_nonneg (hd (a - k - 1 - 1) (by push_cast at ha; omega) (by omega))
      (hd (a - k - 1) (by push_cast at ha; omega) (by omega))) (hd b (by push_cast at ha; omega) le_rfl)
    have e : treeCost d (.node (.leaf (a - k - 1)) F) =
        0 + treeCost d F + d (a - k - 1 - 1) * d (a - k - 1) * d F.hi := rfl
    rw [e, hF.hi_eq]
    omega

theorem treeCost_extend_right (d : Int → Int) (a : Int) : ∀ (k : Nat) (b : Int) (T : PTree),
    Spans T a b → 1 ≤ a → (∀ j, 0 ≤ j → j ≤ b + k → 0 ≤ d j) →
    ∃ F, Spans F a (b + k) ∧ treeCost d T ≤ treeCost d F
  | 0, b, T, hT, _, _ => ⟨T, by simpa using hT, le_rfl⟩
  | k + 1, b, T, hT, ha, hd => by
    obtain ⟨F, hF, hc⟩ := treeCost_extend_right d a k b T hT ha
      (fun j h0 h1 => hd j h0 (by push_cast; omega))
    have hle := hF.le
    refine ⟨.node F (.leaf (b + k + 1)), ⟨b + k, hF, ⟨rfl, by push_cast; omega⟩⟩, ?_⟩
    have p := mul_nonneg (mul_nonneg (hd (a - 1) (by omega) (by push_cast; omega))
      (hd (b + k) (by omega) (by push_cast; omega))) (hd (b + k + 1) (by omega) (by push_cast; omega))
    have e : treeCost d (.node F (.leaf (b + k + 1))) =
        treeCost d F + 0 + d (F.lo - 1) * d F.hi * d (b + k + 1) := rfl
    rw [e, hF.lo_eq, hF.hi_eq]
    omega

/-- Every parenthesization of a run of factors is part of a parenthesization of the whole
chain that costs at least as much. -/
theorem treeCost_extend (d : Int → Int) (n : Int) (T : PTree) (a b : Int) (hT : Spans T a b)
    (ha : 1 ≤ a) (hb : b ≤ n) (hd : ∀ j, 0 ≤ j → j ≤ n → 0 ≤ d j) :
    ∃ F, Spans F 1 n ∧ treeCost d T ≤ treeCost d F := by
  obtain ⟨F1, hF1, c1⟩ := treeCost_extend_left d b (a - 1).toNat a T hT (by omega)
    (fun j h0 h1 => hd j h0 (by omega))
  rw [show a - ((a - 1).toNat : Int) = 1 by omega] at hF1
  obtain ⟨F2, hF2, c2⟩ := treeCost_extend_right d 1 (n - b).toNat b F1 hF1 le_rfl
    (fun j h0 h1 => hd j h0 (by omega))
  rw [show b + ((n - b).toNat : Int) = n by omega] at hF2
  exact ⟨F2, hF2, le_trans c1 c2⟩

/-- On a valid instance the cost field of every fragment over a run of factors is exact. -/
theorem nodeOf_cost_sub (d : Int → Int) (n : Int) (hd : ∀ k, 0 ≤ k → k ≤ n → 1 ≤ d k)
    (hfit : ∀ T, Spans T 1 n → treeCost d T ≤ LLONG_MAX) (T : PTree) (a b : Int)
    (hT : Spans T a b) (ha : 1 ≤ a) (hb : b ≤ n) : (nodeOf d T).cost = treeCost d T := by
  obtain ⟨F, hF, hc⟩ := treeCost_extend d n T a b hT ha hb
    (fun j h0 h1 => le_trans zero_le_one (hd j h0 h1))
  exact nodeOf_cost d T a b hT (fun k h1 h2 => hd k (by omega) (by omega))
    (le_trans hc (hfit F hF))

/-- At a visited state of a run with `n <= 200` the call of `backtrack` returns: none of
its pushes and pops fails. -/
theorem visit_returns (s0 : State) (h0 : s0.top = 0) (hn : s0.n ≤ 200) (i : Int) (s : State)
    (hv : Visit s0 i s) : ∃ s1, backtrack i s = .ok s1 := by
  obtain ⟨S, hc, hs, hn2, _, hi⟩ := visit_invariant s0 h0 i s hv
  obtain ⟨h1, h2, _⟩ := chain_length S 1 i hc
  have htop := stackIs_top _ _ _ hs
  rw [List.length_map] at htop
  obtain ⟨s1, hs1, _⟩ := backtrackFuel_run (2 * (s.n + 1 - i).toNat + s.top.toNat + 1) i s
    (S.map (nodeOf s0.d)) hs (by rw [List.length_map]; omega)
    (by rw [List.length_map]; omega)
  exact ⟨s1, hs1⟩

/-- C14: for `1 <= n <= 100` and any dimensions the per-instance run returns, so no push
met a full stack and no pop an empty one; at every state `(i, t)` at which `backtrack`
is called, `1 <= i <= n + 1`, the stack size `top` is at most `i - 1 <= n`, below the
capacity 200, and at least 1 whenever `i > 1`, and the call at that state returns. -/
theorem no_stack_error (s : State) (hn1 : 1 ≤ s.n) (hn100 : s.n ≤ 100) :
    (∃ s1, solveInstance s = .ok s1) ∧
    ∀ (i : Int) (t : State), Visit (resetState s) i t →
      1 ≤ i ∧ i ≤ s.n + 1 ∧ 0 ≤ t.top ∧ t.top ≤ i - 1 ∧ i - 1 ≤ s.n ∧
      (1 < i → 1 ≤ t.top) ∧ t.top < 200 ∧ ∃ t1, backtrack i t = .ok t1 := by
  refine ⟨?_, ?_⟩
  · obtain ⟨s1, h1, _⟩ := solveInstance_ok s (by omega)
    exact ⟨s1, h1⟩
  · intro i t hv
    obtain ⟨S, hc, hs, _, _, hi⟩ := visit_invariant (resetState s) rfl i t hv
    obtain ⟨h1, h2, h3⟩ := chain_length S 1 i hc
    have htop := stackIs_top _ _ _ hs
    rw [List.length_map] at htop
    have hn : (resetState s).n = s.n := rfl
    rw [hn] at hi
    refine ⟨h1, by omega, by omega, by omega, by omega, fun h => ?_, by omega,
      visit_returns (resetState s) rfl (by rw [hn]; omega) i t hv⟩
    have := h3 h
    omega

/-- The state after the first SHIFT of the instance `n = 3`, `d = [10, 20, 30, 5]` is
visited at position 2 with one fragment on the stack, and the call there returns. -/
theorem no_stack_error_witness :
    ∃ t, Visit (resetState (initState 3 (dOf [10, 20, 30, 5]))) 2 t ∧ t.top = 1 ∧
      ∃ t1, backtrack 2 t = .ok t1 :=
  ⟨_, Visit.shift Visit.start (by decide) (push_ok _ _ (by decide)), rfl,
   ((no_stack_error (initState 3 (dOf [10, 20, 30, 5])) (by decide) (by decide)).2 2 _
      (Visit.shift Visit.start (by decide) (push_ok _ _ (by decide)))).2.2.2.2.2.2.2⟩

/-- C16: on a valid instance, at every state `(i, t)` at which `backtrack` is called the
stack holds the fragments of a list `S` of trees (topmost first) that partitions the
shifted factors `1..i-1` into consecutive runs, bottom to top; the fragment of a tree
over `l..r` has `rows = d[l-1]` and `cols = d[r]`; so the two topmost fragments `A`, `B`
that a REDUCE combines satisfy `A.cols = B.rows`; and the cost of a fragment is 0 at a
leaf and, at an inner node, the sum of the costs of its two parts plus
`rows(A) * cols(A) * cols(B)`. -/
theorem stack_partition (s : State) (hn1 : 1 ≤ s.n) (hn100 : s.n ≤ 100)
    (hd : ∀ k, 0 ≤ k → k ≤ s.n → 1 ≤ s.d k)
    (hfit : ∀ T : PTree, T.leaves = factors 1 s.n → treeCost s.d T ≤ LLONG_MAX)
    (i : Int) (t : State) (hv : Visit (resetState s) i t) :
    ∃ S : List PTree,
      stackIs (S.map (nodeOf s.d)) t.top t.stack ∧
      Chain S 1 i ∧
      (S.reverse.map PTree.leaves).flatten = factors 1 (i - 1) ∧
      (∀ T ∈ S, ∃ l r, 1 ≤ l ∧ l ≤ r ∧ r ≤ i - 1 ∧ T.leaves = factors l r ∧
        (nodeOf s.d T).rows = s.d (l - 1) ∧ (nodeOf s.d T).cols = s.d r) ∧
      (∀ B A rest, S = B :: A :: rest →
        (nodeOf s.d A).cols = (nodeOf s.d B).rows ∧
        (combineNodes (nodeOf s.d A) (nodeOf s.d B)).cost =
          (nodeOf s.d A).cost + (nodeOf s.d B).cost +
            (nodeOf s.d A).rows * (nodeOf s.d A).cols * (nodeOf s.d B).cols) ∧
      (∀ T ∈ S, (∀ j, T = .leaf j → (nodeOf s.d T).cost = 0) ∧
        (∀ A B, T = .node A B →
          (nodeOf s.d T).cost = (nodeOf s.d A).cost + (nodeOf s.d B).cost +
            (nodeOf s.d A).rows * (nodeOf s.d A).cols * (nodeOf s.d B).cols)) := by
  have hfit2 : ∀ T, Spans T 1 s.n → treeCost s.d T ≤ LLONG_MAX := fun T hT => hfit T hT.leaves
  obtain ⟨S, hc, hs, _, _, hi⟩ := visit_invariant (resetState s) rfl i t hv
  have hn : (resetState s).n = s.n := rfl
  rw [hn] at hi
  have hin : i - 1 ≤ s.n := by omega
  have hnode : ∀ (A B : PTree) (l r : Int), Spans (.node A B) l r → 1 ≤ l → r ≤ s.n →
      (nodeOf s.d (.node A B)).cost = (nodeOf s.d A).cost + (nodeOf s.d B).cost +
        (nodeOf s.d A).rows * (nodeOf s.d A).cols * (nodeOf s.d B).cols := by
    intro A B l r hT hl hr
    obtain ⟨m, hA, hB⟩ := hT
    have := hA.le
    have := hB.le
    rw [nodeOf_cost_sub s.d s.n hd hfit2 (.node A B) l r ⟨m, hA, hB⟩ hl hr,
      nodeOf_cost_sub s.d s.n hd hfit2 A l m hA hl (by omega),
      nodeOf_cost_sub s.d s.n hd hfit2 B (m + 1) r hB (by omega) hr,
      nodeOf_rows, nodeOf_cols, nodeOf_cols]
    rfl
  refine ⟨S, hs, hc, chain_leaves S 1 i hc, ?_, ?_, ?_⟩
  · intro T hT
    obtain ⟨l, r, h1, h2, h3⟩ := chain_mem S 1 i hc T hT
    exact ⟨l, r, h1, h3.le, h2, h3.leaves, by rw [nodeOf_rows, h3.lo_eq],
      by rw [nodeOf_cols, h3.hi_eq]⟩
  · intro B A rest hS
    subst hS
    obtain ⟨m, hB, m2, hA, hrest⟩ := hc
    have h1 := (chain_length rest 1 m2 hrest).1
    have := hA.le
    have := hB.le
    refine ⟨by rw [nodeOf_cols, nodeOf_rows, hA.hi_eq, hB.lo_eq], ?_⟩
    have hAB : Spans (.node A B) m2 (i - 1) :=
      ⟨m - 1, hA, by rw [show m - 1 + 1 = m by omega]; exact hB⟩
    exact hnode A B m2 (i - 1) hAB h1 hin
  · intro T hT
    obtain ⟨l, r, h1, h2, h3⟩ := chain_mem S 1 i hc T hT
    refine ⟨fun j hj => by rw [hj]; rfl, fun A B hAB => ?_⟩
    subst hAB
    exact hnode A B l r h3 h1 (by omega)

/-- The invariant at the state after the first SHIFT of the instance `n = 3`,
`d = [10, 20, 30, 5]`: the stack holds fragments partitioning the factors `1..1`. -/
theorem stack_partition_witness :
    ∃ (t : State) (S : List PTree),
      Visit (resetState (initState 3 (dOf [10, 20, 30, 5]))) 2 t ∧
      stackIs (S.map (nodeOf (dOf [10, 20, 30, 5]))) t.top t.stack ∧
      (S.reverse.map PTree.leaves).flatten = factors 1 (2 - 1) :=
  let ⟨S, h1, _, h3, _⟩ := stack_partition (initState 3 (dOf [10, 20, 30, 5])) (by decide)
    (by decide) (dOf_cases [10, 20, 30, 5] 3 (fun x => 1 ≤ x) (by decide))
    (fits_of_bound 3 (dOf [10, 20, 30, 5]) 30
      (dOf_cases [10, 20, 30, 5] 3 (fun x => 0 ≤ x ∧ x ≤ 30) (by decide)) (by decide))
    2 _ (Visit.shift Visit.start (by decide) (push_ok _ _ (by decide)))
  ⟨_, S, Visit.shift Visit.start (by decide) (push_ok _ _ (by decide)), h1, h3⟩

/-! ## C19: cost bounds and 64-bit arithmetic -/

theorem leaves_length_of_spans {T : PTree} {l r : Int} (h : Spans T l r) :
    ((T.leaves.length : Nat) : Int) - 1 = r - l := by
  have := h.le
  rw [h.leaves, factors_length]
  omega

/-- C19, as stated, fails: on the two-factor instance `d = [2^21, 2^21, 2^21]` every
dimension lies in `[1, 2^21]`, the exact cost of the only parse is `2^63`, and the 64-bit
cost field of its fragment holds `-2^63`, which is negative; it is recorded as the best
cost. -/
theorem cost_bound_counterexample :
    (∀ k, 0 ≤ k → k ≤ 2 → 1 ≤ dOf [2097152, 2097152, 2097152] k ∧
      dOf [2097152, 2097152, 2097152] k ≤ 2097152) ∧
    treeCost (dOf [2097152, 2097152, 2097152]) (.node (.leaf 1) (.leaf 2)) = 2 ^ 63 ∧
    (nodeOf (dOf [2097152, 2097152, 2097152]) (.node (.leaf 1) (.leaf 2))).cost = -2 ^ 63 ∧
    ∃ s1, solveInstance (initState 2 (dOf [2097152, 2097152, 2097152])) = .ok s1 ∧
      s1.acceptLog =
        [nodeOf (dOf [2097152, 2097152, 2097152]) (.node (.leaf 1) (.leaf 2))] ∧
      s1.bestCost = -9223372036854775808 := by
  refine ⟨dOf_cases [2097152, 2097152, 2097152] 2 (fun x => 1 ≤ x ∧ x ≤ 2097152) (by decide),
    by decide, by decide, ?_⟩
  obtain ⟨s1, h1, hl, hb⟩ :=
    solveInstance_parses (initState 2 (dOf [2097152, 2097152, 2097152])) (by decide)
  have hn : (initState 2 (dOf [2097152, 2097152, 2097152])).n = 2 := rfl
  rw [hn, parses_two] at hb hl
  have hc : (nodeOf (initState 2 (dOf [2097152, 2097152, 2097152])).d
      (.node (.leaf 1) (.leaf 2))).cost = -9223372036854775808 := by decide
  have hlt : (-9223372036854775808 : Int) < LLONG_MAX := by decide
  simp only [List.map_cons, List.map_nil, List.foldl_cons, List.foldl_nil, track, hc,
    hlt, if_true] at hb
  injection hb with hb1 hb2
  exact ⟨s1, h1, hl, hb1⟩

/-- C19, amended: with every dimension in `[1, D]`, a parenthesization of `k` factors
costs between 0 and `(k - 1) * D^3`; on a run whose arithmetic is exact (no full
parenthesization costs more than `LLONG_MAX`), every fragment on the stack at every state
at which `backtrack` is called has its cost field within these bounds; for `n <= 100` and
`D <= 2^18` the arithmetic is exact: at every combination of two adjacent fragments the
two products and the two sums of `combineNodes` are below `2^63` and the cost field is
the exact value, and the cost of every complete parse is strictly below `LLONG_MAX`. -/
theorem cost_bound (s : State) (D : Int) (hn1 : 1 ≤ s.n)
    (hd : ∀ k, 0 ≤ k → k ≤ s.n → 1 ≤ s.d k ∧ s.d k ≤ D) :
    (∀ (T : PTree) (l r : Int), 1 ≤ l → r ≤ s.n → T.leaves = factors l r →
      0 ≤ treeCost s.d T ∧ treeCost s.d T ≤ ((T.leaves.length : Int) - 1) * (D * D * D)) ∧
    ((∀ T : PTree, T.leaves = factors 1 s.n → treeCost s.d T ≤ LLONG_MAX) →
      ∀ (i : Int) (t : State), Visit (resetState s) i t →
        ∃ S : List PTree, stackIs (S.map (nodeOf s.d)) t.top t.stack ∧ Chain S 1 i ∧
          ∀ T ∈ S, 0 ≤ (nodeOf s.d T).cost ∧
            (nodeOf s.d T).cost ≤ ((T.leaves.length : Int) - 1) * (D * D * D)) ∧
    (s.n ≤ 100 → D ≤ 2 ^ 18 →
      (∀ T : PTree, T.leaves = factors 1 s.n → treeCost s.d T < LLONG_MAX) ∧
      (∀ (A B : PTree) (l m r : Int), 1 ≤ l → r ≤ s.n →
        A.leaves = factors l m → B.leaves = factors (m + 1) r →
        (nodeOf s.d A).rows * (nodeOf s.d A).cols < 2 ^ 63 ∧
        (nodeOf s.d A).rows * (nodeOf s.d A).cols * (nodeOf s.d B).cols < 2 ^ 63 ∧
        (nodeOf s.d A).cost + (nodeOf s.d B).cost < 2 ^ 63 ∧
        (nodeOf s.d A).cost + (nodeOf s.d B).cost +
          (nodeOf s.d A).rows * (nodeOf s.d A).cols * (nodeOf s.d B).cols < 2 ^ 63 ∧
        (combineNodes (nodeOf s.d A) (nodeOf s.d B)).cost =
          (nodeOf s.d A).cost + (nodeOf s.d B).cost +
            (nodeOf s.d A).rows * (nodeOf s.d A).cols * (nodeOf s.d B).cols) ∧
      ∃ s1, solveInstance s = .ok s1 ∧
        ∀ c ∈ s1.acceptLog.drop s.acceptLog.length, 0 ≤ c.cost ∧ c.cost < LLONG_MAX) := by
  have hd0 : ∀ k, 0 ≤ k → k ≤ s.n → 0 ≤ s.d k ∧ s.d k ≤ D :=
    fun k h0 h1 => ⟨le_trans zero_le_one (hd k h0 h1).1, (hd k h0 h1).2⟩
  have hd1 : ∀ k, 0 ≤ k → k ≤ s.n → 1 ≤ s.d k := fun k h0 h1 => (hd k h0 h1).1
  have hmath : ∀ (T : PTree) (l r : Int), 1 ≤ l → r ≤ s.n → Spans T l r →
      0 ≤ treeCost s.d T ∧ treeCost s.d T ≤ ((T.leaves.length : Int) - 1) * (D * D * D) := by
    intro T l r hl hr hT
    rw [leaves_length_of_spans hT]
    exact ⟨treeCost_nonneg s.d T l r hT (fun k h1 h2 => (hd0 k (by omega) (by omega)).1),
      treeCost_le s.d D T l r hT (fun k h1 h2 => hd0 k (by omega) (by omega))⟩
  refine ⟨fun T l r hl hr hT => hmath T l r hl hr (spans_of_leaves T l r hT), ?_, ?_⟩
  · intro hfit i t hv
    have hfit2 : ∀ T, Spans T 1 s.n → treeCost s.d T ≤ LLONG_MAX :=
      fun T hT => hfit T hT.leaves
    obtain ⟨S, hc, hs, _, _, hi⟩ := visit_invariant (resetState s) rfl i t hv
    have hn : (resetState s).n = s.n := rfl
    rw [hn] at hi
    refine ⟨S, hs, hc, fun T hT => ?_⟩
    obtain ⟨l, r, h1, h2, h3⟩ := chain_mem S 1 i hc T hT
    rw [nodeOf_cost_sub s.d s.n hd1 hfit2 T l r h3 h1 (by omega)]
    exact hmath T l r h1 (by omega) h3
  · intro hn100 hD
    have hD1 : 1 ≤ D := le_trans (hd 0 le_rfl (by omega)).1 (hd 0 le_rfl (by omega)).2
    have hD2 : D * D ≤ 2 ^ 18 * 2 ^ 18 := mul_le_mul hD hD (by omega) (by norm_num)
    have hD3 : D * D * D ≤ 2 ^ 18 * 2 ^ 18 * 2 ^ 18 :=
      mul_le_mul hD2 hD (by omega) (by norm_num)
    have hD3n : 0 ≤ D * D * D := mul_nonneg (mul_nonneg (by omega) (by omega)) (by omega)
    norm_num at hD3
    have hbound : ∀ (T : PTree) (l r : Int), 1 ≤ l → r ≤ s.n → Spans T l r →
        0 ≤ treeCost s.d T ∧ treeCost s.d T ≤ 99 * 18014398509481984 := by
      intro T l r hl hr hT
      obtain ⟨b0, b1⟩ := hmath T l r hl hr hT
      rw [leaves_length_of_spans hT] at b1
      have := hT.le
      have h99 : (r - l) * (D * D * D) ≤ 99 * (D * D * D) :=
        mul_le_mul_of_nonneg_right (by omega) hD3n
      exact ⟨b0, by omega⟩
    have hfit2 : ∀ T, Spans T 1 s.n → treeCost s.d T ≤ LLONG_MAX := by
      intro T hT
      have := (hbound T 1 s.n le_rfl le_rfl hT).2
      unfold LLONG_MAX
      omega
    refine ⟨?_, ?_, ?_⟩
    · intro T hT
      have := (hbound T 1 s.n le_rfl le_rfl (spans_of_leaves T 1 s.n hT)).2
      unfold LLONG_MAX
      omega
    · intro A B l m r hl hr hA hB
      have hA := spans_of_leaves A l m hA
      have hB := spans_of_leaves B (m + 1) r hB
      have := hA.le
      have := hB.le
      have hAB : Spans (.node A B) l r := ⟨m, hA, hB⟩
      have cA := nodeOf_cost_sub s.d s.n hd1 hfit2 A l m hA hl (by omega)
      have cB := nodeOf_cost_sub s.d s.n hd1 hfit2 B (m + 1) r hB (by omega) hr
      have cAB := nodeOf_cost_sub s.d s.n hd1 hfit2 (.node A B) l r hAB hl hr
      have bA := hbound A l m hl (by omega) hA
      have bB := hbound B (m + 1) r (by omega) hr hB
      have bAB := hbound (.node A B) l r hl hr hAB
      have e : treeCost s.d (.node A B) =
          treeCost s.d A + treeCost s.d B + s.d (A.lo - 1) * s.d A.hi * s.d B.hi := rfl
      rw [e, hA.lo_eq, hA.hi_eq, hB.hi_eq] at bAB cAB
      have p1 := hd1 (l - 1) (by omega) (by omega)
      have p2 := hd1 m (by omega) (by omega)
      have p3 := hd1 r (by omega) (by omega)
      have q1 : 0 ≤ s.d (l - 1) * s.d m := mul_nonneg (by omega) (by omega)
      have q2 : s.d (l - 1) * s.d m ≤ s.d (l - 1) * s.d m * s.d r :=
        le_mul_of_one_le_right q1 p3
      rw [nodeOf_rows, nodeOf_cols, nodeOf_cols, hA.lo_eq, hA.hi_eq, hB.hi_eq, cA, cB]
      have hc : (combineNodes (nodeOf s.d A) (nodeOf s.d B)).cost =
          (nodeOf s.d (.node A B)).cost := rfl
      rw [hc, cAB]
      refine ⟨by omega, by omega, by omega, by omega, rfl⟩
    · obtain ⟨s1, hs1, hl, _⟩ := solveInstance_parses s (by omega)
      refine ⟨s1, hs1, fun c hc => ?_⟩
      rw [hl, List.drop_left] at hc
      obtain ⟨T, hT, rfl⟩ := List.mem_map.mp hc
      have hTs := (mem_parses_iff s.n T).mp hT
      rw [nodeOf_cost_sub s.d s.n hd1 hfit2 T 1 s.n hTs le_rfl le_rfl]
      have := hbound T 1 s.n le_rfl le_rfl hTs
      unfold LLONG_MAX
      omega

/-- The bound on the instance `n = 3`, `d = [10, 20, 30, 5]` with `D = 30`: every complete parse
costs less than `LLONG_MAX`. -/
theorem cost_bound_witness :
    ∃ s1, solveInstance (initState 3 (dOf [10, 20, 30, 5])) = .ok s1 ∧
      ∀ c ∈ s1.acceptLog, 0 ≤ c.cost ∧ c.cost < LLONG_MAX :=
  ((cost_bound (initState 3 (dOf [10, 20, 30, 5])) 30 (by decide)
    (dOf_cases [10, 20, 30, 5] 3 (fun x => 1 ≤ x ∧ x ≤ 30) (by decide))).2.2
      (by decide) (by decide)).2.2

/-! ## C13: the instance count of the generator -/

theorem wrapInt_add (t m : Int) : wrapInt (wrapInt t + m) = wrapInt (t + m) := by
  unfold wrapInt
  omega

theorem wrapInt_eq (x : Int) (h0 : -2147483648 ≤ x) (h1 : x < 2147483648) : wrapInt x = x := by
  unfold wrapInt
  omega

theorem countLoop_eq (maxN m : Int) (hmax : maxN < 2147483647) (fuel : Nat) (n t : Int)
    (hn0 : -2147483648 ≤ n) (h : (maxN + 1 - n).toNat = fuel) (hle : n ≤ maxN + 1) :
    countLoop maxN m fuel n (wrapInt t) = .ok (wrapInt (t + m * fuel)) := by
  induction fuel generalizing n t with
  | zero =>
    have hn : ¬ n ≤ maxN := by omega
    simp [countLoop, hn]
  | succ k ih =>
    have hn : n ≤ maxN := by omega
    rw [countLoop, if_pos hn, wrapInt_add, wrapInt_eq (n + 1) (by omega) (by omega),
      ih (n + 1) (t + m) (by omega) (by omega) (by omega)]
    congr 2
    push_cast
    ring

theorem totalInstances_eq (minN maxN m : Int) (hmin : -2147483648 ≤ minN)
    (hmax : maxN < 2147483647) (hle : minN ≤ maxN + 1) :
    totalInstances minN maxN m = .ok (wrapInt (m * ((maxN + 1 - minN).toNat : Int))) := by
  unfold totalInstances
  have h := countLoop_eq maxN m hmax (maxN + 1 - minN).toNat minN 0 hmin rfl hle
  have h0 : wrapInt 0 = 0 := by decide
  rw [h0, zero_add] at h
  exact h

theorem genDims_ok (rnd : Nat → Int) (maxDim : Int) (hmd : maxDim ≠ 0) (cnt p : Nat) :
    ∃ l, genDims rnd maxDim cnt p = .ok (l, p + cnt) ∧ l.length = cnt := by
  induction cnt generalizing p with
  | zero => exact ⟨[], rfl, rfl⟩
  | succ k ih =>
    obtain ⟨l, h1, h2⟩ := ih (p + 1)
    refine ⟨wrapInt (1 + (rnd p).tmod maxDim) :: l, ?_, by simp [h2]⟩
    rw [genDims, if_neg hmd, h1]
    simp only [Except.ok.injEq, Prod.mk.injEq, true_and]
    omega

theorem genInstances_ok (rnd : Nat → Int) (n maxDim : Int) (hmd : maxDim ≠ 0) (cnt p : Nat) :
    ∃ recs q, genInstances rnd n maxDim cnt p = .ok (recs, q) ∧
      recs.map Prod.fst = List.replicate cnt n ∧
      ∀ r ∈ recs, r.2.length = (wrapInt (r.1 + 1)).toNat := by
  induction cnt generalizing p with
  | zero => exact ⟨[], p, rfl, rfl, by simp⟩
  | succ k ih =>
    obtain ⟨l, h1, h2⟩ := genDims_ok rnd maxDim hmd (wrapInt (n + 1)).toNat p
    obtain ⟨recs, q, h3, h4, h5⟩ := ih (p + (wrapInt (n + 1)).toNat)
    refine ⟨(n, l) :: recs, q, ?_, ?_, ?_⟩
    · rw [genInstances, h1]
      simp only [h3]
    · simp [h4, List.replicate_succ]
    · intro r hr
      rcases List.mem_cons.mp hr with rfl | hr
      · exact h2
      · exact h5 r hr

theorem genLoop_ok (rnd : Nat → Int) (maxN m maxDim : Int) (hmd : maxDim ≠ 0)
    (hmax : maxN < 2147483647) (fuel : Nat) (n : Int) (p : Nat)
    (hn0 : -2147483648 ≤ n) (h : (maxN + 1 - n).toNat = fuel) (hle : n ≤ maxN + 1) :
    ∃ recs, genLoop rnd maxN m maxDim fuel n p = .ok recs ∧
      recs.map Prod.fst =
        ((List.range fuel).map (fun (t : Nat) => List.replicate m.toNat (n + (t : Int)))).flatten ∧
      ∀ r ∈ recs, r.2.length = (wrapInt (r.1 + 1)).toNat := by
  induction fuel generalizing n p with
  | zero =>
    have hn : ¬ n ≤ maxN := by omega
    exact ⟨[], by simp [genLoop, hn], rfl, by simp⟩
  | succ k ih =>
    have hn : n ≤ maxN := by omega
    obtain ⟨recs, q, h1, h2, h3⟩ := genInstances_ok rnd n maxDim hmd m.toNat p
    obtain ⟨rest, h4, h5, h6⟩ := ih (n + 1) q (by omega) (by omega) (by omega)
    refine ⟨recs ++ rest, ?_, ?_, ?_⟩
    · rw [genLoop, if_pos hn, h1]
      simp only [wrapInt_eq (n + 1) (by omega) (by omega), h4]
    · rw [List.map_append, h2, h5, List.range_succ_eq_map, List.map_cons, List.flatten_cons,
        List.map_map]
      congr 2
      · simp
      · congr 1
        funext t
        simp only [Function.comp, Nat.succ_eq_add_one]
        congr 1
        push_cast
        ring
    · intro r hr
      rcases List.mem_append.mp hr with hr | hr
      · exact h3 r hr
      · exact h6 r hr

theorem flatten_replicate_length (f : Nat → Int) (c k : Nat) :
    (((List.range k).map (fun (t : Nat) => List.replicate c (f t))).flatten).length = c * k := by
  induction k with
  | zero => simp
  | succ j ih =>
    rw [List.range_succ, List.map_append, List.flatten_append, List.length_append, ih]
    simp
    ring

/-- C13, as stated, fails.  With `minN = 5`, `maxN = 3`, `m = 2` the first line is `0`,
whereas `m * (maxN - minN + 1) = -2`.  With `minN = 2`, `maxN = 3`, `m = -1` the first
line is `-2` and no record follows.  With `maxDim = 0` the first dimension drawn divides
by zero. -/
theorem generator_count_counterexample :
    (∀ rnd : Nat → Int, generate rnd 5 3 2 10 = .ok ⟨0, []⟩) ∧
    (2 : Int) * (3 - 5 + 1) = -2 ∧
    (∀ rnd : Nat → Int, generate rnd 2 3 (-1) 10 = .ok ⟨-2, []⟩) ∧
    (-1 : Int) * (3 - 2 + 1) = -2 ∧
    (∀ rnd : Nat → Int, generate rnd 2 3 2 0 = .error .divByZero) :=
  ⟨fun _ => rfl, by decide, fun _ => rfl, by decide, fun _ => rfl⟩

/-- C13, amended: for arguments in the range of `int` with `m >= 0`, `minN <= maxN + 1`,
`maxN` below `INT_MAX` and `maxDim` other than 0 the generator returns; its first line is
`m * (maxN - minN + 1)` wrapped to 32 bits, which is `T = m * (maxN - minN + 1)` itself
when that fits an `int`; the number of records that follow is `m * (maxN - minN + 1)`:
`m` records for each `n` from `minN` to `maxN` in turn, each with its `n` and a line of
`n + 1` dimensions (none for `n = -1` and below). -/
theorem generator_count (rnd : Nat → Int) (minN maxN m maxDim : Int)
    (hmin : -2147483648 ≤ minN) (hmax : maxN < 2147483647)
    (hm : 0 ≤ m) (hr : minN ≤ maxN + 1) (hmd : maxDim ≠ 0) :
    ∃ out, generate rnd minN maxN m maxDim = .ok out ∧
      out.total = wrapInt (m * (maxN - minN + 1)) ∧
      (m * (maxN - minN + 1) < 2147483648 → out.total = m * (maxN - minN + 1)) ∧
      (out.records.length : Int) = m * (maxN - minN + 1) ∧
      out.records.map Prod.fst =
        ((List.range (maxN + 1 - minN).toNat).map
          (fun (t : Nat) => List.replicate m.toNat (minN + (t : Int)))).flatten ∧
      (∀ r ∈ out.records, minN ≤ r.1 ∧ r.1 ≤ maxN ∧ r.2.length = (r.1 + 1).toNat) ∧
      (-1 ≤ minN → ∀ r ∈ out.records, (r.2.length : Int) = r.1 + 1) := by
  obtain ⟨recs, h1, h2, h3⟩ :=
    genLoop_ok rnd maxN m maxDim hmd hmax (maxN + 1 - minN).toNat minN 0 hmin rfl hr
  have hk : (((maxN + 1 - minN).toNat : Nat) : Int) = maxN - minN + 1 := by omega
  have hmn : ((m.toNat : Nat) : Int) = m := by omega
  have hnn : 0 ≤ m * (maxN - minN + 1) := mul_nonneg hm (by omega)
  have hmem : ∀ r ∈ recs, minN ≤ r.1 ∧ r.1 ≤ maxN := by
    intro r hr
    have : r.1 ∈ recs.map Prod.fst := List.mem_map_of_mem _ hr
    rw [h2, List.mem_flatten] at this
    obtain ⟨l, hl, hrl⟩ := this
    obtain ⟨t, ht, rfl⟩ := List.mem_map.mp hl
    have e := (List.mem_replicate.mp hrl).2
    have := List.mem_range.mp ht
    omega
  have hlen : ∀ r ∈ recs, r.2.length = (r.1 + 1).toNat := by
    intro r hr
    have := hmem r hr
    rw [h3 r hr, wrapInt_eq (r.1 + 1) (by omega) (by omega)]
  have ht := totalInstances_eq minN maxN m hmin hmax hr
  rw [hk] at ht
  refine ⟨⟨wrapInt (m * (maxN - minN + 1)), recs⟩, ?_, rfl, ?_, ?_, h2, ?_, ?_⟩
  · unfold generate
    rw [ht, h1]
  · intro hlt
    exact wrapInt_eq _ (by omega) hlt
  · show ((recs.length : Nat) : Int) = _
    rw [← List.length_map recs Prod.fst, h2, flatten_replicate_length]
    push_cast
    rw [hk, hmn]
  · exact fun r hr => ⟨(hmem r hr).1, (hmem r hr).2, hlen r hr⟩
  · intro hmin1 r hr
    show ((r.2.length : Nat) : Int) = _
    have := (hmem r hr).1
    rw [hlen r hr]
    omega

/-- The example of the header of `generate_instances.c`: `minN = 2`, `maxN = 3`, `m = 2`
gives `T = 4` and the records of `n = 2, 2, 3, 3`. -/
theorem generator_count_witness :
    ∃ out, generate (fun _ => 7) 2 3 2 10 = .ok out ∧ out.total = 4 ∧
      out.records.map Prod.fst = [2, 2, 3, 3] := by
  obtain ⟨out, h1, _, h2, _, h3, _⟩ :=
    generator_count (fun _ => 7) 2 3 2 10 (by decide) (by decide) (by decide) (by decide)
      (by decide)
  exact ⟨out, h1, h2 (by decide), h3⟩

end MCM
